import Mathlib

/-!
Verification of the radicle heartwood collaborative-object (COB) layer,
centered on the Patch COB (`src/radicle/src/cob/patch.rs`), the node handle
(`src/radicle/src/node.rs`) and the CLI scenario-file parser
(`src/radicle-cli-test/src/lib.rs`).

The CRDT primitive library (`radicle_crdt`: `GMap`, `GSet`, `LWWReg`,
`LWWSet`, `Max`, `Redactable`, `Semilattice`, `Lamport`) and the thread COB
(`thread.rs`) are not part of the provided sources; their definitions below
are modelled from the specification and are marked as such.

Identifiers (`EntryId`, `ObjectId`, `Oid`, `PublicKey`) are opaque
content hashes with a stable total order; we model them as naturals.
Rust strings are modelled as Lean strings with bytewise (here: `Char`
codepoint) lexicographic order.
-/

namespace Radicle

/-- Computable total order, used to keep the ordered containers
(`BTreeMap`/`BTreeSet` in the Rust sources) in canonical form.  The boolean
comparator evaluates by `rfl`/`decide`, which Mathlib's `LinearOrder String`
does not. -/
class LinOrd (α : Type) where
  ble : α → α → Bool
  ble_refl : ∀ a, ble a a = true
  ble_total : ∀ a b, ble a b = true ∨ ble b a = true
  ble_trans : ∀ a b c, ble a b = true → ble b c = true → ble a c = true
  ble_antisymm : ∀ a b, ble a b = true → ble b a = true → a = b

export LinOrd (ble)

theorem ble_of_not_ble {α : Type} [LinOrd α] {a b : α} (h : ¬ ble a b = true) :
    ble b a = true := by
  rcases LinOrd.ble_total a b with h1 | h1
  · exact absurd h1 h
  · exact h1

instance : LinOrd Nat where
  ble a b := Nat.ble a b
  ble_refl a := by simp [Nat.ble_eq]
  ble_total a b := by
    rcases Nat.le_total a b with h | h
    · exact Or.inl (by simpa [Nat.ble_eq] using h)
    · exact Or.inr (by simpa [Nat.ble_eq] using h)
  ble_trans a b c h1 h2 := by
    simp only [Nat.ble_eq] at *
    exact le_trans h1 h2
  ble_antisymm a b h1 h2 := by
    simp only [Nat.ble_eq] at *
    exact le_antisymm h1 h2

/-- Lexicographic comparator on lists of naturals; used for strings
(via their codepoints). -/
def bleListNat : List Nat → List Nat → Bool
  | [], _ => true
  | _ :: _, [] => false
  | a :: as, b :: bs =>
    if a < b then true
    else if b < a then false
    else bleListNat as bs

theorem bleListNat_refl (l : List Nat) : bleListNat l l = true := by
  induction l with
  | nil => rfl
  | cons a as ih => simp [bleListNat, ih]

theorem bleListNat_total (l1 l2 : List Nat) :
    bleListNat l1 l2 = true ∨ bleListNat l2 l1 = true := by
  induction l1 generalizing l2 with
  | nil => exact Or.inl rfl
  | cons a as ih =>
    cases l2 with
    | nil => exact Or.inr rfl
    | cons b bs =>
      rcases lt_trichotomy a b with hab | hab | hab
      · exact Or.inl (by simp [bleListNat, hab])
      · subst hab
        rcases ih bs with h | h
        · exact Or.inl (by simp [bleListNat, h])
        · exact Or.inr (by simp [bleListNat, h])
      · exact Or.inr (by simp [bleListNat, hab])

theorem bleListNat_trans (l1 l2 l3 : List Nat)
    (h1 : bleListNat l1 l2 = true) (h2 : bleListNat l2 l3 = true) :
    bleListNat l1 l3 = true := by
  induction l1 generalizing l2 l3 with
  | nil => rfl
  | cons a as ih =>
    cases l2 with
    | nil => simp [bleListNat] at h1
    | cons b bs =>
      cases l3 with
      | nil => simp [bleListNat] at h2
      | cons c cs =>
        rcases lt_trichotomy a b with hab | hab | hab
        · rcases lt_trichotomy b c with hbc | hbc | hbc
          · simp [bleListNat, lt_trans hab hbc]
          · subst hbc; simp [bleListNat, hab]
          · have hnbc : ¬ b < c := lt_asymm hbc
            simp [bleListNat, hnbc, hbc] at h2
        · subst hab
          simp only [bleListNat, lt_irrefl, if_false] at h1
          rcases lt_trichotomy a c with hac | hac | hac
          · simp [bleListNat, hac]
          · subst hac
            simp only [bleListNat, lt_irrefl, if_false] at h2 ⊢
            exact ih bs cs h1 h2
          · have hnac : ¬ a < c := lt_asymm hac
            simp [bleListNat, hnac, hac] at h2
        · have hnab : ¬ a < b := lt_asymm hab
          simp [bleListNat, hnab, hab] at h1

theorem bleListNat_antisymm (l1 l2 : List Nat)
    (h1 : bleListNat l1 l2 = true) (h2 : bleListNat l2 l1 = true) : l1 = l2 := by
  induction l1 generalizing l2 with
  | nil =>
    cases l2 with
    | nil => rfl
    | cons b bs => simp [bleListNat] at h2
  | cons a as ih =>
    cases l2 with
    | nil => simp [bleListNat] at h1
    | cons b bs =>
      rcases lt_trichotomy a b with hab | hab | hab
      · have hnba : ¬ b < a := lt_asymm hab
        simp [bleListNat, hnba, hab] at h2
      · subst hab
        simp only [bleListNat, lt_irrefl, if_false] at h1 h2
        rw [ih bs h1 h2]
      · have hnab : ¬ a < b := lt_asymm hab
        simp [bleListNat, hnab, hab] at h1

instance : LinOrd (List Nat) where
  ble := bleListNat
  ble_refl := bleListNat_refl
  ble_total := bleListNat_total
  ble_trans := bleListNat_trans
  ble_antisymm := bleListNat_antisymm

/-- Comparator lifted along an injection; used to order record types by a
key tuple, mirroring the derived or hand-written `Ord` instances in the
sources. -/
def LinOrd.lift {α β : Type} [LinOrd β] (f : α → β)
    (inj : ∀ a b, f a = f b → a = b) : LinOrd α where
  ble a b := ble (f a) (f b)
  ble_refl a := LinOrd.ble_refl (f a)
  ble_total a b := LinOrd.ble_total (f a) (f b)
  ble_trans a b c := LinOrd.ble_trans (f a) (f b) (f c)
  ble_antisymm a b h1 h2 := inj a b (LinOrd.ble_antisymm _ _ h1 h2)

instance : LinOrd String :=
  LinOrd.lift (fun s => s.data.map Char.toNat)
    (fun a b h => by
      apply String.ext
      have : ∀ l1 l2 : List Char, l1.map Char.toNat = l2.map Char.toNat → l1 = l2 := by
        intro l1
        induction l1 with
        | nil => intro l2 h; cases l2 with
          | nil => rfl
          | cons c cs => simp at h
        | cons c cs ih =>
          intro l2 h
          cases l2 with
          | nil => simp at h
          | cons d ds =>
            simp only [List.map_cons, List.cons.injEq] at h
            have hc : c = d :=
              Char.eq_of_val_eq (UInt32.eq_of_toBitVec_eq (BitVec.eq_of_toNat_eq h.1))
            exact List.cons_eq_cons.mpr ⟨hc, ih ds h.2⟩
      exact this a.data b.data h)

/-- Lexicographic product comparator (first component dominates). -/
instance prodLinOrd {α β : Type} [LinOrd α] [LinOrd β] : LinOrd (α × β) where
  ble p q :=
    if ble p.1 q.1 then (if ble q.1 p.1 then ble p.2 q.2 else true) else false
  ble_refl p := by simp [LinOrd.ble_refl]
  ble_total p q := by
    by_cases h1 : ble p.1 q.1 = true
    · by_cases h2 : ble q.1 p.1 = true
      · rcases LinOrd.ble_total p.2 q.2 with h | h
        · exact Or.inl (by simp [h1, h2, h])
        · exact Or.inr (by simp [h1, h2, h])
      · exact Or.inl (by simp [h1, h2])
    · exact Or.inr (by simp [ble_of_not_ble h1, h1])
  ble_trans p q r h1 h2 := by
    by_cases hpq : ble p.1 q.1 = true
    · by_cases hqr : ble q.1 r.1 = true
      · have hpr : ble p.1 r.1 = true := LinOrd.ble_trans _ _ _ hpq hqr
        by_cases hrp : ble r.1 p.1 = true
        · have hqp : ble q.1 p.1 = true := LinOrd.ble_trans _ _ _ hqr hrp
          have hrq : ble r.1 q.1 = true := LinOrd.ble_trans _ _ _ hrp hpq
          simp only [hpq, hqp, if_true, hqr, hrq] at h1 h2
          simp only [hpr, hrp, if_true]
          exact LinOrd.ble_trans _ _ _ h1 h2
        · simp [hpr, hrp]
      · simp [hpq, hqr] at h2
    · simp [hpq] at h1
  ble_antisymm p q h1 h2 := by
    by_cases hpq : ble p.1 q.1 = true
    · by_cases hqp : ble q.1 p.1 = true
      · have hfst : p.1 = q.1 := LinOrd.ble_antisymm _ _ hpq hqp
        simp only [hpq, hqp, if_true] at h1 h2
        have hsnd : p.2 = q.2 := LinOrd.ble_antisymm _ _ h1 h2
        exact Prod.ext hfst hsnd
      · simp [hqp] at h2
    · simp [hpq] at h1

/-- Semilattice interface of the CRDT library.  Modelled from the spec:
each primitive has a pure merge that is commutative, associative and
idempotent (the laws are proved below for the instances the claims need,
not assumed). -/
class Semilattice (α : Type) where
  merge : α → α → α

/-- Max lattice over a totally ordered type.  Modelled from the spec:
merge keeps the greater. -/
structure Max (α : Type) where
  get : α
deriving DecidableEq, Repr

instance {α : Type} [LinOrd α] : Semilattice (Max α) where
  merge a b := if ble a.get b.get then b else a

instance {α : Type} [LinOrd α] : LinOrd (Max α) :=
  LinOrd.lift Max.get (fun a b h => by cases a; cases b; simpa using h)

/-- Option semilattice.  Modelled from the spec: an absent value is the
identity of merge, two present values merge their contents. -/
instance {α : Type} [Semilattice α] : Semilattice (Option α) where
  merge a b :=
    match a, b with
    | none, b => b
    | a, none => a
    | some a, some b => some (Semilattice.merge a b)

/-- Last-writer-wins register.  Modelled from the spec: a value paired with
a Lamport clock; merge keeps the value with the larger clock and on a tie
merges the values (for the `Max`-wrapped values used by the patch COB this
is the tie-break by value ordering the spec describes). -/
structure LWWReg (α : Type) where
  value : α
  clock : Nat
deriving DecidableEq, Repr

namespace LWWReg

def merge {α : Type} [Semilattice α] (a b : LWWReg α) : LWWReg α :=
  if a.clock < b.clock then b
  else if b.clock < a.clock then a
  else ⟨Semilattice.merge a.value b.value, a.clock⟩

instance {α : Type} [Semilattice α] : Semilattice (LWWReg α) := ⟨merge⟩

/-- Mutating helper `set`, expressed in terms of merge as the spec
requires. -/
def set {α : Type} [Semilattice α] (r : LWWReg α) (v : α) (c : Nat) : LWWReg α :=
  merge r ⟨v, c⟩

/-- Mirror of Rust `LWWReg::from(value)`: the initial clock is the default
Lamport clock, zero. -/
def from_ {α : Type} (v : α) : LWWReg α := ⟨v, 0⟩

end LWWReg

/-! Ordered association lists: the canonical representation we use for the
`BTreeMap`-backed CRDT containers.  `insKey` inserts in key order and
combines values of equal keys with the supplied merge, mirroring
`GMap::insert` which merges into the existing entry. -/

def insKey {κ ν : Type} [LinOrd κ] (m : ν → ν → ν) (k : κ) (v : ν) :
    List (κ × ν) → List (κ × ν)
  | [] => [(k, v)]
  | (k2, v2) :: t =>
    if ble k k2 then
      if ble k2 k then (k2, m v2 v) :: t
      else (k, v) :: (k2, v2) :: t
    else (k2, v2) :: insKey m k v t

def lookupKey {κ ν : Type} [LinOrd κ] (k : κ) : List (κ × ν) → Option ν
  | [] => none
  | (k2, v2) :: t => if ble k k2 && ble k2 k then some v2 else lookupKey k t

def containsKey {κ ν : Type} [LinOrd κ] (k : κ) (l : List (κ × ν)) : Bool :=
  (lookupKey k l).isSome

/-- Update the entry of key `k` in place (mirror of `get_mut`); no change
when the key is absent. -/
def modifyKey {κ ν : Type} [LinOrd κ] (k : κ) (f : ν → ν) :
    List (κ × ν) → List (κ × ν)
  | [] => []
  | (k2, v2) :: t =>
    if ble k k2 && ble k2 k then (k2, f v2) :: t else (k2, v2) :: modifyKey k f t

/-- Ordered insertion into a duplicate-free list (the `BTreeSet` model). -/
def sinsert {α : Type} [LinOrd α] (a : α) : List α → List α
  | [] => [a]
  | b :: t => if ble a b then (if ble b a then b :: t else a :: b :: t) else b :: sinsert a t

/-- Strict sortedness of an element list under the comparator: the
invariant of `sinsert`-built lists. -/
def SStrict {α : Type} [LinOrd α] (l : List α) : Prop :=
  l.Pairwise (fun a b => ble a b = true ∧ ble b a = false)

/-- Grow-only set.  Modelled from the spec: merge is union. -/
structure GSet (α : Type) where
  elems : List α
deriving DecidableEq, Repr

def GSet.empty {α : Type} : GSet α := ⟨[]⟩

def GSet.insert {α : Type} [LinOrd α] (s : GSet α) (a : α) : GSet α :=
  ⟨sinsert a s.elems⟩

instance {α : Type} [LinOrd α] : Semilattice (GSet α) where
  merge a b := ⟨b.elems.foldl (fun l x => sinsert x l) a.elems⟩

/-- Grow-only map with semilattice values.  Modelled from the spec: merge
is per-key merge of values. -/
structure GMap (κ ν : Type) where
  entries : List (κ × ν)
deriving DecidableEq, Repr

def GMap.empty {κ ν : Type} : GMap κ ν := ⟨[]⟩

def GMap.insert {κ ν : Type} [LinOrd κ] [Semilattice ν] (g : GMap κ ν) (k : κ) (v : ν) :
    GMap κ ν :=
  ⟨insKey Semilattice.merge k v g.entries⟩

def GMap.lookup {κ ν : Type} [LinOrd κ] (g : GMap κ ν) (k : κ) : Option ν :=
  lookupKey k g.entries

def GMap.contains {κ ν : Type} [LinOrd κ] (g : GMap κ ν) (k : κ) : Bool :=
  containsKey k g.entries

def GMap.modify {κ ν : Type} [LinOrd κ] (g : GMap κ ν) (k : κ) (f : ν → ν) : GMap κ ν :=
  ⟨modifyKey k f g.entries⟩

def GMap.len {κ ν : Type} (g : GMap κ ν) : Nat := g.entries.length

instance {κ ν : Type} [LinOrd κ] [Semilattice ν] : Semilattice (GMap κ ν) where
  merge a b := b.entries.foldl (fun g e => GMap.insert g e.1 e.2) a

/-- Presence cell of an `LWWSet` element: a presence flag plus the clock of
the latest flip.  Modelled from the spec: presence flips toward the larger
clock and a tie favors removal. -/
def cellJoin (a b : Bool × Nat) : Bool × Nat :=
  if a.2 < b.2 then b else if b.2 < a.2 then a else (a.1 && b.1, a.2)

/-- Last-writer-wins set.  Modelled from the spec: per element a
`(present, clock)` cell, merged with `cellJoin`. -/
structure LWWSet (α : Type) where
  entries : List (α × (Bool × Nat))
deriving DecidableEq, Repr

def LWWSet.empty {α : Type} : LWWSet α := ⟨[]⟩

def LWWSet.insert {α : Type} [LinOrd α] (s : LWWSet α) (a : α) (c : Nat) : LWWSet α :=
  ⟨insKey cellJoin a (true, c) s.entries⟩

def LWWSet.remove {α : Type} [LinOrd α] (s : LWWSet α) (a : α) (c : Nat) : LWWSet α :=
  ⟨insKey cellJoin a (false, c) s.entries⟩

/-- Elements currently present, in element order (the `iter` of the Rust
type). -/
def LWWSet.iterList {α : Type} (s : LWWSet α) : List α :=
  s.entries.filterMap (fun e => if e.2.1 then some e.1 else none)

instance {α : Type} [LinOrd α] : Semilattice (LWWSet α) where
  merge a b := ⟨b.entries.foldl (fun l e => insKey cellJoin e.1 e.2 l) a.entries⟩

/-- Redactable wrapper.  Modelled from the spec: `redacted` is the top of
the lattice — once redacted, always redacted — and two present values merge
their contents. -/
inductive Redactable (α : Type) where
  | present (val : α)
  | redacted
deriving DecidableEq, Repr

def Redactable.get {α : Type} : Redactable α → Option α
  | .present a => some a
  | .redacted => none

instance {α : Type} [Semilattice α] : Semilattice (Redactable α) where
  merge a b :=
    match a, b with
    | .present x, .present y => .present (Semilattice.merge x y)
    | _, _ => .redacted

/-- Operation record of the COB layer (`cob::Op`): an entry id, a typed
action, the author's public key, a wall-clock timestamp and a Lamport
clock.  Identifiers, keys, oids and timestamps are modelled as naturals. -/
structure Op (A : Type) where
  id : Nat
  action : A
  author : Nat
  timestamp : Nat
  clock : Nat
deriving DecidableEq, Repr

/-! The thread COB (`thread.rs` is not among the provided sources). -/

/-- Comment of a discussion thread.  Modelled from the spec: a comment
carries a body edited through a last-writer-wins register over the max
lattice of strings, and an optional reply-to comment id. -/
structure Comment where
  author : Nat
  body : LWWReg (Max String)
  replyTo : Option Nat
  timestamp : Nat
deriving DecidableEq, Repr

instance : Semilattice Comment where
  merge a b := { a with body := Semilattice.merge a.body b.body }

/-- Thread actions.  Modelled from the spec: comment, redact, edit. -/
inductive ThreadAction where
  | comment (body : String) (replyTo : Option Nat)
  | redact (comment : Nat)
  | edit (comment : Nat) (body : String)
deriving DecidableEq, Repr

/-- Thread apply error.  Modelled from the spec: the only causal-dependency
rule is that a referenced entry must have been applied. -/
inductive ThreadOpError where
  | missing (id : Nat)
deriving DecidableEq, Repr

/-- Thread COB state.  Modelled from the spec: a grow-only map from comment
id to redactable comment plus a grow-only timeline of `(clock, id)`
pairs. -/
structure Thread where
  comments : GMap Nat (Redactable Comment)
  timeline : GSet (Nat × Nat)
deriving DecidableEq, Repr

namespace Thread

def default : Thread := ⟨GMap.empty, GSet.empty⟩

instance : Semilattice Thread where
  merge a b :=
    ⟨Semilattice.merge a.comments b.comments, Semilattice.merge a.timeline b.timeline⟩

/-- Apply one thread operation.  Modelled from the spec: a comment id is
the content hash of its operation, so re-applying an existing comment is a
no-op; a fresh comment whose reply-to target is absent fails with
`missing`; redacting an absent comment fails with `missing`; editing a
comment requires it to exist (editing a redacted comment is a no-op, as
redaction is permanent).  The timeline records every operation, before the
action's precondition is checked.  On failure the (partially updated)
state is returned alongside the error, mirroring the `&mut self`
mutation. -/
def applyOp (t : Thread) (op : Op ThreadAction) : Thread × Option ThreadOpError :=
  let t : Thread := { t with timeline := t.timeline.insert (op.clock, op.id) }
  match op.action with
  | .comment body replyTo =>
    if t.comments.contains op.id then (t, none)
    else
      let ins : Thread :=
        { t with
          comments :=
            t.comments.insert op.id
              (.present ⟨op.author, ⟨Max.mk body, op.clock⟩, replyTo, op.timestamp⟩) }
      match replyTo with
      | none => (ins, none)
      | some c =>
        match t.comments.lookup c with
        | some (.present _) => (ins, none)
        | _ => (t, some (.missing c))
  | .redact cid =>
    match t.comments.lookup cid with
    | some _ =>
      ({ t with comments := t.comments.modify cid (fun s => Semilattice.merge s .redacted) },
        none)
    | none => (t, some (.missing cid))
  | .edit cid body =>
    match t.comments.lookup cid with
    | some (.present _) =>
      ({ t with
          comments :=
            t.comments.modify cid (fun s =>
              match s with
              | .present cm => .present { cm with body := cm.body.set (Max.mk body) op.clock }
              | x => x) },
        none)
    | some .redacted => (t, none)
    | none => (t, some (.missing cid))

end Thread

/-! The patch COB, translated from `src/radicle/src/cob/patch.rs`. -/

/-- Where a patch is intended to be merged (single variant). -/
inductive MergeTarget where
  | delegates
deriving DecidableEq, Repr

instance : LinOrd MergeTarget where
  ble _ _ := true
  ble_refl _ := rfl
  ble_total _ _ := Or.inl rfl
  ble_trans _ _ _ _ _ := rfl
  ble_antisymm a b _ _ := by cases a; cases b; rfl

/-- Patch state: proposed, draft or archived, with the derived order. -/
inductive State where
  | proposed
  | draft
  | archived
deriving DecidableEq, Repr

def State.toNat : State → Nat
  | .proposed => 0
  | .draft => 1
  | .archived => 2

instance : LinOrd State :=
  LinOrd.lift State.toNat
    (fun a b h => by cases a <;> cases b <;> simp [State.toNat] at h ⊢)

/-- A patch review verdict. -/
inductive Verdict where
  | accept
  | reject
deriving DecidableEq, Repr

/-- Source `impl Semilattice for Verdict`: the verdict flips only from
accept to reject. -/
instance : Semilattice Verdict where
  merge a b :=
    match a, b with
    | .accept, .reject => .reject
    | a, _ => a

/-- Code location of an inline comment; ordered by the source's hand-written
lexicographic `Ord` over (blob, path, commit, line start, line end). -/
structure CodeLocation where
  blob : Nat
  path : String
  commit : Nat
  lines : Nat × Nat
deriving DecidableEq, Repr

instance : LinOrd CodeLocation :=
  LinOrd.lift (fun c => (c.blob, c.path, c.commit, c.lines.1, c.lines.2))
    (fun a b h => by
      cases a; cases b
      simp only [Prod.mk.injEq] at h
      simp_all [Prod.ext_iff])

/-- Inline comment on code; derived lexicographic order. -/
structure CodeComment where
  location : CodeLocation
  comment : String
  timestamp : Nat
deriving DecidableEq, Repr

instance : LinOrd CodeComment :=
  LinOrd.lift (fun c => (c.location, c.comment, c.timestamp))
    (fun a b h => by
      cases a; cases b
      simp only [Prod.mk.injEq] at h
      simp_all)

/-- A merged patch revision; derived lexicographic order. -/
structure Merge where
  node : Nat
  commit : Nat
  timestamp : Nat
deriving DecidableEq, Repr

instance : LinOrd Merge :=
  LinOrd.lift (fun m => (m.node, m.commit, m.timestamp))
    (fun a b h => by
      cases a; cases b
      simp only [Prod.mk.injEq] at h
      simp_all)

/-- A patch review: LWW verdict and comment, LWW set of inline comments,
max-lattice timestamp. -/
structure Review where
  verdict : LWWReg (Option Verdict)
  comment : LWWReg (Option (Max String))
  inline : LWWSet (Max CodeComment)
  timestamp : Max Nat
deriving DecidableEq, Repr

namespace Review

/-- Source `impl Semilattice for Review`: componentwise merge. -/
instance : Semilattice Review where
  merge a b :=
    ⟨Semilattice.merge a.verdict b.verdict, Semilattice.merge a.comment b.comment,
      Semilattice.merge a.inline b.inline, Semilattice.merge a.timestamp b.timestamp⟩

/-- Source `Review::new`: registers start at the default (zero) clock and
inline comments are inserted at the default clock. -/
def new (verdict : Option Verdict) (comment : Option String)
    (inline : List CodeComment) (timestamp : Nat) : Review :=
  ⟨LWWReg.from_ verdict, LWWReg.from_ (comment.map Max.mk),
    inline.foldl (fun s c => s.insert (Max.mk c) 0) LWWSet.empty,
    Max.mk timestamp⟩

/-- Source `Review::verdict`. -/
def verdictVal (r : Review) : Option Verdict := r.verdict.value

/-- Source `Review::comment`. -/
def commentVal (r : Review) : Option String := r.comment.value.map Max.get

end Review

/-- A patch revision. -/
structure Revision where
  author : Nat
  description : LWWReg (Max String)
  base : Nat
  oid : Nat
  discussion : Thread
  merges : LWWSet (Max Merge)
  reviews : GMap Nat Review
  timestamp : Nat
deriving DecidableEq, Repr

namespace Revision

/-- Source `Revision::new`. -/
def new (author : Nat) (description : String) (base : Nat) (oid : Nat)
    (timestamp : Nat) : Revision :=
  ⟨author, LWWReg.from_ (Max.mk description), base, oid, Thread.default,
    LWWSet.empty, GMap.empty, timestamp⟩

/-- Merge of two revisions.  Modelled from the spec: `patch.rs` does not
contain this `impl`; per the data model the CRDT fields (description,
discussion, merges, reviews) merge and the identity fields (author, base,
oid, timestamp) are fixed by the revision's content hash. -/
instance : Semilattice Revision where
  merge a b :=
    { a with
      description := Semilattice.merge a.description b.description
      discussion := Semilattice.merge a.discussion b.discussion
      merges := Semilattice.merge a.merges b.merges
      reviews := Semilattice.merge a.reviews b.reviews }

def descriptionVal (r : Revision) : String := r.description.value.get

end Revision

/-- Patch operations (`Action` in the source). -/
inductive Action where
  | edit (title : String) (description : String) (target : MergeTarget)
  | tag (add : List String) (remove : List String)
  | revision (description : String) (base : Nat) (oid : Nat)
  | redact (revision : Nat)
  | review (revision : Nat) (comment : Option String) (verdict : Option Verdict)
      (inline : List CodeComment)
  | merge (revision : Nat) (commit : Nat)
  | thread (revision : Nat) (action : ThreadAction)
deriving DecidableEq, Repr

/-- Error applying an operation onto a patch state. -/
inductive ApplyError where
  | missing (id : Nat)
  | thread (e : ThreadOpError)
deriving DecidableEq, Repr

/-- The patch COB state. -/
structure Patch where
  title : LWWReg (Max String)
  description : LWWReg (Max String)
  state : LWWReg (Max State)
  target : LWWReg (Max MergeTarget)
  tags : LWWSet String
  revisions : GMap Nat (Redactable Revision)
  timeline : GSet (Nat × Nat)
deriving DecidableEq, Repr

namespace Patch

/-- Source `impl Default for Patch`. -/
def default : Patch :=
  ⟨LWWReg.from_ (Max.mk ""), LWWReg.from_ (Max.mk ""), LWWReg.from_ (Max.mk .proposed),
    LWWReg.from_ (Max.mk .delegates), LWWSet.empty, GMap.empty, GSet.empty⟩

/-- Source `impl Semilattice for Patch`: all fields merge except the
timeline, which is left as the receiver's. -/
instance : Semilattice Patch where
  merge a b :=
    { a with
      title := Semilattice.merge a.title b.title
      description := Semilattice.merge a.description b.description
      state := Semilattice.merge a.state b.state
      target := Semilattice.merge a.target b.target
      tags := Semilattice.merge a.tags b.tags
      revisions := Semilattice.merge a.revisions b.revisions }

/-- Apply one operation, translated arm by arm from `Patch::apply`.  The
`(clock, id)` pair is recorded in the timeline before the action is
interpreted.  On failure the partially updated state is returned together
with the error, mirroring the in-place mutation of `&mut self`. -/
def applyOp (p : Patch) (op : Op Action) : Patch × Option ApplyError :=
  let p : Patch := { p with timeline := p.timeline.insert (op.clock, op.id) }
  match op.action with
  | .edit title description target =>
    ({ p with
        title := p.title.set (Max.mk title) op.clock
        description := p.description.set (Max.mk description) op.clock
        target := p.target.set (Max.mk target) op.clock },
      none)
  | .tag add remove =>
    let tags := add.foldl (fun s t => s.insert t op.clock) p.tags
    let tags := remove.foldl (fun s t => s.remove t op.clock) tags
    ({ p with tags := tags }, none)
  | .revision description base oid =>
    if p.revisions.contains op.id then (p, none)
    else
      ({ p with
          revisions :=
            p.revisions.insert op.id
              (.present (Revision.new op.author description base oid op.timestamp)) },
        none)
  | .redact revision =>
    match p.revisions.lookup revision with
    | some _ =>
      ({ p with
          revisions := p.revisions.modify revision (fun s => Semilattice.merge s .redacted) },
        none)
    | none => (p, some (.missing revision))
  | .review revision comment verdict inline =>
    match p.revisions.lookup revision with
    | some (.present _) =>
      ({ p with
          revisions :=
            p.revisions.modify revision (fun s =>
              match s with
              | .present rev =>
                .present
                  { rev with
                    reviews :=
                      rev.reviews.insert op.author
                        (Review.new verdict comment inline op.timestamp) }
              | x => x) },
        none)
    | _ => (p, some (.missing revision))
  | .merge revision commit =>
    match p.revisions.lookup revision with
    | some (.present _) =>
      ({ p with
          revisions :=
            p.revisions.modify revision (fun s =>
              match s with
              | .present rev =>
                .present
                  { rev with
                    merges := rev.merges.insert (Max.mk ⟨op.author, commit, op.timestamp⟩) op.clock }
              | x => x) },
        none)
    | _ => (p, some (.missing revision))
  | .thread revision act =>
    match p.revisions.lookup revision with
    | some (.present rev) =>
      let inner := Thread.applyOp rev.discussion ⟨op.id, act, op.author, op.timestamp, op.clock⟩
      ({ p with
          revisions :=
            p.revisions.modify revision (fun s =>
              match s with
              | .present rv =>
                .present
                  { rv with
                    discussion :=
                      (Thread.applyOp rv.discussion
                        ⟨op.id, act, op.author, op.timestamp, op.clock⟩).1 }
              | x => x) },
        inner.2.map ApplyError.thread)
    | _ => (p, some (.missing revision))

/-- Apply a batch of operations in order, stopping at the first error;
the state accumulated so far is kept (no rollback), as with `&mut self`
in the source. -/
def apply (p : Patch) : List (Op Action) → Patch × Option ApplyError
  | [] => (p, none)
  | op :: rest =>
    match applyOp p op with
    | (q, none) => apply q rest
    | (q, some e) => (q, some e)

/-- Result-valued view of `apply`, matching the `Result<(), ApplyError>`
signature of the source. -/
def applyE (p : Patch) (ops : List (Op Action)) : Except ApplyError Patch :=
  match apply p ops with
  | (q, none) => .ok q
  | (_, some e) => .error e

/-- Source `Patch::revisions`: iterate the timeline and keep the ids that
resolve to a present (non-redacted) revision. -/
def revisionsList (p : Patch) : List (Nat × Revision) :=
  p.timeline.elems.filterMap (fun t =>
    (p.revisions.lookup t.2).bind (fun s => s.get.map (fun r => (t.2, r))))

/-- Source `Patch::version`: `revisions.len().checked_sub(1)`, with the
`expect` partiality modelled by `Option`.  Note this counts every revision
slot of the map, redacted ones included. -/
def version (p : Patch) : Option Nat :=
  match p.revisions.len with
  | 0 => none
  | n + 1 => some n

/-- Source `Patch::latest`: last element of the revisions iterator. -/
def latest (p : Patch) : Option (Nat × Revision) :=
  p.revisionsList.getLast?

end Patch

/-! The node handle, translated from `src/radicle/src/node.rs`.  Each
handle method consumes the stream of already-read response lines of the
daemon connection, each line being either a parsed value or a call
error; an empty list is a connection that emits no line before EOF. -/

inductive CommandName where
  | announceRefs
  | announceInventory
  | syncInventory
  | connect
  | seeds
  | fetch
  | trackRepo
  | untrackRepo
  | trackNode
  | untrackNode
  | status
  | shutdown
deriving DecidableEq, Repr

/-- Result of a command on the node control socket. -/
inductive CommandResult where
  | okay (updated : Bool)
  | error (reason : String)
deriving DecidableEq, Repr

/-- Error returned by the `Node::call` response iterator. -/
inductive CallError where
  | io
  | invalidJson (cmd : CommandName) (response : String)
deriving DecidableEq, Repr

/-- Error returned by the handle functions. -/
inductive NodeError where
  | connect
  | call (e : CallError)
  | node (reason : String)
  | emptyResponse (cmd : CommandName)
deriving DecidableEq, Repr

/-- A seed of a repository. -/
inductive Seed where
  | disconnected (id : Nat)
  | fetching (id : Nat)
  | connected (id : Nat)
deriving DecidableEq, Repr

/-- Result of a fetch. -/
inductive FetchResult where
  | success (updated : List Nat)
  | failed (reason : String)
deriving DecidableEq, Repr

namespace Node

/-- The `.next().ok_or(Error::EmptyResponse)??` pattern shared by the
single-response handle methods: the first line, or `emptyResponse` when
the connection emits none; a call error on the line maps to `call`. -/
def callFirst {T : Type} (cmd : CommandName) (lines : List (Except CallError T)) :
    Except NodeError T :=
  match lines with
  | [] => .error (.emptyResponse cmd)
  | l :: _ =>
    match l with
    | .ok v => .ok v
    | .error e => .error (.call e)

/-- Conversion `impl From<CommandResult> for Result<bool, Error>`. -/
def commandResultInto : CommandResult → Except NodeError Bool
  | .okay updated => .ok updated
  | .error reason => .error (.node reason)

/-- `Handle::connect` for `Node`: first response line demanded, its value
discarded. -/
def connect (lines : List (Except CallError CommandResult)) : Except NodeError Unit :=
  match callFirst CommandName.connect lines with
  | .ok _ => .ok ()
  | .error e => .error e

/-- `Handle::seeds` for `Node`. -/
def seedsCmd (lines : List (Except CallError (List Seed))) : Except NodeError (List Seed) :=
  callFirst CommandName.seeds lines

/-- `Handle::fetch` for `Node`. -/
def fetchCmd (lines : List (Except CallError FetchResult)) : Except NodeError FetchResult :=
  callFirst CommandName.fetch lines

/-- `Handle::track_node` for `Node`. -/
def trackNode (lines : List (Except CallError CommandResult)) : Except NodeError Bool :=
  (callFirst CommandName.trackNode lines).bind commandResultInto

/-- `Handle::track_repo` for `Node`. -/
def trackRepo (lines : List (Except CallError CommandResult)) : Except NodeError Bool :=
  (callFirst CommandName.trackRepo lines).bind commandResultInto

/-- `Handle::untrack_node` for `Node`. -/
def untrackNode (lines : List (Except CallError CommandResult)) : Except NodeError Bool :=
  (callFirst CommandName.untrackNode lines).bind commandResultInto

/-- `Handle::untrack_repo` for `Node`. -/
def untrackRepo (lines : List (Except CallError CommandResult)) : Except NodeError Bool :=
  (callFirst CommandName.untrackRepo lines).bind commandResultInto

/-- `Handle::sync_inventory` for `Node`. -/
def syncInventory (lines : List (Except CallError CommandResult)) : Except NodeError Bool :=
  (callFirst CommandName.syncInventory lines).bind commandResultInto

/-- `Handle::announce_refs` for `Node`: every line is consumed, the first
call error aborts; an exhausted (even empty) stream is a success. -/
def announceRefs : List (Except CallError CommandResult) → Except NodeError Unit
  | [] => .ok ()
  | .ok _ :: t => announceRefs t
  | .error e :: _ => .error (.call e)

/-- `Handle::announce_inventory` for `Node`: same consumption as
`announce_refs`. -/
def announceInventory : List (Except CallError CommandResult) → Except NodeError Unit
  | [] => .ok ()
  | .ok _ :: t => announceInventory t
  | .error e :: _ => .error (.call e)

/-- `Handle::is_running` for `Node`: true only when the first line is an
okay result. -/
def isRunning (lines : List (Except CallError CommandResult)) : Bool :=
  match lines with
  | .ok (.okay _) :: _ => true
  | _ => false

end Node

/-! The scenario-file parser, translated from
`src/radicle-cli-test/src/lib.rs`.  The `shlex` crate is external to the
repository, so the word splitter is a parameter `lex` of the model; file
paths are strings. -/

inductive ExitStatus where
  | success
  | failure
deriving DecidableEq, Repr

/-- An assertion: a command to run with an expected output. -/
structure Assertion where
  path : String
  command : String
  args : List String
  expected : String
  exit : ExitStatus
deriving DecidableEq, Repr

/-- A test: human context plus the assertions of one fenced block. -/
structure Test where
  context : List String
  assertions : List Assertion
deriving DecidableEq, Repr

inductive ParseError where
  | parse
deriving DecidableEq, Repr

/-- Update the last element of a list, if any. -/
def modifyLast {α : Type} (f : α → α) : List α → List α
  | [] => []
  | [a] => [f a]
  | a :: b :: t => a :: modifyLast f (b :: t)

namespace TestFormula

/-- Appending an output line to the current assertion: a line beginning
with the error glyph marks the expected exit as failure, and the line plus
a newline is appended to the expected output. -/
def pushOutput (l : String) (a : Assertion) : Assertion :=
  { a with
    exit := if l.startsWith "✗" then .failure else a.exit
    expected := a.expected ++ l ++ "\n" }

/-- The line loop of `TestFormula::read`, one constructor arm per branch of
the source: fence lines toggle the fenced flag and close the current test;
inside a fence a `$` line starts a new assertion from the lexed words and
any other line extends the last assertion; outside a fence lines accumulate
as context. -/
def readGo (lex : String → Option (List String)) (path : String) :
    List Test → Test → Bool → List String → Except ParseError (List Test)
  | tests, _, _, [] => .ok tests
  | tests, cur, fenced, l :: t =>
    if l.startsWith "```" then
      if fenced then readGo lex path (tests ++ [cur]) ⟨[], []⟩ false t
      else readGo lex path tests cur true t
    else if fenced then
      if l.startsWith "$" then
        match lex ((l.drop 1).trim) with
        | none => .error .parse
        | some [] => .error .parse
        | some (cmd :: args) =>
          readGo lex path tests
            ⟨cur.context, cur.assertions ++ [⟨path, cmd, args, "", .success⟩]⟩ true t
      else
        if cur.assertions.isEmpty then .error .parse
        else readGo lex path tests ⟨cur.context, modifyLast (pushOutput l) cur.assertions⟩ true t
    else readGo lex path tests ⟨cur.context ++ [l], cur.assertions⟩ false t

/-- Source `TestFormula::read`, starting from no tests, an empty current
test and outside any fence. -/
def read (lex : String → Option (List String)) (path : String)
    (lines : List String) : Except ParseError (List Test) :=
  readGo lex path [] ⟨[], []⟩ false lines

/-! Specification-level parser, following the claim's words: the file is
cut into fenced blocks, each block is parsed on its own into assertions,
and the resulting (context, assertions) pairs are listed in file order. -/

/-- Block parser from the claim's words: a `$` line begins a new assertion
with the lexed command and arguments, empty expected output and expected
success; any other line extends the expected output of the current
assertion, a leading error glyph marking expected failure. -/
def parseGo (lex : String → Option (List String)) (path : String)
    (acc : List Assertion) : List String → Except ParseError (List Assertion)
  | [] => .ok acc
  | l :: t =>
    if l.startsWith "$" then
      match lex ((l.drop 1).trim) with
      | none => .error .parse
      | some [] => .error .parse
      | some (cmd :: args) => parseGo lex path (acc ++ [⟨path, cmd, args, "", .success⟩]) t
    else
      if acc.isEmpty then .error .parse
      else parseGo lex path (modifyLast (pushOutput l) acc) t

def parseBlock (lex : String → Option (List String)) (path : String)
    (body : List String) : Except ParseError (List Assertion) :=
  parseGo lex path [] body

mutual

/-- Outside a fence: collect context lines until a fence opens. -/
def specGo (lex : String → Option (List String)) (path : String)
    (ctx : List String) : List String → Except ParseError (List Test)
  | [] => .ok []
  | l :: t =>
    if l.startsWith "```" then specIn lex path ctx [] t
    else specGo lex path (ctx ++ [l]) t

/-- Inside a fence: collect the block body; at the closing fence the body
is parsed into the assertions paired with the pending context, in file
order; a block the file ends inside is parsed (for errors) but yields no
test. -/
def specIn (lex : String → Option (List String)) (path : String)
    (ctx : List String) (body : List String) : List String → Except ParseError (List Test)
  | [] => (parseBlock lex path body).map (fun _ => [])
  | l :: t =>
    if l.startsWith "```" then
      match parseBlock lex path body with
      | .error e => .error e
      | .ok asserts =>
        match specGo lex path [] t with
        | .error e => .error e
        | .ok ts => .ok (⟨ctx, asserts⟩ :: ts)
    else specIn lex path ctx (body ++ [l]) t

end

/-- Specification-level `read`. -/
def readSpec (lex : String → Option (List String)) (path : String)
    (lines : List String) : Except ParseError (List Test) :=
  specGo lex path [] lines

end TestFormula

/-! Canonical evaluation of patch operation batches, used to prove the
convergence law: operations are replayed in class order (revision
creations, then thread comment creations, then everything else) by a total
step function that agrees with `Patch::applyOp` on every succeeding
step. -/

/-- Timeline recording, the part of a step every operation performs. -/
def tlIns (t : Nat × Nat) (p : Patch) : Patch :=
  { p with timeline := p.timeline.insert t }

def thTlIns (t : Nat × Nat) (th : Thread) : Thread :=
  { th with timeline := th.timeline.insert t }

/-- Lift a function on values to redactable values; a redacted slot is
left alone. -/
def presMod {α : Type} (f : α → α) : Redactable α → Redactable α
  | .present v => .present (f v)
  | .redacted => .redacted

/-- Apply a function to the entry list of the revisions map. -/
def Patch.mapRev (f : List (Nat × Redactable Revision) → List (Nat × Redactable Revision))
    (p : Patch) : Patch :=
  { p with revisions := ⟨f p.revisions.entries⟩ }

/-- Apply a function to the entry list of a thread's comments map. -/
def Thread.mapCom
    (f : List (Nat × Redactable Comment) → List (Nat × Redactable Comment))
    (th : Thread) : Thread :=
  { th with comments := ⟨f th.comments.entries⟩ }

/-- Record a thread-timeline entry inside a present revision slot. -/
def patchThTl (r : Nat) (t : Nat × Nat) (p : Patch) : Patch :=
  Patch.mapRev (modifyKey r (presMod (fun rv => { rv with discussion := thTlIns t rv.discussion }))) p

/-- The revision slot an action's precondition and effect concern, when
any. -/
def touchesRev : Action → Option Nat
  | .redact r => some r
  | .review r _ _ _ => some r
  | .merge r _ => some r
  | .thread r _ => some r
  | _ => none

/-- The existing comment a thread sub-action modifies, when any. -/
def thModTargetT : ThreadAction → Option Nat
  | .redact c => some c
  | .edit c _ => some c
  | .comment _ _ => none

/-- The existing comment a patch thread action modifies, when any. -/
def thModTarget : Action → Option Nat
  | .thread _ (.redact c) => some c
  | .thread _ (.edit c _) => some c
  | _ => none

/-- A single LWW-set cell write (the common shape of insert and remove). -/
def cellUpd {α : Type} [LinOrd α] (a : α) (c : Bool × Nat) (s : LWWSet α) : LWWSet α :=
  ⟨insKey cellJoin a c s.entries⟩

namespace Thread

/-- Total action interpretation for threads: precondition failures become
no-ops (and the reply-to precondition of a fresh comment is ignored, since
it does not guard any effect). -/
def astep (th : Thread) (op : Op ThreadAction) : Thread :=
  match op.action with
  | .comment body replyTo =>
    if th.comments.contains op.id then th
    else
      { th with
        comments :=
          th.comments.insert op.id
            (.present ⟨op.author, ⟨Max.mk body, op.clock⟩, replyTo, op.timestamp⟩) }
  | .redact cid =>
    match th.comments.lookup cid with
    | some _ =>
      { th with comments := th.comments.modify cid (fun s => Semilattice.merge s .redacted) }
    | none => th
  | .edit cid body =>
    match th.comments.lookup cid with
    | some (.present _) =>
      { th with
        comments :=
          th.comments.modify cid (fun s =>
            match s with
            | .present cm => .present { cm with body := cm.body.set (Max.mk body) op.clock }
            | x => x) }
    | _ => th

def gstep (th : Thread) (op : Op ThreadAction) : Thread :=
  thTlIns (op.clock, op.id) (astep th op)

end Thread

namespace Patch

/-- Total action interpretation for patches: precondition failures become
no-ops, effects are those of `Patch::applyOp`. -/
def astep (p : Patch) (op : Op Action) : Patch :=
  match op.action with
  | .edit title description target =>
    { p with
      title := p.title.set (Max.mk title) op.clock
      description := p.description.set (Max.mk description) op.clock
      target := p.target.set (Max.mk target) op.clock }
  | .tag add remove =>
    let tags := add.foldl (fun s t => s.insert t op.clock) p.tags
    let tags := remove.foldl (fun s t => s.remove t op.clock) tags
    { p with tags := tags }
  | .revision description base oid =>
    if p.revisions.contains op.id then p
    else
      { p with
        revisions :=
          p.revisions.insert op.id
            (.present (Revision.new op.author description base oid op.timestamp)) }
  | .redact revision =>
    match p.revisions.lookup revision with
    | some _ =>
      { p with revisions := p.revisions.modify revision (fun s => Semilattice.merge s .redacted) }
    | none => p
  | .review revision comment verdict inline =>
    match p.revisions.lookup revision with
    | some (.present _) =>
      { p with
        revisions :=
          p.revisions.modify revision (fun s =>
            match s with
            | .present rev =>
              .present
                { rev with
                  reviews :=
                    rev.reviews.insert op.author (Review.new verdict comment inline op.timestamp) }
            | x => x) }
    | _ => p
  | .merge revision commit =>
    match p.revisions.lookup revision with
    | some (.present _) =>
      { p with
        revisions :=
          p.revisions.modify revision (fun s =>
            match s with
            | .present rev =>
              .present
                { rev with
                  merges := rev.merges.insert (Max.mk ⟨op.author, commit, op.timestamp⟩) op.clock }
            | x => x) }
    | _ => p
  | .thread revision act =>
    match p.revisions.lookup revision with
    | some (.present _) =>
      { p with
        revisions :=
          p.revisions.modify revision (fun s =>
            match s with
            | .present rv =>
              .present
                { rv with
                  discussion :=
                    Thread.gstep rv.discussion ⟨op.id, act, op.author, op.timestamp, op.clock⟩ }
            | x => x) }
    | _ => p

def gstep (p : Patch) (op : Op Action) : Patch :=
  tlIns (op.clock, op.id) (astep p op)

/-- Class of an operation in the canonical replay order: revision
creations first, thread comment creations second, modifications last. -/
def classOf : Action → Nat
  | .revision _ _ _ => 0
  | .thread _ (.comment _ _) => 1
  | _ => 2

/-- Canonical reordering of a batch: stable partition by class. -/
def canon (l : List (Op Action)) : List (Op Action) :=
  l.filter (fun o => classOf o.action = 0) ++
    l.filter (fun o => classOf o.action = 1) ++
      l.filter (fun o => classOf o.action = 2)

/-- Canonical evaluation of a batch from the default state. -/
def canonEval (l : List (Op Action)) : Patch :=
  (canon l).foldl gstep Patch.default

/-- Some present revision slot of the patch holds comment key `c` in its
discussion. -/
def hasCKey (p : Patch) (c : Nat) : Prop :=
  ∃ e ∈ p.revisions.entries, ∃ rv,
    e.2 = Redactable.present rv ∧ rv.discussion.comments.contains c = true

/-- Number of present (non-redacted) revision slots. -/
def presentCount (p : Patch) : Nat :=
  (p.revisions.entries.filter (fun e =>
    match e.2 with
    | .present _ => true
    | .redacted => false)).length

/-- Number of redacted revision slots. -/
def redactedCount (p : Patch) : Nat :=
  (p.revisions.entries.filter (fun e =>
    match e.2 with
    | .present _ => false
    | .redacted => true)).length

end Patch

/-! General lemmas about the ordered containers. -/

theorem ble_false_of {α : Type} [LinOrd α] {a b : α} (h : ¬ ble a b = true) :
    ble a b = false := by
  cases h2 : ble a b
  · rfl
  · exact absurd h2 h

theorem sinsert_comm {α : Type} [LinOrd α] (a b : α) (l : List α) :
    sinsert a (sinsert b l) = sinsert b (sinsert a l) := by
  induction l with
  | nil =>
    by_cases hab : ble a b = true
    · by_cases hba : ble b a = true
      · have h : a = b := LinOrd.ble_antisymm _ _ hab hba
        subst h; rfl
      · simp [sinsert, hab, hba, LinOrd.ble_refl]
    · have hba : ble b a = true := ble_of_not_ble hab
      simp [sinsert, hab, hba, LinOrd.ble_refl]
  | cons c t ih =>
    by_cases hac : ble a c = true <;> by_cases hca : ble c a = true <;>
      by_cases hbc : ble b c = true <;> by_cases hcb : ble c b = true
    -- TTTT : a = c = b
    · have ha : a = c := LinOrd.ble_antisymm _ _ hac hca
      have hb : b = c := LinOrd.ble_antisymm _ _ hbc hcb
      subst ha; subst hb; rfl
    -- TTTF : a = c, b < c
    · have ha : a = c := LinOrd.ble_antisymm _ _ hac hca
      subst ha
      have hab : ¬ ble a b = true := fun h =>
        hcb (LinOrd.ble_trans _ _ _ hca h)
      simp [sinsert, hbc, hcb, hab, hac, hca]
    -- TTFT : a = c, c < b
    · have ha : a = c := LinOrd.ble_antisymm _ _ hac hca
      subst ha
      simp [sinsert, hbc, hac, hca]
    -- TTFF : impossible
    · exact absurd (ble_of_not_ble hbc) hcb
    -- TFTT : a < c, b = c
    · have hb : b = c := LinOrd.ble_antisymm _ _ hbc hcb
      subst hb
      have hba : ¬ ble b a = true := fun h =>
        hca (LinOrd.ble_trans _ _ _ hcb h)
      simp [sinsert, hac, hca, hbc, hba]
    -- TFTF : a < c, b < c
    · by_cases hab : ble a b = true
      · by_cases hba : ble b a = true
        · have h : a = b := LinOrd.ble_antisymm _ _ hab hba
          subst h; rfl
        · simp [sinsert, hac, hca, hbc, hcb, hab, hba]
      · have hba : ble b a = true := ble_of_not_ble hab
        simp [sinsert, hac, hca, hbc, hcb, hab, hba]
    -- TFFT : a < c, c < b
    · have hba : ¬ ble b a = true := fun h =>
        hbc (LinOrd.ble_trans _ _ _ h hac)
      simp [sinsert, hac, hca, hbc, hcb, hba]
    -- TFFF : impossible
    · exact absurd (ble_of_not_ble hbc) hcb
    -- FTTT : c < a, b = c
    · have hb : b = c := LinOrd.ble_antisymm _ _ hbc hcb
      subst hb
      simp [sinsert, hac, hbc, hcb]
    -- FTTF : c < a, b < c
    · have hab : ¬ ble a b = true := fun h =>
        hac (LinOrd.ble_trans _ _ _ h hbc)
      simp [sinsert, hac, hbc, hcb, hab]
    -- FTFT : c < a, c < b
    · simp [sinsert, hac, hbc, ih]
    -- FTFF : impossible
    · exact absurd (ble_of_not_ble hbc) hcb
    -- FF.. : impossible
    · exact absurd (ble_of_not_ble hac) hca
    · exact absurd (ble_of_not_ble hac) hca
    · exact absurd (ble_of_not_ble hac) hca
    · exact absurd (ble_of_not_ble hac) hca

theorem sinsert_self {α : Type} [LinOrd α] (a : α) (l : List α) :
    sinsert a (sinsert a l) = sinsert a l := by
  induction l with
  | nil => simp [sinsert, LinOrd.ble_refl]
  | cons b t ih =>
    by_cases hab : ble a b = true
    · by_cases hba : ble b a = true
      · simp [sinsert, hab, hba]
      · simp [sinsert, hab, hba, LinOrd.ble_refl]
    · simp [sinsert, hab, ih]

theorem mem_sinsert {α : Type} [LinOrd α] (x a : α) (l : List α) :
    x ∈ sinsert a l → x = a ∨ x ∈ l := by
  induction l with
  | nil => intro h; simp [sinsert] at h; exact Or.inl h
  | cons b t ih =>
    intro h
    by_cases hab : ble a b = true
    · by_cases hba : ble b a = true
      · simp [sinsert, hab, hba] at h
        exact Or.inr (by simpa using h)
      · simp [sinsert, hab, hba] at h
        rcases h with h | h | h
        · exact Or.inl h
        · exact Or.inr (by simp [h])
        · exact Or.inr (by simp [h])
    · simp [sinsert, hab] at h
      rcases h with h | h
      · exact Or.inr (by simp [h])
      · rcases ih h with h2 | h2
        · exact Or.inl h2
        · exact Or.inr (by simp [h2])

theorem lookupKey_insKey_ne {κ ν : Type} [LinOrd κ] (m : ν → ν → ν) (k k2 : κ) (v : ν)
    (l : List (κ × ν)) (h : k ≠ k2) :
    lookupKey k (insKey m k2 v l) = lookupKey k l := by
  have hkk2 : (ble k k2 && ble k2 k) = false := by
    by_cases h1 : ble k k2 = true
    · by_cases h2 : ble k2 k = true
      · exact absurd (LinOrd.ble_antisymm _ _ h1 h2) h
      · simp [h1, ble_false_of h2]
    · simp [ble_false_of h1]
  induction l with
  | nil => simp [insKey, lookupKey, hkk2]
  | cons e t ih =>
    rcases e with ⟨kh, vh⟩
    by_cases h2h : ble k2 kh = true
    · by_cases hh2 : ble kh k2 = true
      · have hk2h : k2 = kh := LinOrd.ble_antisymm _ _ h2h hh2
        subst hk2h
        simp [insKey, h2h, hh2, lookupKey, hkk2, LinOrd.ble_refl]
      · simp [insKey, h2h, hh2, lookupKey, hkk2]
    · simp [insKey, h2h, lookupKey, ih]

theorem lookupKey_insKey_fresh {κ ν : Type} [LinOrd κ] (m : ν → ν → ν) (k : κ) (v : ν)
    (l : List (κ × ν)) (h : lookupKey k l = none) :
    lookupKey k (insKey m k v l) = some v := by
  induction l with
  | nil => simp [insKey, lookupKey, LinOrd.ble_refl]
  | cons e t ih =>
    rcases e with ⟨kh, vh⟩
    by_cases hkh : (ble k kh && ble kh k) = true
    · simp [lookupKey, hkh] at h
    · simp only [lookupKey, hkh, if_false, ite_false] at h
      by_cases h1 : ble k kh = true
      · have h2 : ble kh k = false := by
          rcases Bool.and_eq_true_iff.not.mp hkh with _
          by_cases h3 : ble kh k = true
          · exact absurd (by simp [h1, h3]) hkh
          · exact ble_false_of h3
        simp [insKey, h1, h2, lookupKey, LinOrd.ble_refl]
      · simp [insKey, h1, lookupKey, hkh, ih h]

theorem containsKey_insKey_self {κ ν : Type} [LinOrd κ] (m : ν → ν → ν) (k : κ) (v : ν)
    (l : List (κ × ν)) : containsKey k (insKey m k v l) = true := by
  induction l with
  | nil => simp [insKey, containsKey, lookupKey, LinOrd.ble_refl]
  | cons e t ih =>
    rcases e with ⟨kh, vh⟩
    by_cases h1 : ble k kh = true
    · by_cases h2 : ble kh k = true
      · have hk : k = kh := LinOrd.ble_antisymm _ _ h1 h2
        subst hk
        simp [insKey, h1, containsKey, lookupKey, LinOrd.ble_refl]
      · simp [insKey, h1, h2, containsKey, lookupKey, LinOrd.ble_refl]
    · simp only [insKey, h1, if_false, ite_false]
      by_cases hkh : (ble k kh && ble kh k) = true
      · simp [containsKey, lookupKey, hkh]
      · simpa [containsKey, lookupKey, hkh] using ih

theorem containsKey_insKey_ne {κ ν : Type} [LinOrd κ] (m : ν → ν → ν) (k k2 : κ) (v : ν)
    (l : List (κ × ν)) (h : k ≠ k2) :
    containsKey k (insKey m k2 v l) = containsKey k l := by
  simp [containsKey, lookupKey_insKey_ne m k k2 v l h]

theorem lookupKey_modifyKey_self {κ ν : Type} [LinOrd κ] (k : κ) (f : ν → ν)
    (l : List (κ × ν)) :
    lookupKey k (modifyKey k f l) = (lookupKey k l).map f := by
  induction l with
  | nil => simp [modifyKey, lookupKey]
  | cons e t ih =>
    rcases e with ⟨kh, vh⟩
    by_cases hkh : (ble k kh && ble kh k) = true
    · simp [modifyKey, hkh, lookupKey]
    · simp [modifyKey, hkh, lookupKey, ih]

theorem lookupKey_modifyKey_ne {κ ν : Type} [LinOrd κ] (k k2 : κ) (f : ν → ν)
    (l : List (κ × ν)) (h : k ≠ k2) :
    lookupKey k (modifyKey k2 f l) = lookupKey k l := by
  induction l with
  | nil => simp [modifyKey, lookupKey]
  | cons e t ih =>
    rcases e with ⟨kh, vh⟩
    by_cases h2h : (ble k2 kh && ble kh k2) = true
    · have hk2 : k2 = kh :=
        LinOrd.ble_antisymm _ _ (Bool.and_eq_true_iff.mp h2h).1 (Bool.and_eq_true_iff.mp h2h).2
      subst hk2
      have hne : (ble k k2 && ble k2 k) = false := by
        by_cases h1 : ble k k2 = true
        · by_cases h2 : ble k2 k = true
          · exact absurd (LinOrd.ble_antisymm _ _ h1 h2) h
          · simp [ble_false_of h2]
        · simp [ble_false_of h1]
      simp [modifyKey, h2h, lookupKey, hne, LinOrd.ble_refl]
    · simp [modifyKey, h2h, lookupKey, ih]

theorem containsKey_modifyKey {κ ν : Type} [LinOrd κ] (k k2 : κ) (f : ν → ν)
    (l : List (κ × ν)) :
    containsKey k (modifyKey k2 f l) = containsKey k l := by
  by_cases h : k = k2
  · subst h
    simp only [containsKey, lookupKey_modifyKey_self]
    rcases lookupKey k l with _ | v <;> rfl
  · simp [containsKey, lookupKey_modifyKey_ne k k2 f l h]

theorem modifyKey_none {κ ν : Type} [LinOrd κ] (k : κ) (f : ν → ν) (l : List (κ × ν))
    (h : lookupKey k l = none) : modifyKey k f l = l := by
  induction l with
  | nil => rfl
  | cons e t ih =>
    rcases e with ⟨kh, vh⟩
    by_cases hkh : (ble k kh && ble kh k) = true
    · simp [lookupKey, hkh] at h
    · simp only [lookupKey, hkh, if_false, ite_false] at h
      simp [modifyKey, hkh, ih h]

theorem modifyKey_fix {κ ν : Type} [LinOrd κ] (k : κ) (f : ν → ν) (l : List (κ × ν)) (v : ν)
    (h : lookupKey k l = some v) (hf : f v = v) : modifyKey k f l = l := by
  induction l with
  | nil => simp [lookupKey] at h
  | cons e t ih =>
    rcases e with ⟨kh, vh⟩
    by_cases hkh : (ble k kh && ble kh k) = true
    · simp only [lookupKey, hkh, if_true, ite_true, Option.some.injEq] at h
      subst h
      simp [modifyKey, hkh, hf]
    · simp only [lookupKey, hkh, if_false, ite_false] at h
      simp [modifyKey, hkh, ih h]

theorem modifyKey_modifyKey_self {κ ν : Type} [LinOrd κ] (k : κ) (f g : ν → ν)
    (l : List (κ × ν)) :
    modifyKey k f (modifyKey k g l) = modifyKey k (fun v => f (g v)) l := by
  induction l with
  | nil => rfl
  | cons e t ih =>
    rcases e with ⟨kh, vh⟩
    by_cases hkh : (ble k kh && ble kh k) = true
    · simp [modifyKey, hkh]
    · simp [modifyKey, hkh, ih]

theorem modifyKey_modifyKey_ne {κ ν : Type} [LinOrd κ] (k1 k2 : κ) (f g : ν → ν)
    (l : List (κ × ν)) (h : k1 ≠ k2) :
    modifyKey k1 f (modifyKey k2 g l) = modifyKey k2 g (modifyKey k1 f l) := by
  induction l with
  | nil => rfl
  | cons e t ih =>
    rcases e with ⟨kh, vh⟩
    by_cases h1 : (ble k1 kh && ble kh k1) = true
    · have hk1 : k1 = kh :=
        LinOrd.ble_antisymm _ _ (Bool.and_eq_true_iff.mp h1).1 (Bool.and_eq_true_iff.mp h1).2
      subst hk1
      have h2 : (ble k2 k1 && ble k1 k2) = false := by
        by_cases ha : ble k2 k1 = true
        · by_cases hb : ble k1 k2 = true
          · exact absurd (LinOrd.ble_antisymm _ _ hb ha) h
          · simp [ble_false_of hb]
        · simp [ble_false_of ha]
      simp [modifyKey, h1, h2, LinOrd.ble_refl]
    · by_cases h2 : (ble k2 kh && ble kh k2) = true
      · have hk2 : k2 = kh :=
          LinOrd.ble_antisymm _ _ (Bool.and_eq_true_iff.mp h2).1 (Bool.and_eq_true_iff.mp h2).2
        subst hk2
        have hno : ¬ (ble k1 k2 = true ∧ ble k2 k1 = true) := fun hx =>
          h (LinOrd.ble_antisymm _ _ hx.1 hx.2)
        simp [modifyKey, h1, h2, LinOrd.ble_refl, hno]
      · simp [modifyKey, h1, h2, ih]

theorem insKey_modifyKey_ne {κ ν : Type} [LinOrd κ] (m : ν → ν → ν) (k1 k2 : κ) (v : ν)
    (f : ν → ν) (l : List (κ × ν)) (h : k1 ≠ k2) :
    insKey m k1 v (modifyKey k2 f l) = modifyKey k2 f (insKey m k1 v l) := by
  have h12 : ¬ (ble k1 k2 = true ∧ ble k2 k1 = true) := fun hx =>
    h (LinOrd.ble_antisymm _ _ hx.1 hx.2)
  have h21 : ¬ (ble k2 k1 = true ∧ ble k1 k2 = true) := fun hx =>
    h (LinOrd.ble_antisymm _ _ hx.2 hx.1)
  induction l with
  | nil => simp [insKey, modifyKey, h12, h21]
  | cons e t ih =>
    rcases e with ⟨kh, vh⟩
    by_cases h2h : (ble k2 kh && ble kh k2) = true
    · have hk2 : k2 = kh :=
        LinOrd.ble_antisymm _ _ (Bool.and_eq_true_iff.mp h2h).1 (Bool.and_eq_true_iff.mp h2h).2
      subst hk2
      by_cases h1k : ble k1 k2 = true
      · have hk1 : ble k2 k1 = false := by
          by_cases hb : ble k2 k1 = true
          · exact absurd (LinOrd.ble_antisymm _ _ h1k hb) h
          · exact ble_false_of hb
        simp [insKey, modifyKey, h2h, h1k, hk1, h12, h21, LinOrd.ble_refl]
      · simp [insKey, modifyKey, h2h, h1k, h21, LinOrd.ble_refl]
    · by_cases h1k : ble k1 kh = true
      · by_cases hk1 : ble kh k1 = true
        · have hkk : k1 = kh := LinOrd.ble_antisymm _ _ h1k hk1
          subst hkk
          simp [insKey, modifyKey, h1k, hk1, h2h, h21]
        · simp [insKey, modifyKey, h1k, hk1, h2h, h12, h21]
      · simp [insKey, modifyKey, h1k, h2h, ih]

theorem insKey_comm {κ ν : Type} [LinOrd κ] (m : ν → ν → ν) (k1 k2 : κ) (v1 v2 : ν)
    (l : List (κ × ν))
    (hv : k1 = k2 → (m v1 v2 = m v2 v1 ∧ ∀ v, m (m v v1) v2 = m (m v v2) v1)) :
    insKey m k1 v1 (insKey m k2 v2 l) = insKey m k2 v2 (insKey m k1 v1 l) := by
  induction l with
  | nil =>
    by_cases h12 : ble k1 k2 = true
    · by_cases h21 : ble k2 k1 = true
      · have hk : k1 = k2 := LinOrd.ble_antisymm _ _ h12 h21
        subst hk
        simp [insKey, LinOrd.ble_refl, (hv rfl).1]
      · simp [insKey, h12, h21, LinOrd.ble_refl]
    · have h21 : ble k2 k1 = true := ble_of_not_ble h12
      simp [insKey, h12, h21, LinOrd.ble_refl]
  | cons e t ih =>
    rcases e with ⟨kh, vh⟩
    by_cases h1h : ble k1 kh = true <;> by_cases hh1 : ble kh k1 = true <;>
      by_cases h2h : ble k2 kh = true <;> by_cases hh2 : ble kh k2 = true
    -- k1 = kh, k2 = kh
    · have ha : k1 = kh := LinOrd.ble_antisymm _ _ h1h hh1
      have hb : k2 = kh := LinOrd.ble_antisymm _ _ h2h hh2
      subst ha; subst hb
      simp [insKey, LinOrd.ble_refl, (hv rfl).2 vh]
    -- k1 = kh, k2 < kh
    · have ha : k1 = kh := LinOrd.ble_antisymm _ _ h1h hh1
      subst ha
      have h12 : ¬ ble k1 k2 = true := fun hx =>
        hh2 (LinOrd.ble_trans _ _ _ hh1 hx)
      simp [insKey, h1h, hh1, h2h, hh2, h12]
    -- k1 = kh, kh < k2
    · have ha : k1 = kh := LinOrd.ble_antisymm _ _ h1h hh1
      subst ha
      simp [insKey, h1h, hh1, h2h]
    · exact absurd (ble_of_not_ble h2h) hh2
    -- k1 < kh, k2 = kh
    · have hb : k2 = kh := LinOrd.ble_antisymm _ _ h2h hh2
      subst hb
      have h21 : ¬ ble k2 k1 = true := fun hx =>
        hh1 (LinOrd.ble_trans _ _ _ hh2 hx)
      simp [insKey, h1h, hh1, h2h, hh2, h21]
    -- k1 < kh, k2 < kh
    · by_cases h12 : ble k1 k2 = true
      · by_cases h21 : ble k2 k1 = true
        · have hk : k1 = k2 := LinOrd.ble_antisymm _ _ h12 h21
          subst hk
          simp [insKey, h1h, hh1, LinOrd.ble_refl, (hv rfl).1]
        · simp [insKey, h1h, hh1, h2h, hh2, h12, h21]
      · have h21 : ble k2 k1 = true := ble_of_not_ble h12
        simp [insKey, h1h, hh1, h2h, hh2, h12, h21]
    -- k1 < kh, kh < k2
    · have h21 : ¬ ble k2 k1 = true := fun hx =>
        h2h (LinOrd.ble_trans _ _ _ hx h1h)
      simp [insKey, h1h, hh1, h2h, h21]
    · exact absurd (ble_of_not_ble h2h) hh2
    -- kh < k1, k2 = kh
    · have hb : k2 = kh := LinOrd.ble_antisymm _ _ h2h hh2
      subst hb
      simp [insKey, h1h, h2h, hh2]
    -- kh < k1, k2 < kh
    · have h12 : ¬ ble k1 k2 = true := fun hx =>
        h1h (LinOrd.ble_trans _ _ _ hx h2h)
      simp [insKey, h1h, h2h, hh2, h12]
    -- kh < k1, kh < k2
    · simp [insKey, h1h, h2h, ih]
    · exact absurd (ble_of_not_ble h2h) hh2
    · exact absurd (ble_of_not_ble h1h) hh1
    · exact absurd (ble_of_not_ble h1h) hh1
    · exact absurd (ble_of_not_ble h1h) hh1
    · exact absurd (ble_of_not_ble h1h) hh1

/-! Semilattice laws for the merges the patch apply function performs. -/

theorem cellJoin_comm (a b : Bool × Nat) : cellJoin a b = cellJoin b a := by
  rcases a with ⟨p1, c1⟩
  rcases b with ⟨p2, c2⟩
  unfold cellJoin
  rcases lt_trichotomy c1 c2 with h | h | h
  · simp [h, lt_asymm h]
  · subst h
    simp [Bool.and_comm]
  · simp [h, lt_asymm h]

theorem cellJoin_assoc (a b c : Bool × Nat) :
    cellJoin (cellJoin a b) c = cellJoin a (cellJoin b c) := by
  rcases a with ⟨p1, c1⟩
  rcases b with ⟨p2, c2⟩
  rcases c with ⟨p3, c3⟩
  rcases lt_trichotomy c1 c2 with h12 | h12 | h12 <;>
    rcases lt_trichotomy c2 c3 with h23 | h23 | h23
  · simp [cellJoin, h12, h23, lt_trans h12 h23, lt_asymm h12, lt_asymm h23,
      lt_asymm (lt_trans h12 h23)]
  · subst h23
    simp [cellJoin, h12, lt_irrefl, lt_asymm h12]
  · simp [cellJoin, h12, h23, lt_asymm h12, lt_asymm h23]
  · subst h12
    simp [cellJoin, h23, lt_irrefl, lt_asymm h23]
  · subst h12; subst h23
    simp [cellJoin, lt_irrefl, Bool.and_assoc]
  · subst h12
    simp [cellJoin, h23, lt_irrefl, lt_asymm h23]
  · rcases lt_trichotomy c1 c3 with h13 | h13 | h13
    · simp [cellJoin, h12, h23, h13, lt_asymm h12, lt_asymm h23, lt_asymm h13]
    · subst h13
      simp [cellJoin, h12, h23, lt_irrefl, lt_asymm h12, lt_asymm h23]
    · simp [cellJoin, h12, h23, h13, lt_asymm h12, lt_asymm h23, lt_asymm h13]
  · subst h23
    simp [cellJoin, h12, lt_irrefl, lt_asymm h12]
  · have h13 : c3 < c1 := lt_trans h23 h12
    simp [cellJoin, h12, h23, h13, lt_asymm h12, lt_asymm h23, lt_asymm h13]

theorem cellJoin_rightcomm (v a b : Bool × Nat) :
    cellJoin (cellJoin v a) b = cellJoin (cellJoin v b) a := by
  rw [cellJoin_assoc, cellJoin_assoc, cellJoin_comm a b]

theorem maxMerge_def {α : Type} [LinOrd α] (x y : α) :
    Semilattice.merge (Max.mk x) (Max.mk y) =
      if ble x y = true then Max.mk y else Max.mk x := rfl

theorem maxMerge_comm {α : Type} [LinOrd α] (a b : Max α) :
    Semilattice.merge a b = Semilattice.merge b a := by
  rcases a with ⟨x⟩
  rcases b with ⟨y⟩
  rw [maxMerge_def, maxMerge_def]
  by_cases h1 : ble x y = true
  · by_cases h2 : ble y x = true
    · have h : x = y := LinOrd.ble_antisymm _ _ h1 h2
      subst h; rfl
    · simp [h1, h2]
  · have h2 : ble y x = true := ble_of_not_ble h1
    simp [h1, h2]

theorem maxMerge_assoc {α : Type} [LinOrd α] (a b c : Max α) :
    Semilattice.merge (Semilattice.merge a b) c =
      Semilattice.merge a (Semilattice.merge b c) := by
  rcases a with ⟨x⟩
  rcases b with ⟨y⟩
  rcases c with ⟨z⟩
  by_cases h1 : ble x y = true <;> by_cases h2 : ble y z = true
  · have h3 : ble x z = true := LinOrd.ble_trans _ _ _ h1 h2
    simp [maxMerge_def, h1, h2, h3]
  · simp [maxMerge_def, h1, h2]
  · simp [maxMerge_def, h1, h2]
  · have h3 : ble z x = true :=
      LinOrd.ble_trans _ _ _ (ble_of_not_ble h2) (ble_of_not_ble h1)
    by_cases h4 : ble x z = true
    · have h : x = z := LinOrd.ble_antisymm _ _ h4 h3
      subst h
      simp [maxMerge_def, h1, h2, h4]
    · simp [maxMerge_def, h1, h2, h4]

theorem optMerge_comm {α : Type} [Semilattice α]
    (hc : ∀ x y : α, Semilattice.merge x y = Semilattice.merge y x) (a b : Option α) :
    Semilattice.merge a b = Semilattice.merge b a := by
  rcases a with _ | x <;> rcases b with _ | y <;>
    simp [Semilattice.merge]
  exact hc x y

theorem optMerge_assoc {α : Type} [Semilattice α]
    (ha : ∀ x y z : α,
      Semilattice.merge (Semilattice.merge x y) z =
        Semilattice.merge x (Semilattice.merge y z))
    (a b c : Option α) :
    Semilattice.merge (Semilattice.merge a b) c =
      Semilattice.merge a (Semilattice.merge b c) := by
  rcases a with _ | x <;> rcases b with _ | y <;> rcases c with _ | z <;>
    simp [Semilattice.merge]
  exact ha x y z

theorem verdictMerge_comm (a b : Verdict) :
    Semilattice.merge a b = Semilattice.merge b a := by
  cases a <;> cases b <;> rfl

theorem verdictMerge_assoc (a b c : Verdict) :
    Semilattice.merge (Semilattice.merge a b) c =
      Semilattice.merge a (Semilattice.merge b c) := by
  cases a <;> cases b <;> cases c <;> rfl

theorem lwwregMerge_comm {α : Type} [Semilattice α]
    (hc : ∀ x y : α, Semilattice.merge x y = Semilattice.merge y x) (a b : LWWReg α) :
    LWWReg.merge a b = LWWReg.merge b a := by
  rcases a with ⟨x, cx⟩
  rcases b with ⟨y, cy⟩
  unfold LWWReg.merge
  rcases lt_trichotomy cx cy with h | h | h
  · simp [h, lt_asymm h]
  · subst h
    simp [hc x y]
  · simp [h, lt_asymm h]

theorem lwwregMerge_assoc {α : Type} [Semilattice α]
    (ha : ∀ x y z : α,
      Semilattice.merge (Semilattice.merge x y) z =
        Semilattice.merge x (Semilattice.merge y z))
    (a b c : LWWReg α) :
    LWWReg.merge (LWWReg.merge a b) c = LWWReg.merge a (LWWReg.merge b c) := by
  rcases a with ⟨x, c1⟩
  rcases b with ⟨y, c2⟩
  rcases c with ⟨z, c3⟩
  unfold LWWReg.merge
  dsimp only
  rcases lt_trichotomy c1 c2 with h12 | h12 | h12 <;>
    rcases lt_trichotomy c2 c3 with h23 | h23 | h23
  · simp [h12, h23, lt_trans h12 h23, lt_asymm h12, lt_asymm h23,
      lt_asymm (lt_trans h12 h23)]
  · subst h23
    simp [h12, lt_irrefl, lt_asymm h12]
  · simp [h12, h23, lt_asymm h12, lt_asymm h23]
  · subst h12
    simp [h23, lt_irrefl, lt_asymm h23]
  · subst h12; subst h23
    simp [lt_irrefl, ha]
  · subst h12
    simp [h23, lt_irrefl, lt_asymm h23]
  · rcases lt_trichotomy c1 c3 with h13 | h13 | h13
    · simp [h12, h23, h13, lt_asymm h12, lt_asymm h23, lt_asymm h13]
    · subst h13
      simp [h12, h23, lt_irrefl, lt_asymm h12, lt_asymm h23]
    · simp [h12, h23, h13, lt_asymm h12, lt_asymm h23, lt_asymm h13]
  · subst h23
    simp [h12, lt_irrefl, lt_asymm h12]
  · have h13 : c3 < c1 := lt_trans h23 h12
    simp [h12, h23, h13, lt_asymm h12, lt_asymm h23, lt_asymm h13]

theorem lwwreg_set_comm {α : Type} [Semilattice α]
    (hc : ∀ x y : α, Semilattice.merge x y = Semilattice.merge y x)
    (ha : ∀ x y z : α,
      Semilattice.merge (Semilattice.merge x y) z =
        Semilattice.merge x (Semilattice.merge y z))
    (r : LWWReg α) (v1 v2 : α) (c1 c2 : Nat) :
    (r.set v1 c1).set v2 c2 = (r.set v2 c2).set v1 c1 := by
  unfold LWWReg.set
  rw [lwwregMerge_assoc ha, lwwregMerge_assoc ha, lwwregMerge_comm hc ⟨v1, c1⟩ ⟨v2, c2⟩]

/-- Insertion of an element cell into an LWW set commutes
unconditionally. -/
theorem lwwIns_comm {α : Type} [LinOrd α] (a b : α) (ca cb : Bool × Nat)
    (l : List (α × (Bool × Nat))) :
    insKey cellJoin a ca (insKey cellJoin b cb l) =
      insKey cellJoin b cb (insKey cellJoin a ca l) :=
  insKey_comm cellJoin a b ca cb l
    (fun _ => ⟨cellJoin_comm _ _, fun v => cellJoin_rightcomm v ca cb⟩)

/-- Folding LWW-set cells over a list is invariant under permutation of
the cells. -/
theorem lwwFold_perm {α : Type} [LinOrd α] (l1 l2 : List (α × (Bool × Nat)))
    (h : l1.Perm l2) (init : List (α × (Bool × Nat))) :
    l1.foldl (fun l e => insKey cellJoin e.1 e.2 l) init =
      l2.foldl (fun l e => insKey cellJoin e.1 e.2 l) init :=
  h.foldl_eq' (fun x _ y _ z => lwwIns_comm y.1 x.1 y.2 x.2 z) init

theorem lwwsetMerge_rightcomm {α : Type} [LinOrd α] (v a b : LWWSet α) :
    Semilattice.merge (Semilattice.merge v a) b =
      Semilattice.merge (Semilattice.merge v b) a := by
  show LWWSet.mk (b.entries.foldl _ (a.entries.foldl _ v.entries)) =
    LWWSet.mk (a.entries.foldl _ (b.entries.foldl _ v.entries))
  rw [← List.foldl_append, ← List.foldl_append]
  exact congrArg LWWSet.mk (lwwFold_perm _ _ List.perm_append_comm v.entries)

theorem mem_sinsert_iff {α : Type} [LinOrd α] (x a : α) (l : List α) :
    x ∈ sinsert a l ↔ x = a ∨ x ∈ l := by
  constructor
  · exact mem_sinsert x a l
  · intro h
    induction l with
    | nil =>
      rcases h with h | h
      · simp [sinsert, h]
      · simp at h
    | cons b t ih =>
      by_cases hab : ble a b = true
      · by_cases hba : ble b a = true
        · have hx : a = b := LinOrd.ble_antisymm _ _ hab hba
          subst hx
          simp only [sinsert, hab, hba, if_true, ite_true]
          rcases h with h | h
          · simp [h]
          · exact h
        · simp only [sinsert, hab, hba, if_true, ite_true, if_false, ite_false]
          rcases h with h | h
          · simp [h]
          · simp [h]
      · simp only [sinsert, hab, if_false, ite_false]
        rcases h with h | h
        · exact List.mem_cons_of_mem b (ih (Or.inl h))
        · rcases List.mem_cons.mp h with h2 | h2
          · simp [h2]
          · exact List.mem_cons_of_mem b (ih (Or.inr h2))

theorem sinsert_sorted {α : Type} [LinOrd α] (a : α) (l : List α) (h : SStrict l) :
    SStrict (sinsert a l) := by
  induction l with
  | nil => simp [sinsert, SStrict]
  | cons b t ih =>
    rcases List.pairwise_cons.mp h with ⟨hb, ht⟩
    by_cases hab : ble a b = true
    · by_cases hba : ble b a = true
      · show SStrict (if ble a b = true then if ble b a = true then b :: t
          else a :: b :: t else b :: sinsert a t)
        simpa [hab, hba] using h
      · show SStrict (if ble a b = true then if ble b a = true then b :: t
          else a :: b :: t else b :: sinsert a t)
        simp only [hab, hba, if_true, ite_true, if_false, ite_false]
        refine List.pairwise_cons.mpr ⟨?_, h⟩
        intro x hx
        rcases List.mem_cons.mp hx with hx | hx
        · subst hx
          exact ⟨hab, ble_false_of hba⟩
        · rcases hb x hx with ⟨h1, h2⟩
          refine ⟨LinOrd.ble_trans _ _ _ hab h1, ?_⟩
          by_cases hxa : ble x a = true
          · exact absurd (LinOrd.ble_trans _ _ _ hxa hab) (by simp [h2])
          · exact ble_false_of hxa
    · show SStrict (if ble a b = true then if ble b a = true then b :: t
        else a :: b :: t else b :: sinsert a t)
      simp only [hab, if_false, ite_false]
      refine List.pairwise_cons.mpr ⟨?_, ih ht⟩
      intro x hx
      rcases mem_sinsert x a t hx with hx | hx
      · subst hx
        exact ⟨ble_of_not_ble hab, ble_false_of hab⟩
      · exact hb x hx

theorem sstrict_ext {α : Type} [LinOrd α] (l1 : List α) :
    ∀ l2 : List α, SStrict l1 → SStrict l2 → (∀ x, x ∈ l1 ↔ x ∈ l2) → l1 = l2 := by
  induction l1 with
  | nil =>
    intro l2 _ _ hm
    cases l2 with
    | nil => rfl
    | cons b t => exact absurd ((hm b).mpr (by simp)) (by simp)
  | cons a t1 ih =>
    intro l2 h1 h2 hm
    cases l2 with
    | nil => exact absurd ((hm a).mp (by simp)) (by simp)
    | cons b t2 =>
      rcases List.pairwise_cons.mp h1 with ⟨ha1, ht1⟩
      rcases List.pairwise_cons.mp h2 with ⟨hb2, ht2⟩
      have hab : a = b := by
        rcases List.mem_cons.mp ((hm a).mp (by simp)) with h | h
        · exact h
        · rcases List.mem_cons.mp ((hm b).mpr (by simp)) with h2x | h2x
          · exact h2x.symm
          · rcases ha1 b h2x with ⟨x1, x2⟩
            rcases hb2 a h with ⟨y1, y2⟩
            exact absurd y1 (by simp [x2])
      subst hab
      have htm : ∀ x, x ∈ t1 ↔ x ∈ t2 := by
        intro x
        constructor
        · intro hx
          rcases List.mem_cons.mp ((hm x).mp (List.mem_cons_of_mem a hx)) with h | h
          · subst h
            rcases ha1 x hx with ⟨x1, x2⟩
            exact absurd x1 (by simp [x2])
          · exact h
        · intro hx
          rcases List.mem_cons.mp ((hm x).mpr (List.mem_cons_of_mem a hx)) with h | h
          · subst h
            rcases hb2 x hx with ⟨x1, x2⟩
            exact absurd x1 (by simp [x2])
          · exact h
      rw [ih t2 ht1 ht2 htm]

theorem mem_foldl_sinsert {α : Type} [LinOrd α] (L : List α) (init : List α) (x : α) :
    x ∈ L.foldl (fun l a => sinsert a l) init ↔ x ∈ init ∨ x ∈ L := by
  induction L generalizing init with
  | nil => simp
  | cons a t ih =>
    show x ∈ t.foldl _ (sinsert a init) ↔ _
    rw [ih (sinsert a init)]
    rw [mem_sinsert_iff]
    constructor
    · rintro ((h | h) | h)
      · exact Or.inr (by simp [h])
      · exact Or.inl h
      · exact Or.inr (by simp [h])
    · rintro (h | h)
      · exact Or.inl (Or.inr h)
      · rcases List.mem_cons.mp h with h | h
        · exact Or.inl (Or.inl h)
        · exact Or.inr h

theorem foldl_sinsert_sorted {α : Type} [LinOrd α] (L : List α) (init : List α)
    (h : SStrict init) : SStrict (L.foldl (fun l a => sinsert a l) init) := by
  induction L generalizing init with
  | nil => exact h
  | cons a t ih => exact ih (sinsert a init) (sinsert_sorted a init h)

/-- Folding one canonical element list into another is symmetric. -/
theorem sinsertFold_comm {α : Type} [LinOrd α] (xs ys : List α) :
    ((ys.foldl (fun l a => sinsert a l) []).foldl (fun l a => sinsert a l)
      (xs.foldl (fun l a => sinsert a l) [])) =
    ((xs.foldl (fun l a => sinsert a l) []).foldl (fun l a => sinsert a l)
      (ys.foldl (fun l a => sinsert a l) [])) := by
  have hX : SStrict (xs.foldl (fun l a => sinsert a l) ([] : List α)) :=
    foldl_sinsert_sorted xs [] (by simp [SStrict])
  have hY : SStrict (ys.foldl (fun l a => sinsert a l) ([] : List α)) :=
    foldl_sinsert_sorted ys [] (by simp [SStrict])
  apply sstrict_ext
  · exact foldl_sinsert_sorted _ _ hX
  · exact foldl_sinsert_sorted _ _ hY
  · intro x
    simp only [mem_foldl_sinsert, List.mem_nil_iff, false_or]
    tauto

/-- A cell insertion at the default clock into a constant-cell list is the
constant-cell image of an ordered element insertion. -/
theorem insKey_constCell {α : Type} [LinOrd α] (k : α) (ks : List α) :
    insKey cellJoin k (true, 0) (ks.map (fun a => (a, ((true : Bool), (0 : Nat))))) =
      (sinsert k ks).map (fun a => (a, (true, 0))) := by
  induction ks with
  | nil => rfl
  | cons b t ih =>
    by_cases hab : ble k b = true
    · by_cases hba : ble b k = true
      · simp [insKey, sinsert, hab, hba, cellJoin]
      · simp [insKey, sinsert, hab, hba]
    · simp [insKey, sinsert, hab, ih]

theorem foldl_constCell {α : Type} [LinOrd α] (L : List α) (kl : List α) :
    L.foldl (fun l a => insKey cellJoin a (true, 0) l)
        (kl.map (fun a => (a, ((true : Bool), (0 : Nat))))) =
      (L.foldl (fun l a => sinsert a l) kl).map (fun a => (a, (true, 0))) := by
  induction L generalizing kl with
  | nil => rfl
  | cons a t ih =>
    show t.foldl _ (insKey cellJoin a (true, 0) (kl.map _)) = _
    rw [insKey_constCell]
    exact ih (sinsert a kl)

/-- The entries of an LWW set built by inserting elements at the default
clock form a constant-cell image of the canonical element list. -/
theorem lwwsetFromKeys_entries {α : Type} [LinOrd α] (ks : List α) :
    (ks.foldl (fun s k => s.insert k 0) (LWWSet.empty : LWWSet α)).entries =
      (ks.foldl (fun l k => sinsert k l) []).map (fun a => (a, (true, 0))) := by
  have hgen : ∀ (L : List α) (kl : List α),
      (L.foldl (fun s k => s.insert k 0) (⟨kl.map (fun a => (a, (true, 0)))⟩ : LWWSet α)) =
        ⟨(L.foldl (fun l k => sinsert k l) kl).map (fun a => (a, (true, 0)))⟩ := by
    intro L
    induction L with
    | nil => intro kl; rfl
    | cons a t ih =>
      intro kl
      show t.foldl _ (LWWSet.insert _ a 0) = _
      rw [show (LWWSet.insert ⟨kl.map (fun a => (a, (true, 0)))⟩ a 0 : LWWSet α) =
        ⟨(sinsert a kl).map (fun a => (a, (true, 0)))⟩ from
          congrArg LWWSet.mk (insKey_constCell a kl)]
      exact ih (sinsert a kl)
  exact congrArg LWWSet.entries (hgen ks [])

/-- Merging two LWW sets that were both built by inserting elements at the
default clock is commutative. -/
theorem lwwsetMerge_fromKeys_comm {α : Type} [LinOrd α] (ks1 ks2 : List α) :
    Semilattice.merge (ks1.foldl (fun s k => s.insert k 0) (LWWSet.empty : LWWSet α))
        (ks2.foldl (fun s k => s.insert k 0) LWWSet.empty) =
      Semilattice.merge (ks2.foldl (fun s k => s.insert k 0) (LWWSet.empty : LWWSet α))
        (ks1.foldl (fun s k => s.insert k 0) LWWSet.empty) := by
  have hext : ∀ a b : LWWSet α, a.entries = b.entries → a = b := by
    intro a b h
    cases a; cases b
    simpa using h
  apply hext
  show ((ks2.foldl (fun s k => s.insert k 0) (LWWSet.empty : LWWSet α)).entries).foldl
      (fun l e => insKey cellJoin e.1 e.2 l)
      ((ks1.foldl (fun s k => s.insert k 0) (LWWSet.empty : LWWSet α)).entries) =
    ((ks1.foldl (fun s k => s.insert k 0) (LWWSet.empty : LWWSet α)).entries).foldl
      (fun l e => insKey cellJoin e.1 e.2 l)
      ((ks2.foldl (fun s k => s.insert k 0) (LWWSet.empty : LWWSet α)).entries)
  rw [lwwsetFromKeys_entries ks1, lwwsetFromKeys_entries ks2]
  rw [List.foldl_map, List.foldl_map]
  rw [foldl_constCell, foldl_constCell]
  exact congrArg (fun l => l.map (fun a => (a, (true, 0)))) (sinsertFold_comm ks1 ks2)

/-- Review merges right-commute: merging two more reviews into an existing
one is order-independent. -/
theorem reviewMerge_rightcomm (v a b : Review) :
    Semilattice.merge (Semilattice.merge v a) b =
      Semilattice.merge (Semilattice.merge v b) a := by
  show Review.mk _ _ _ _ = Review.mk _ _ _ _
  have hverdict :
      LWWReg.merge (LWWReg.merge v.verdict a.verdict) b.verdict =
        LWWReg.merge (LWWReg.merge v.verdict b.verdict) a.verdict := by
    rw [lwwregMerge_assoc (optMerge_assoc verdictMerge_assoc),
      lwwregMerge_assoc (optMerge_assoc verdictMerge_assoc),
      lwwregMerge_comm (optMerge_comm verdictMerge_comm) a.verdict b.verdict]
  have hcomment :
      LWWReg.merge (LWWReg.merge v.comment a.comment) b.comment =
        LWWReg.merge (LWWReg.merge v.comment b.comment) a.comment := by
    rw [lwwregMerge_assoc (optMerge_assoc (fun _ _ _ => maxMerge_assoc _ _ _)),
      lwwregMerge_assoc (optMerge_assoc (fun _ _ _ => maxMerge_assoc _ _ _)),
      lwwregMerge_comm (optMerge_comm (fun _ _ => maxMerge_comm _ _)) a.comment b.comment]
  have hts :
      Semilattice.merge (Semilattice.merge v.timestamp a.timestamp) b.timestamp =
        Semilattice.merge (Semilattice.merge v.timestamp b.timestamp) a.timestamp := by
    rw [maxMerge_assoc, maxMerge_assoc, maxMerge_comm a.timestamp b.timestamp]
  have hinl := lwwsetMerge_rightcomm v.inline a.inline b.inline
  congr 1

/-- Two freshly built reviews merge commutatively. -/
theorem reviewNew_comm (v1 v2 : Option Verdict) (c1 c2 : Option String)
    (i1 i2 : List CodeComment) (t1 t2 : Nat) :
    Semilattice.merge (Review.new v1 c1 i1 t1) (Review.new v2 c2 i2 t2) =
      Semilattice.merge (Review.new v2 c2 i2 t2) (Review.new v1 c1 i1 t1) := by
  show Review.mk _ _ _ _ = Review.mk _ _ _ _
  have hinl : ∀ l : List CodeComment,
      l.foldl (fun s c => s.insert (Max.mk c) 0) (LWWSet.empty : LWWSet (Max CodeComment)) =
        (l.map Max.mk).foldl (fun s k => s.insert k 0) LWWSet.empty := by
    intro l
    rw [List.foldl_map]
  have h1 := lwwregMerge_comm (optMerge_comm verdictMerge_comm)
    (LWWReg.from_ v1) (LWWReg.from_ v2)
  have h2 := lwwregMerge_comm (optMerge_comm (fun _ _ => maxMerge_comm _ _))
    (LWWReg.from_ (c1.map Max.mk)) (LWWReg.from_ (c2.map Max.mk))
  have h3 : Semilattice.merge
      (i1.foldl (fun s c => s.insert (Max.mk c) 0) (LWWSet.empty : LWWSet (Max CodeComment)))
      (i2.foldl (fun s c => s.insert (Max.mk c) 0) LWWSet.empty) =
    Semilattice.merge
      (i2.foldl (fun s c => s.insert (Max.mk c) 0) (LWWSet.empty : LWWSet (Max CodeComment)))
      (i1.foldl (fun s c => s.insert (Max.mk c) 0) LWWSet.empty) := by
    rw [hinl i1, hinl i2]
    exact lwwsetMerge_fromKeys_comm _ _
  have h4 := maxMerge_comm (Max.mk t1) (Max.mk t2)
  congr 1

/-! Commutation machinery for the thread COB. -/

theorem modifyKey_congr {κ ν : Type} [LinOrd κ] (k : κ) (f g : ν → ν) (l : List (κ × ν))
    (h : ∀ v, f v = g v) : modifyKey k f l = modifyKey k g l := by
  induction l with
  | nil => rfl
  | cons e t ih =>
    rcases e with ⟨kh, vh⟩
    by_cases hk : (ble k kh && ble kh k) = true
    · simp [modifyKey, hk, h vh]
    · simp [modifyKey, hk, ih]

theorem thTlIns_thTlIns (a b : Nat × Nat) (th : Thread) :
    thTlIns a (thTlIns b th) = thTlIns b (thTlIns a th) := by
  unfold thTlIns GSet.insert
  dsimp only
  rw [sinsert_comm]

theorem Thread.astep_redact_eq (th : Thread) (i c au ts k : Nat) :
    Thread.astep th ⟨i, .redact c, au, ts, k⟩ =
      Thread.mapCom (modifyKey c (fun _ => .redacted)) th := by
  rcases hl : th.comments.lookup c with _ | s
  · simp only [Thread.astep, hl]
    unfold Thread.mapCom
    rw [modifyKey_none c _ th.comments.entries hl]
  · simp only [Thread.astep, hl]
    unfold Thread.mapCom GMap.modify
    exact congrArg (fun l => Thread.mk ⟨l⟩ th.timeline)
      (modifyKey_congr _ _ _ _ (fun v => by cases v <;> rfl))

theorem Thread.astep_edit_eq (th : Thread) (i c au ts k : Nat) (body : String) :
    Thread.astep th ⟨i, .edit c body, au, ts, k⟩ =
      Thread.mapCom
        (modifyKey c (presMod (fun cm => { cm with body := cm.body.set (Max.mk body) k }))) th := by
  rcases hl : th.comments.lookup c with _ | s
  · simp only [Thread.astep, hl]
    unfold Thread.mapCom
    rw [modifyKey_none c _ th.comments.entries hl]
  · rcases s with cm | _
    · simp only [Thread.astep, hl]
      unfold Thread.mapCom GMap.modify
      exact congrArg (fun l => Thread.mk ⟨l⟩ th.timeline)
        (modifyKey_congr _ _ _ _ (fun v => by cases v <;> rfl))
    · simp only [Thread.astep, hl]
      unfold Thread.mapCom
      rw [modifyKey_fix c _ th.comments.entries Redactable.redacted hl rfl]

theorem Thread.astep_comment_eq (th : Thread) (i au ts k : Nat) (body : String)
    (rt : Option Nat) :
    Thread.astep th ⟨i, .comment body rt, au, ts, k⟩ =
      if th.comments.contains i then th
      else
        Thread.mapCom
          (insKey Semilattice.merge i (.present ⟨au, ⟨Max.mk body, k⟩, rt, ts⟩)) th := rfl

theorem Thread.mapCom_mapCom (f g : List (Nat × Redactable Comment) → List (Nat × Redactable Comment))
    (th : Thread) : Thread.mapCom f (Thread.mapCom g th) = Thread.mapCom (fun e => f (g e)) th := rfl

theorem Thread.mapCom_thTlIns (f : List (Nat × Redactable Comment) → List (Nat × Redactable Comment))
    (t : Nat × Nat) (th : Thread) :
    Thread.mapCom f (thTlIns t th) = thTlIns t (Thread.mapCom f th) := rfl

theorem Thread.astep_thTlIns (t : Nat × Nat) (th : Thread) (op : Op ThreadAction) :
    Thread.astep (thTlIns t th) op = thTlIns t (Thread.astep th op) := by
  rcases op with ⟨i, act, au, ts, k⟩
  cases act with
  | comment body rt =>
    rw [Thread.astep_comment_eq, Thread.astep_comment_eq]
    have hcm : (thTlIns t th).comments = th.comments := rfl
    rw [hcm]
    by_cases hc : th.comments.contains i = true
    · rw [if_pos hc, if_pos hc]
    · rw [if_neg hc, if_neg hc, Thread.mapCom_thTlIns]
  | redact c =>
    rw [Thread.astep_redact_eq, Thread.astep_redact_eq, Thread.mapCom_thTlIns]
  | edit c body =>
    rw [Thread.astep_edit_eq, Thread.astep_edit_eq, Thread.mapCom_thTlIns]

theorem Thread.gstep_thTlIns (t : Nat × Nat) (th : Thread) (op : Op ThreadAction) :
    Thread.gstep (thTlIns t th) op = thTlIns t (Thread.gstep th op) := by
  unfold Thread.gstep
  rw [Thread.astep_thTlIns, thTlIns_thTlIns]

/-- Two thread modification steps (redacts and edits) commute. -/
theorem Thread.astep_comm_mods (th : Thread) (a b : Op ThreadAction)
    (ha : thModTargetT a.action ≠ none) (hb : thModTargetT b.action ≠ none) :
    Thread.astep (Thread.astep th a) b = Thread.astep (Thread.astep th b) a := by
  rcases a with ⟨i1, act1, au1, ts1, k1⟩
  rcases b with ⟨i2, act2, au2, ts2, k2⟩
  cases act1 with
  | comment _ _ => simp [thModTargetT] at ha
  | redact c1 =>
    cases act2 with
    | comment _ _ => simp [thModTargetT] at hb
    | redact c2 =>
      rw [Thread.astep_redact_eq, Thread.astep_redact_eq, Thread.astep_redact_eq,
        Thread.astep_redact_eq, Thread.mapCom_mapCom, Thread.mapCom_mapCom]
      refine congrArg (fun f => Thread.mapCom f th) (funext (fun e => ?_))
      by_cases hc : c1 = c2
      · subst hc; rfl
      · exact modifyKey_modifyKey_ne c2 c1 _ _ e (fun h => hc h.symm)
    | edit c2 body2 =>
      rw [Thread.astep_redact_eq, Thread.astep_edit_eq, Thread.astep_edit_eq,
        Thread.astep_redact_eq, Thread.mapCom_mapCom, Thread.mapCom_mapCom]
      refine congrArg (fun f => Thread.mapCom f th) (funext (fun e => ?_))
      by_cases hc : c1 = c2
      · subst hc
        rw [modifyKey_modifyKey_self, modifyKey_modifyKey_self]
        exact modifyKey_congr _ _ _ e (fun v => by cases v <;> rfl)
      · exact modifyKey_modifyKey_ne c2 c1 _ _ e (fun h => hc h.symm)
  | edit c1 body1 =>
    cases act2 with
    | comment _ _ => simp [thModTargetT] at hb
    | redact c2 =>
      rw [Thread.astep_edit_eq, Thread.astep_redact_eq, Thread.astep_redact_eq,
        Thread.astep_edit_eq, Thread.mapCom_mapCom, Thread.mapCom_mapCom]
      refine congrArg (fun f => Thread.mapCom f th) (funext (fun e => ?_))
      by_cases hc : c1 = c2
      · subst hc
        rw [modifyKey_modifyKey_self, modifyKey_modifyKey_self]
        exact modifyKey_congr _ _ _ e (fun v => by cases v <;> rfl)
      · exact modifyKey_modifyKey_ne c2 c1 _ _ e (fun h => hc h.symm)
    | edit c2 body2 =>
      rw [Thread.astep_edit_eq, Thread.astep_edit_eq, Thread.astep_edit_eq,
        Thread.astep_edit_eq, Thread.mapCom_mapCom, Thread.mapCom_mapCom]
      refine congrArg (fun f => Thread.mapCom f th) (funext (fun e => ?_))
      by_cases hc : c1 = c2
      · subst hc
        rw [modifyKey_modifyKey_self, modifyKey_modifyKey_self]
        refine modifyKey_congr _ _ _ e (fun v => ?_)
        cases v with
        | redacted => rfl
        | present cm =>
          simp only [presMod]
          rw [lwwreg_set_comm (fun x y => maxMerge_comm x y) (fun x y z => maxMerge_assoc x y z)]
      · exact modifyKey_modifyKey_ne c2 c1 _ _ e (fun h => hc h.symm)

/-- A comment op whose id is already a key is a no-op. -/
theorem Thread.astep_comment_skip (th : Thread) (i au ts k : Nat) (b : String)
    (r : Option Nat) (hc : th.comments.contains i = true) :
    Thread.astep th ⟨i, .comment b r, au, ts, k⟩ = th := by
  rw [Thread.astep_comment_eq, if_pos hc]

/-- A comment op whose id is fresh inserts the comment. -/
theorem Thread.astep_comment_new (th : Thread) (i au ts k : Nat) (b : String)
    (r : Option Nat) (hc : ¬ th.comments.contains i = true) :
    Thread.astep th ⟨i, .comment b r, au, ts, k⟩ =
      Thread.mapCom (insKey Semilattice.merge i
        (Redactable.present ⟨au, ⟨Max.mk b, k⟩, r, ts⟩)) th := by
  rw [Thread.astep_comment_eq, if_neg hc]

/-- Inserting under one key does not change containment of a different key. -/
theorem Thread.contains_mapCom_insKey_ne (th : Thread) (i j : Nat)
    (v : Redactable Comment) (hij : i ≠ j) :
    (Thread.mapCom (insKey Semilattice.merge j v) th).comments.contains i =
      th.comments.contains i :=
  containsKey_insKey_ne _ i j v th.comments.entries hij

/-- Two thread comment insertions with distinct ids commute. -/
theorem Thread.astep_comm_comments (th : Thread) (i1 i2 au1 au2 ts1 ts2 k1 k2 : Nat)
    (b1 b2 : String) (r1 r2 : Option Nat) (hid : i1 ≠ i2) :
    Thread.astep (Thread.astep th ⟨i1, .comment b1 r1, au1, ts1, k1⟩)
        ⟨i2, .comment b2 r2, au2, ts2, k2⟩ =
      Thread.astep (Thread.astep th ⟨i2, .comment b2 r2, au2, ts2, k2⟩)
        ⟨i1, .comment b1 r1, au1, ts1, k1⟩ := by
  by_cases hc1 : th.comments.contains i1 = true <;>
    by_cases hc2 : th.comments.contains i2 = true
  · rw [Thread.astep_comment_skip th i1 au1 ts1 k1 b1 r1 hc1,
      Thread.astep_comment_skip th i2 au2 ts2 k2 b2 r2 hc2,
      Thread.astep_comment_skip th i1 au1 ts1 k1 b1 r1 hc1]
  · rw [Thread.astep_comment_skip th i1 au1 ts1 k1 b1 r1 hc1,
      Thread.astep_comment_new th i2 au2 ts2 k2 b2 r2 hc2]
    rw [Thread.astep_comment_skip _ i1 au1 ts1 k1 b1 r1
      (by rw [Thread.contains_mapCom_insKey_ne th i1 i2 _ hid]; exact hc1)]
  · rw [Thread.astep_comment_skip th i2 au2 ts2 k2 b2 r2 hc2,
      Thread.astep_comment_new th i1 au1 ts1 k1 b1 r1 hc1]
    rw [Thread.astep_comment_skip _ i2 au2 ts2 k2 b2 r2
      (by rw [Thread.contains_mapCom_insKey_ne th i2 i1 _ (fun h => hid h.symm)]; exact hc2)]
  · rw [Thread.astep_comment_new th i1 au1 ts1 k1 b1 r1 hc1,
      Thread.astep_comment_new th i2 au2 ts2 k2 b2 r2 hc2]
    rw [Thread.astep_comment_new _ i2 au2 ts2 k2 b2 r2
      (by rw [Thread.contains_mapCom_insKey_ne th i2 i1 _ (fun h => hid h.symm)]; exact hc2)]
    rw [Thread.astep_comment_new _ i1 au1 ts1 k1 b1 r1
      (by rw [Thread.contains_mapCom_insKey_ne th i1 i2 _ hid]; exact hc1)]
    rw [Thread.mapCom_mapCom, Thread.mapCom_mapCom]
    refine congrArg (fun f => Thread.mapCom f th) (funext (fun e => ?_))
    exact insKey_comm _ i2 i1 _ _ e (fun h => absurd h.symm hid)

/-- A thread comment insertion commutes with a thread modification that
targets a different comment. -/
theorem Thread.astep_comm_comment_mod (th : Thread) (a b : Op ThreadAction)
    (ha : thModTargetT a.action = none) (hb : thModTargetT b.action ≠ none)
    (hne : thModTargetT b.action ≠ some a.id) :
    Thread.astep (Thread.astep th a) b = Thread.astep (Thread.astep th b) a := by
  rcases a with ⟨i1, act1, au1, ts1, k1⟩
  cases act1 with
  | redact _ => simp [thModTargetT] at ha
  | edit _ _ => simp [thModTargetT] at ha
  | comment b1 r1 =>
    rcases b with ⟨i2, act2, au2, ts2, k2⟩
    have main : ∀ (c2 : Nat) (g : Redactable Comment → Redactable Comment),
        c2 ≠ i1 →
        Thread.astep (Thread.mapCom (modifyKey c2 g) th) ⟨i1, .comment b1 r1, au1, ts1, k1⟩ =
          Thread.mapCom (modifyKey c2 g)
            (Thread.astep th ⟨i1, .comment b1 r1, au1, ts1, k1⟩) := by
      intro c2 g hc2
      rw [Thread.astep_comment_eq, Thread.astep_comment_eq]
      have hcont : (Thread.mapCom (modifyKey c2 g) th).comments.contains i1 =
          th.comments.contains i1 := by
        show containsKey i1 (modifyKey c2 g th.comments.entries) = _
        exact containsKey_modifyKey i1 c2 g th.comments.entries
      rw [hcont]
      by_cases hc : th.comments.contains i1 = true
      · rw [if_pos hc, if_pos hc]
      · rw [if_neg hc, if_neg hc, Thread.mapCom_mapCom, Thread.mapCom_mapCom]
        refine congrArg (fun f => Thread.mapCom f th) (funext (fun e => ?_))
        exact insKey_modifyKey_ne _ i1 c2 _ g e (fun h => hc2 h.symm)
    cases act2 with
    | comment _ _ => simp [thModTargetT] at hb
    | redact c2 =>
      have hc2 : c2 ≠ i1 := by
        simp [thModTargetT] at hne
        exact hne
      rw [Thread.astep_redact_eq, Thread.astep_redact_eq]
      exact (main c2 _ hc2).symm
    | edit c2 body2 =>
      have hc2 : c2 ≠ i1 := by
        simp [thModTargetT] at hne
        exact hne
      rw [Thread.astep_edit_eq, Thread.astep_edit_eq]
      exact (main c2 _ hc2).symm

/-- Combined thread step commutation. -/
theorem Thread.astep_comm (th : Thread) (a b : Op ThreadAction)
    (h : (thModTargetT a.action ≠ none ∧ thModTargetT b.action ≠ none) ∨
      (thModTargetT a.action = none ∧ thModTargetT b.action = none ∧ (a.id = b.id → a = b)) ∨
      (thModTargetT a.action = none ∧ thModTargetT b.action ≠ none ∧
        thModTargetT b.action ≠ some a.id) ∨
      (thModTargetT b.action = none ∧ thModTargetT a.action ≠ none ∧
        thModTargetT a.action ≠ some b.id)) :
    Thread.astep (Thread.astep th a) b = Thread.astep (Thread.astep th b) a := by
  rcases h with ⟨h1, h2⟩ | ⟨h1, h2, h3⟩ | ⟨h1, h2, h3⟩ | ⟨h1, h2, h3⟩
  · exact Thread.astep_comm_mods th a b h1 h2
  · rcases a with ⟨i1, act1, au1, ts1, k1⟩
    rcases b with ⟨i2, act2, au2, ts2, k2⟩
    cases act1 with
    | redact _ => simp [thModTargetT] at h1
    | edit _ _ => simp [thModTargetT] at h1
    | comment b1 r1 =>
      cases act2 with
      | redact _ => simp [thModTargetT] at h2
      | edit _ _ => simp [thModTargetT] at h2
      | comment b2 r2 =>
        by_cases hid : i1 = i2
        · have := h3 hid
          rw [this]
        · exact Thread.astep_comm_comments th i1 i2 au1 au2 ts1 ts2 k1 k2 b1 b2 r1 r2 hid
  · exact Thread.astep_comm_comment_mod th a b h1 h2 h3
  · exact (Thread.astep_comm_comment_mod th b a h1 h2 h3).symm

theorem Thread.gstep_comm (th : Thread) (a b : Op ThreadAction)
    (h : (thModTargetT a.action ≠ none ∧ thModTargetT b.action ≠ none) ∨
      (thModTargetT a.action = none ∧ thModTargetT b.action = none ∧ (a.id = b.id → a = b)) ∨
      (thModTargetT a.action = none ∧ thModTargetT b.action ≠ none ∧
        thModTargetT b.action ≠ some a.id) ∨
      (thModTargetT b.action = none ∧ thModTargetT a.action ≠ none ∧
        thModTargetT a.action ≠ some b.id)) :
    Thread.gstep (Thread.gstep th a) b = Thread.gstep (Thread.gstep th b) a := by
  unfold Thread.gstep
  rw [Thread.astep_thTlIns, Thread.astep_thTlIns, Thread.astep_comm th a b h,
    thTlIns_thTlIns]

/-! Commutation machinery for the patch COB. -/

theorem tlIns_tlIns (a b : Nat × Nat) (p : Patch) :
    tlIns a (tlIns b p) = tlIns b (tlIns a p) := by
  unfold tlIns GSet.insert
  dsimp only
  rw [sinsert_comm]

theorem Patch.mapRev_mapRev
    (f g : List (Nat × Redactable Revision) → List (Nat × Redactable Revision)) (p : Patch) :
    Patch.mapRev f (Patch.mapRev g p) = Patch.mapRev (fun e => f (g e)) p := rfl

theorem Patch.mapRev_tlIns
    (f : List (Nat × Redactable Revision) → List (Nat × Redactable Revision))
    (t : Nat × Nat) (p : Patch) :
    Patch.mapRev f (tlIns t p) = tlIns t (Patch.mapRev f p) := rfl

theorem Patch.astep_edit_nf (p : Patch) (i au ts k : Nat) (t d : String) (tg : MergeTarget) :
    Patch.astep p ⟨i, .edit t d tg, au, ts, k⟩ =
      { p with
        title := p.title.set (Max.mk t) k
        description := p.description.set (Max.mk d) k
        target := p.target.set (Max.mk tg) k } := rfl

theorem Patch.astep_tag_eq (p : Patch) (i au ts k : Nat) (add remove : List String) :
    Patch.astep p ⟨i, .tag add remove, au, ts, k⟩ =
      { p with
        tags :=
          remove.foldl (fun s t => s.remove t k)
            (add.foldl (fun s t => s.insert t k) p.tags) } := rfl

theorem Patch.astep_revision_eq (p : Patch) (i au ts k base oid : Nat) (d : String) :
    Patch.astep p ⟨i, .revision d base oid, au, ts, k⟩ =
      if p.revisions.contains i then p
      else
        Patch.mapRev
          (insKey Semilattice.merge i (.present (Revision.new au d base oid ts))) p := rfl

theorem Patch.astep_redact_nf (p : Patch) (i r au ts k : Nat) :
    Patch.astep p ⟨i, .redact r, au, ts, k⟩ =
      Patch.mapRev (modifyKey r (fun _ => .redacted)) p := by
  rcases hl : p.revisions.lookup r with _ | s
  · simp only [Patch.astep, hl]
    unfold Patch.mapRev
    rw [modifyKey_none r _ p.revisions.entries hl]
  · simp only [Patch.astep, hl]
    unfold Patch.mapRev GMap.modify
    refine congrArg (fun l => { p with revisions := ⟨l⟩ }) ?_
    exact modifyKey_congr _ _ _ _ (fun v => by cases v <;> rfl)

theorem Patch.astep_review_eq (p : Patch) (i r au ts k : Nat) (c : Option String)
    (v : Option Verdict) (inl : List CodeComment) :
    Patch.astep p ⟨i, .review r c v inl, au, ts, k⟩ =
      Patch.mapRev (modifyKey r (presMod (fun rev =>
        { rev with reviews := rev.reviews.insert au (Review.new v c inl ts) }))) p := by
  rcases hl : p.revisions.lookup r with _ | s
  · simp only [Patch.astep, hl]
    unfold Patch.mapRev
    rw [modifyKey_none r _ p.revisions.entries hl]
  · rcases s with rev | _
    · simp only [Patch.astep, hl]
      unfold Patch.mapRev GMap.modify
      refine congrArg (fun l => { p with revisions := ⟨l⟩ }) ?_
      exact modifyKey_congr _ _ _ _ (fun v2 => by cases v2 <;> rfl)
    · simp only [Patch.astep, hl]
      unfold Patch.mapRev
      rw [modifyKey_fix r _ p.revisions.entries Redactable.redacted hl rfl]

theorem Patch.astep_merge_eq (p : Patch) (i r commit au ts k : Nat) :
    Patch.astep p ⟨i, .merge r commit, au, ts, k⟩ =
      Patch.mapRev (modifyKey r (presMod (fun rev =>
        { rev with merges := rev.merges.insert (Max.mk ⟨au, commit, ts⟩) k }))) p := by
  rcases hl : p.revisions.lookup r with _ | s
  · simp only [Patch.astep, hl]
    unfold Patch.mapRev
    rw [modifyKey_none r _ p.revisions.entries hl]
  · rcases s with rev | _
    · simp only [Patch.astep, hl]
      unfold Patch.mapRev GMap.modify
      refine congrArg (fun l => { p with revisions := ⟨l⟩ }) ?_
      exact modifyKey_congr _ _ _ _ (fun v2 => by cases v2 <;> rfl)
    · simp only [Patch.astep, hl]
      unfold Patch.mapRev
      rw [modifyKey_fix r _ p.revisions.entries Redactable.redacted hl rfl]

theorem Patch.astep_thread_eq (p : Patch) (i r au ts k : Nat) (act : ThreadAction) :
    Patch.astep p ⟨i, .thread r act, au, ts, k⟩ =
      Patch.mapRev (modifyKey r (presMod (fun rv =>
        { rv with discussion := Thread.gstep rv.discussion ⟨i, act, au, ts, k⟩ }))) p := by
  rcases hl : p.revisions.lookup r with _ | s
  · simp only [Patch.astep, hl]
    unfold Patch.mapRev
    rw [modifyKey_none r _ p.revisions.entries hl]
  · rcases s with rev | _
    · simp only [Patch.astep, hl]
      unfold Patch.mapRev GMap.modify
      refine congrArg (fun l => { p with revisions := ⟨l⟩ }) ?_
      exact modifyKey_congr _ _ _ _ (fun v2 => by cases v2 <;> rfl)
    · simp only [Patch.astep, hl]
      unfold Patch.mapRev
      rw [modifyKey_fix r _ p.revisions.entries Redactable.redacted hl rfl]

theorem Patch.astep_tlIns (t : Nat × Nat) (p : Patch) (op : Op Action) :
    Patch.astep (tlIns t p) op = tlIns t (Patch.astep p op) := by
  rcases op with ⟨i, act, au, ts, k⟩
  cases act with
  | edit ti d tg => rfl
  | tag a r => rfl
  | revision d b o =>
    rw [Patch.astep_revision_eq, Patch.astep_revision_eq]
    have hcm : (tlIns t p).revisions = p.revisions := rfl
    rw [hcm]
    by_cases hc : p.revisions.contains i = true
    · rw [if_pos hc, if_pos hc]
    · rw [if_neg hc, if_neg hc]
      rfl
  | redact r =>
    rw [Patch.astep_redact_nf, Patch.astep_redact_nf]
    rfl
  | review r c v inl =>
    rw [Patch.astep_review_eq, Patch.astep_review_eq]
    rfl
  | merge r c =>
    rw [Patch.astep_merge_eq, Patch.astep_merge_eq]
    rfl
  | thread r a =>
    rw [Patch.astep_thread_eq, Patch.astep_thread_eq]
    rfl

theorem Patch.gstep_tlIns (t : Nat × Nat) (p : Patch) (op : Op Action) :
    Patch.gstep (tlIns t p) op = tlIns t (Patch.gstep p op) := by
  unfold Patch.gstep
  rw [Patch.astep_tlIns, tlIns_tlIns]

theorem Patch.foldl_gstep_tlIns (l : List (Op Action)) (t : Nat × Nat) (p : Patch) :
    l.foldl Patch.gstep (tlIns t p) = tlIns t (l.foldl Patch.gstep p) := by
  induction l generalizing p with
  | nil => rfl
  | cons x xs ih => rw [List.foldl_cons, List.foldl_cons, Patch.gstep_tlIns, ih]

theorem cellUpd_comm {α : Type} [LinOrd α] (a b : α) (ca cb : Bool × Nat) (s : LWWSet α) :
    cellUpd a ca (cellUpd b cb s) = cellUpd b cb (cellUpd a ca s) :=
  congrArg LWWSet.mk (lwwIns_comm a b ca cb s.entries)

theorem cellUpd_pull {α : Type} [LinOrd α] (l : List α) (a : α) (ca cb : Bool × Nat)
    (s : LWWSet α) :
    cellUpd a ca (l.foldl (fun s t => cellUpd t cb s) s) =
      l.foldl (fun s t => cellUpd t cb s) (cellUpd a ca s) := by
  induction l generalizing s with
  | nil => rfl
  | cons x xs ih =>
    rw [List.foldl_cons, List.foldl_cons, ih, cellUpd_comm]

theorem foldl_cellUpd_comm {α : Type} [LinOrd α] (l1 l2 : List α) (c1 c2 : Bool × Nat)
    (s : LWWSet α) :
    l1.foldl (fun s t => cellUpd t c1 s) (l2.foldl (fun s t => cellUpd t c2 s) s) =
      l2.foldl (fun s t => cellUpd t c2 s) (l1.foldl (fun s t => cellUpd t c1 s) s) := by
  induction l1 generalizing s with
  | nil => rfl
  | cons x xs ih =>
    rw [List.foldl_cons, cellUpd_pull, ih, List.foldl_cons]

/-- The whole tag-action update (inserts then removes) commutes with
another tag-action update. -/
theorem tagSteps_comm {α : Type} [LinOrd α] (a1 r1 a2 r2 : List α) (k1 k2 : Nat)
    (s : LWWSet α) :
    r1.foldl (fun s t => cellUpd t (false, k1) s)
        (a1.foldl (fun s t => cellUpd t (true, k1) s)
          (r2.foldl (fun s t => cellUpd t (false, k2) s)
            (a2.foldl (fun s t => cellUpd t (true, k2) s) s))) =
      r2.foldl (fun s t => cellUpd t (false, k2) s)
        (a2.foldl (fun s t => cellUpd t (true, k2) s)
          (r1.foldl (fun s t => cellUpd t (false, k1) s)
            (a1.foldl (fun s t => cellUpd t (true, k1) s) s))) := by
  rw [foldl_cellUpd_comm a1 r2, foldl_cellUpd_comm a1 a2,
    foldl_cellUpd_comm r1 r2, foldl_cellUpd_comm r1 a2]

/-- Two revision-slot modifications commute when their slot functions
commute pointwise. -/
theorem Patch.mapRevMod_comm (p : Patch) (r1 r2 : Nat)
    (f1 f2 : Redactable Revision → Redactable Revision)
    (h : ∀ v, f1 (f2 v) = f2 (f1 v)) :
    Patch.mapRev (modifyKey r1 f1) (Patch.mapRev (modifyKey r2 f2) p) =
      Patch.mapRev (modifyKey r2 f2) (Patch.mapRev (modifyKey r1 f1) p) := by
  rw [Patch.mapRev_mapRev, Patch.mapRev_mapRev]
  refine congrArg (fun f => Patch.mapRev f p) (funext (fun e => ?_))
  by_cases hr : r1 = r2
  · subst hr
    rw [modifyKey_modifyKey_self, modifyKey_modifyKey_self]
    exact modifyKey_congr _ _ _ _ h
  · exact modifyKey_modifyKey_ne r1 r2 f1 f2 e hr

/-- Glue: two steps whose interpretations are slot modifications commute
when the slot functions commute pointwise. -/
theorem Patch.astep_comm_modmod (p : Patch) (a b : Op Action) (r1 r2 : Nat)
    (F1 F2 : Redactable Revision → Redactable Revision)
    (hA : ∀ q, Patch.astep q a = Patch.mapRev (modifyKey r1 F1) q)
    (hB : ∀ q, Patch.astep q b = Patch.mapRev (modifyKey r2 F2) q)
    (h : ∀ v, F1 (F2 v) = F2 (F1 v)) :
    Patch.astep (Patch.astep p a) b = Patch.astep (Patch.astep p b) a := by
  rw [hA, hB, hB, hA]
  exact Patch.mapRevMod_comm p r2 r1 F2 F1 (fun v => (h v).symm)

/-- Two class-2 (modification) steps commute unconditionally. -/
theorem Patch.astep_comm_c2 (p : Patch) (a b : Op Action)
    (ha : Patch.classOf a.action = 2) (hb : Patch.classOf b.action = 2) :
    Patch.astep (Patch.astep p a) b = Patch.astep (Patch.astep p b) a := by
  rcases a with ⟨i1, act1, au1, ts1, k1⟩
  rcases b with ⟨i2, act2, au2, ts2, k2⟩
  cases act1 with
  | revision d1 b1 o1 => simp [Patch.classOf] at ha
  | edit t1 d1 tg1 =>
    cases act2 with
    | revision d2 b2 o2 => simp [Patch.classOf] at hb
    | edit t2 d2 tg2 =>
      show Patch.mk _ _ _ _ _ _ _ = Patch.mk _ _ _ _ _ _ _
      have h1 := lwwreg_set_comm (fun x y => maxMerge_comm x y)
        (fun x y z => maxMerge_assoc x y z) p.title (Max.mk t1) (Max.mk t2) k1 k2
      have h2 := lwwreg_set_comm (fun x y => maxMerge_comm x y)
        (fun x y z => maxMerge_assoc x y z) p.description (Max.mk d1) (Max.mk d2) k1 k2
      have h3 := lwwreg_set_comm (fun x y => maxMerge_comm x y)
        (fun x y z => maxMerge_assoc x y z) p.target (Max.mk tg1) (Max.mk tg2) k1 k2
      congr 1
    | tag a2 r2 => rfl
    | redact r2 =>
      rw [Patch.astep_redact_nf, Patch.astep_redact_nf]
      rfl
    | review r2 c2 v2 in2 =>
      rw [Patch.astep_review_eq, Patch.astep_review_eq]
      rfl
    | merge r2 c2 =>
      rw [Patch.astep_merge_eq, Patch.astep_merge_eq]
      rfl
    | thread r2 ta2 =>
      rw [Patch.astep_thread_eq, Patch.astep_thread_eq]
      rfl
  | tag a1 r1 =>
    cases act2 with
    | revision d2 b2 o2 => simp [Patch.classOf] at hb
    | edit t2 d2 tg2 => rfl
    | tag a2 r2 =>
      show Patch.mk _ _ _ _ _ _ _ = Patch.mk _ _ _ _ _ _ _
      have htags :
          r1.foldl (fun s t => s.remove t k1)
              (a1.foldl (fun s t => s.insert t k1)
                (r2.foldl (fun s t => s.remove t k2)
                  (a2.foldl (fun s t => s.insert t k2) p.tags))) =
            r2.foldl (fun s t => s.remove t k2)
              (a2.foldl (fun s t => s.insert t k2)
                (r1.foldl (fun s t => s.remove t k1)
                  (a1.foldl (fun s t => s.insert t k1) p.tags))) := by
        have hins : ∀ k : Nat,
            (fun (s : LWWSet String) (t : String) => s.insert t k) =
              (fun s t => cellUpd t (true, k) s) := fun _ => rfl
        have hrem : ∀ k : Nat,
            (fun (s : LWWSet String) (t : String) => s.remove t k) =
              (fun s t => cellUpd t (false, k) s) := fun _ => rfl
        rw [hins k1, hins k2, hrem k1, hrem k2]
        exact tagSteps_comm a1 r1 a2 r2 k1 k2 p.tags
      congr 1
      exact htags.symm
    | redact r2 =>
      rw [Patch.astep_redact_nf, Patch.astep_redact_nf]
      rfl
    | review r2 c2 v2 in2 =>
      rw [Patch.astep_review_eq, Patch.astep_review_eq]
      rfl
    | merge r2 c2 =>
      rw [Patch.astep_merge_eq, Patch.astep_merge_eq]
      rfl
    | thread r2 ta2 =>
      rw [Patch.astep_thread_eq, Patch.astep_thread_eq]
      rfl
  | redact r1 =>
    cases act2 with
    | revision d2 b2 o2 => simp [Patch.classOf] at hb
    | edit t2 d2 tg2 =>
      rw [Patch.astep_redact_nf, Patch.astep_redact_nf]
      rfl
    | tag a2 r2 =>
      rw [Patch.astep_redact_nf, Patch.astep_redact_nf]
      rfl
    | redact r2 =>
      exact Patch.astep_comm_modmod p _ _ r1 r2 _ _
        (fun q => Patch.astep_redact_nf q i1 r1 au1 ts1 k1)
        (fun q => Patch.astep_redact_nf q i2 r2 au2 ts2 k2)
        (fun v => rfl)
    | review r2 c2 v2 in2 =>
      exact Patch.astep_comm_modmod p _ _ r1 r2 _ _
        (fun q => Patch.astep_redact_nf q i1 r1 au1 ts1 k1)
        (fun q => Patch.astep_review_eq q i2 r2 au2 ts2 k2 c2 v2 in2)
        (fun v => rfl)
    | merge r2 c2 =>
      exact Patch.astep_comm_modmod p _ _ r1 r2 _ _
        (fun q => Patch.astep_redact_nf q i1 r1 au1 ts1 k1)
        (fun q => Patch.astep_merge_eq q i2 r2 c2 au2 ts2 k2)
        (fun v => rfl)
    | thread r2 ta2 =>
      exact Patch.astep_comm_modmod p _ _ r1 r2 _ _
        (fun q => Patch.astep_redact_nf q i1 r1 au1 ts1 k1)
        (fun q => Patch.astep_thread_eq q i2 r2 au2 ts2 k2 ta2)
        (fun v => rfl)
  | review r1 c1 v1 in1 =>
    cases act2 with
    | revision d2 b2 o2 => simp [Patch.classOf] at hb
    | edit t2 d2 tg2 =>
      rw [Patch.astep_review_eq, Patch.astep_review_eq]
      rfl
    | tag a2 r2 =>
      rw [Patch.astep_review_eq, Patch.astep_review_eq]
      rfl
    | redact r2 =>
      exact Patch.astep_comm_modmod p _ _ r1 r2 _ _
        (fun q => Patch.astep_review_eq q i1 r1 au1 ts1 k1 c1 v1 in1)
        (fun q => Patch.astep_redact_nf q i2 r2 au2 ts2 k2)
        (fun v => rfl)
    | review r2 c2 v2 in2 =>
      refine Patch.astep_comm_modmod p _ _ r1 r2 _ _
        (fun q => Patch.astep_review_eq q i1 r1 au1 ts1 k1 c1 v1 in1)
        (fun q => Patch.astep_review_eq q i2 r2 au2 ts2 k2 c2 v2 in2)
        (fun v => ?_)
      cases v with
      | redacted => rfl
      | present rv =>
        refine congrArg Redactable.present ?_
        refine congrArg (fun g => { rv with reviews := g }) ?_
        exact congrArg GMap.mk (insKey_comm Semilattice.merge au1 au2 _ _ rv.reviews.entries
          (fun _ => ⟨reviewNew_comm v1 v2 c1 c2 in1 in2 ts1 ts2,
            fun w => reviewMerge_rightcomm w _ _⟩))
    | merge r2 c2 =>
      refine Patch.astep_comm_modmod p _ _ r1 r2 _ _
        (fun q => Patch.astep_review_eq q i1 r1 au1 ts1 k1 c1 v1 in1)
        (fun q => Patch.astep_merge_eq q i2 r2 c2 au2 ts2 k2)
        (fun v => ?_)
      cases v with
      | redacted => rfl
      | present rv => rfl
    | thread r2 ta2 =>
      refine Patch.astep_comm_modmod p _ _ r1 r2 _ _
        (fun q => Patch.astep_review_eq q i1 r1 au1 ts1 k1 c1 v1 in1)
        (fun q => Patch.astep_thread_eq q i2 r2 au2 ts2 k2 ta2)
        (fun v => ?_)
      cases v with
      | redacted => rfl
      | present rv => rfl
  | merge r1 cm1 =>
    cases act2 with
    | revision d2 b2 o2 => simp [Patch.classOf] at hb
    | edit t2 d2 tg2 =>
      rw [Patch.astep_merge_eq, Patch.astep_merge_eq]
      rfl
    | tag a2 r2 =>
      rw [Patch.astep_merge_eq, Patch.astep_merge_eq]
      rfl
    | redact r2 =>
      exact Patch.astep_comm_modmod p _ _ r1 r2 _ _
        (fun q => Patch.astep_merge_eq q i1 r1 cm1 au1 ts1 k1)
        (fun q => Patch.astep_redact_nf q i2 r2 au2 ts2 k2)
        (fun v => rfl)
    | review r2 c2 v2 in2 =>
      refine Patch.astep_comm_modmod p _ _ r1 r2 _ _
        (fun q => Patch.astep_merge_eq q i1 r1 cm1 au1 ts1 k1)
        (fun q => Patch.astep_review_eq q i2 r2 au2 ts2 k2 c2 v2 in2)
        (fun v => ?_)
      cases v with
      | redacted => rfl
      | present rv => rfl
    | merge r2 cm2 =>
      refine Patch.astep_comm_modmod p _ _ r1 r2 _ _
        (fun q => Patch.astep_merge_eq q i1 r1 cm1 au1 ts1 k1)
        (fun q => Patch.astep_merge_eq q i2 r2 cm2 au2 ts2 k2)
        (fun v => ?_)
      cases v with
      | redacted => rfl
      | present rv =>
        refine congrArg Redactable.present ?_
        refine congrArg (fun g => { rv with merges := g }) ?_
        exact congrArg LWWSet.mk
          (lwwIns_comm (Max.mk ⟨au1, cm1, ts1⟩) (Max.mk ⟨au2, cm2, ts2⟩)
            (true, k1) (true, k2) rv.merges.entries)
    | thread r2 ta2 =>
      refine Patch.astep_comm_modmod p _ _ r1 r2 _ _
        (fun q => Patch.astep_merge_eq q i1 r1 cm1 au1 ts1 k1)
        (fun q => Patch.astep_thread_eq q i2 r2 au2 ts2 k2 ta2)
        (fun v => ?_)
      cases v with
      | redacted => rfl
      | present rv => rfl
  | thread r1 ta1 =>
    cases act2 with
    | revision d2 b2 o2 => simp [Patch.classOf] at hb
    | edit t2 d2 tg2 =>
      rw [Patch.astep_thread_eq, Patch.astep_thread_eq]
      rfl
    | tag a2 r2 =>
      rw [Patch.astep_thread_eq, Patch.astep_thread_eq]
      rfl
    | redact r2 =>
      exact Patch.astep_comm_modmod p _ _ r1 r2 _ _
        (fun q => Patch.astep_thread_eq q i1 r1 au1 ts1 k1 ta1)
        (fun q => Patch.astep_redact_nf q i2 r2 au2 ts2 k2)
        (fun v => rfl)
    | review r2 c2 v2 in2 =>
      refine Patch.astep_comm_modmod p _ _ r1 r2 _ _
        (fun q => Patch.astep_thread_eq q i1 r1 au1 ts1 k1 ta1)
        (fun q => Patch.astep_review_eq q i2 r2 au2 ts2 k2 c2 v2 in2)
        (fun v => ?_)
      cases v with
      | redacted => rfl
      | present rv => rfl
    | merge r2 cm2 =>
      refine Patch.astep_comm_modmod p _ _ r1 r2 _ _
        (fun q => Patch.astep_thread_eq q i1 r1 au1 ts1 k1 ta1)
        (fun q => Patch.astep_merge_eq q i2 r2 cm2 au2 ts2 k2)
        (fun v => ?_)
      cases v with
      | redacted => rfl
      | present rv => rfl
    | thread r2 ta2 =>
      have h1 : thModTargetT ta1 ≠ none := by
        cases ta1 with
        | comment _ _ => simp [Patch.classOf] at ha
        | redact _ => simp [thModTargetT]
        | edit _ _ => simp [thModTargetT]
      have h2 : thModTargetT ta2 ≠ none := by
        cases ta2 with
        | comment _ _ => simp [Patch.classOf] at hb
        | redact _ => simp [thModTargetT]
        | edit _ _ => simp [thModTargetT]
      refine Patch.astep_comm_modmod p _ _ r1 r2 _ _
        (fun q => Patch.astep_thread_eq q i1 r1 au1 ts1 k1 ta1)
        (fun q => Patch.astep_thread_eq q i2 r2 au2 ts2 k2 ta2)
        (fun v => ?_)
      cases v with
      | redacted => rfl
      | present rv =>
        refine congrArg Redactable.present ?_
        refine congrArg (fun d => { rv with discussion := d }) ?_
        exact Thread.gstep_comm rv.discussion ⟨i2, ta2, au2, ts2, k2⟩ ⟨i1, ta1, au1, ts1, k1⟩
          (Or.inl ⟨h2, h1⟩)

/-- A thread comment creation commutes with every class-2 step that does
not modify the very comment it creates. -/
theorem Patch.astep_comm_c1_c2 (p : Patch) (i1 r1 au1 ts1 k1 : Nat) (bd : String)
    (rt : Option Nat) (b : Op Action) (hb : Patch.classOf b.action = 2)
    (hmod : thModTarget b.action ≠ some i1) :
    Patch.astep (Patch.astep p ⟨i1, .thread r1 (.comment bd rt), au1, ts1, k1⟩) b =
      Patch.astep (Patch.astep p b) ⟨i1, .thread r1 (.comment bd rt), au1, ts1, k1⟩ := by
  rcases b with ⟨i2, act2, au2, ts2, k2⟩
  cases act2 with
  | revision d2 b2 o2 => simp [Patch.classOf] at hb
  | edit t2 d2 tg2 =>
    rw [Patch.astep_thread_eq, Patch.astep_thread_eq]
    rfl
  | tag a2 r2 =>
    rw [Patch.astep_thread_eq, Patch.astep_thread_eq]
    rfl
  | redact r2 =>
    exact Patch.astep_comm_modmod p _ _ r1 r2 _ _
      (fun q => Patch.astep_thread_eq q i1 r1 au1 ts1 k1 (.comment bd rt))
      (fun q => Patch.astep_redact_nf q i2 r2 au2 ts2 k2)
      (fun v => rfl)
  | review r2 c2 v2 in2 =>
    refine Patch.astep_comm_modmod p _ _ r1 r2 _ _
      (fun q => Patch.astep_thread_eq q i1 r1 au1 ts1 k1 (.comment bd rt))
      (fun q => Patch.astep_review_eq q i2 r2 au2 ts2 k2 c2 v2 in2)
      (fun v => ?_)
    cases v with
    | redacted => rfl
    | present rv => rfl
  | merge r2 cm2 =>
    refine Patch.astep_comm_modmod p _ _ r1 r2 _ _
      (fun q => Patch.astep_thread_eq q i1 r1 au1 ts1 k1 (.comment bd rt))
      (fun q => Patch.astep_merge_eq q i2 r2 cm2 au2 ts2 k2)
      (fun v => ?_)
    cases v with
    | redacted => rfl
    | present rv => rfl
  | thread r2 ta2 =>
    have h2 : thModTargetT ta2 ≠ none := by
      cases ta2 with
      | comment _ _ => simp [Patch.classOf] at hb
      | redact _ => simp [thModTargetT]
      | edit _ _ => simp [thModTargetT]
    have h3 : thModTargetT ta2 ≠ some i1 := by
      cases ta2 with
      | comment _ _ => simp [Patch.classOf] at hb
      | redact c => simpa [thModTargetT, thModTarget] using hmod
      | edit c bd2 => simpa [thModTargetT, thModTarget] using hmod
    refine Patch.astep_comm_modmod p _ _ r1 r2 _ _
      (fun q => Patch.astep_thread_eq q i1 r1 au1 ts1 k1 (.comment bd rt))
      (fun q => Patch.astep_thread_eq q i2 r2 au2 ts2 k2 ta2)
      (fun v => ?_)
    cases v with
    | redacted => rfl
    | present rv =>
      refine congrArg Redactable.present ?_
      refine congrArg (fun d => { rv with discussion := d }) ?_
      exact Thread.gstep_comm rv.discussion ⟨i2, ta2, au2, ts2, k2⟩
        ⟨i1, .comment bd rt, au1, ts1, k1⟩
        (Or.inr (Or.inr (Or.inr ⟨by simp [thModTargetT], h2, h3⟩)))

/-- Two thread comment creations with distinct operation ids commute. -/
theorem Patch.astep_comm_c1_c1 (p : Patch) (i1 i2 r1 r2 au1 au2 ts1 ts2 k1 k2 : Nat)
    (bd1 bd2 : String) (rt1 rt2 : Option Nat) (hne : i1 ≠ i2) :
    Patch.astep (Patch.astep p ⟨i1, .thread r1 (.comment bd1 rt1), au1, ts1, k1⟩)
        ⟨i2, .thread r2 (.comment bd2 rt2), au2, ts2, k2⟩ =
      Patch.astep (Patch.astep p ⟨i2, .thread r2 (.comment bd2 rt2), au2, ts2, k2⟩)
        ⟨i1, .thread r1 (.comment bd1 rt1), au1, ts1, k1⟩ := by
  refine Patch.astep_comm_modmod p _ _ r1 r2 _ _
    (fun q => Patch.astep_thread_eq q i1 r1 au1 ts1 k1 (.comment bd1 rt1))
    (fun q => Patch.astep_thread_eq q i2 r2 au2 ts2 k2 (.comment bd2 rt2))
    (fun v => ?_)
  cases v with
  | redacted => rfl
  | present rv =>
    refine congrArg Redactable.present ?_
    refine congrArg (fun d => { rv with discussion := d }) ?_
    exact Thread.gstep_comm rv.discussion ⟨i2, .comment bd2 rt2, au2, ts2, k2⟩
      ⟨i1, .comment bd1 rt1, au1, ts1, k1⟩
      (Or.inr (Or.inl ⟨by simp [thModTargetT], by simp [thModTargetT],
        fun h => absurd h (fun hx => hne hx.symm)⟩))

/-- A revision creation whose id is already a key is a no-op. -/
theorem Patch.astep_revision_skip (p : Patch) (i au ts k base oid : Nat) (d : String)
    (hc : p.revisions.contains i = true) :
    Patch.astep p ⟨i, .revision d base oid, au, ts, k⟩ = p := by
  rw [Patch.astep_revision_eq, if_pos hc]

/-- A revision creation at a fresh id inserts a present revision. -/
theorem Patch.astep_revision_new (p : Patch) (i au ts k base oid : Nat) (d : String)
    (hc : ¬ p.revisions.contains i = true) :
    Patch.astep p ⟨i, .revision d base oid, au, ts, k⟩ =
      Patch.mapRev
        (insKey Semilattice.merge i (.present (Revision.new au d base oid ts))) p := by
  rw [Patch.astep_revision_eq, if_neg hc]

/-- A revision creation commutes with every step that is not a revision
creation and does not reference the created revision. -/
theorem Patch.astep_comm_c0_other (p : Patch) (i1 au1 ts1 k1 base oid : Nat) (d : String)
    (b : Op Action) (hb : Patch.classOf b.action ≠ 0)
    (htr : touchesRev b.action ≠ some i1) :
    Patch.astep (Patch.astep p ⟨i1, .revision d base oid, au1, ts1, k1⟩) b =
      Patch.astep (Patch.astep p b) ⟨i1, .revision d base oid, au1, ts1, k1⟩ := by
  rcases b with ⟨i2, act2, au2, ts2, k2⟩
  have main : ∀ (r2 : Nat) (F : Redactable Revision → Redactable Revision),
      (∀ q, Patch.astep q ⟨i2, act2, au2, ts2, k2⟩ = Patch.mapRev (modifyKey r2 F) q) →
      r2 ≠ i1 →
      Patch.astep (Patch.astep p ⟨i1, .revision d base oid, au1, ts1, k1⟩)
          ⟨i2, act2, au2, ts2, k2⟩ =
        Patch.astep (Patch.astep p ⟨i2, act2, au2, ts2, k2⟩)
          ⟨i1, .revision d base oid, au1, ts1, k1⟩ := by
    intro r2 F hB hr2
    rw [Patch.astep_revision_eq, hB, hB, Patch.astep_revision_eq]
    have hcont : (Patch.mapRev (modifyKey r2 F) p).revisions.contains i1 =
        p.revisions.contains i1 :=
      containsKey_modifyKey i1 r2 F p.revisions.entries
    rw [hcont]
    by_cases hc : p.revisions.contains i1 = true
    · rw [if_pos hc, if_pos hc]
    · rw [if_neg hc, if_neg hc, Patch.mapRev_mapRev, Patch.mapRev_mapRev]
      refine congrArg (fun f => Patch.mapRev f p) (funext (fun e => ?_))
      exact (insKey_modifyKey_ne Semilattice.merge i1 r2 _ F e (fun h => hr2 h.symm)).symm
  cases act2 with
  | revision d2 b2 o2 => simp [Patch.classOf] at hb
  | edit t2 d2 tg2 =>
    rw [Patch.astep_revision_eq, Patch.astep_revision_eq]
    have hcm : (Patch.astep p ⟨i2, .edit t2 d2 tg2, au2, ts2, k2⟩).revisions =
        p.revisions := rfl
    rw [hcm]
    by_cases hc : p.revisions.contains i1 = true
    · rw [if_pos hc, if_pos hc]
    · rw [if_neg hc, if_neg hc]
      rfl
  | tag a2 r2 =>
    rw [Patch.astep_revision_eq, Patch.astep_revision_eq]
    have hcm : (Patch.astep p ⟨i2, .tag a2 r2, au2, ts2, k2⟩).revisions =
        p.revisions := rfl
    rw [hcm]
    by_cases hc : p.revisions.contains i1 = true
    · rw [if_pos hc, if_pos hc]
    · rw [if_neg hc, if_neg hc]
      rfl
  | redact r2 =>
    exact main r2 _ (fun q => Patch.astep_redact_nf q i2 r2 au2 ts2 k2)
      (by simpa [touchesRev] using htr)
  | review r2 c2 v2 in2 =>
    exact main r2 _ (fun q => Patch.astep_review_eq q i2 r2 au2 ts2 k2 c2 v2 in2)
      (by simpa [touchesRev] using htr)
  | merge r2 cm2 =>
    exact main r2 _ (fun q => Patch.astep_merge_eq q i2 r2 cm2 au2 ts2 k2)
      (by simpa [touchesRev] using htr)
  | thread r2 ta2 =>
    exact main r2 _ (fun q => Patch.astep_thread_eq q i2 r2 au2 ts2 k2 ta2)
      (by simpa [touchesRev] using htr)

/-- Containment under one key is unchanged by inserting another key. -/
theorem Patch.contains_mapRev_insKey_ne (p : Patch) (i j : Nat)
    (v : Redactable Revision) (hij : i ≠ j) :
    (Patch.mapRev (insKey Semilattice.merge j v) p).revisions.contains i =
      p.revisions.contains i :=
  containsKey_insKey_ne _ i j v p.revisions.entries hij

/-- Two revision creations with distinct operation ids commute. -/
theorem Patch.astep_comm_c0_c0 (p : Patch) (i1 i2 au1 au2 ts1 ts2 k1 k2 b1 o1 b2 o2 : Nat)
    (d1 d2 : String) (hne : i1 ≠ i2) :
    Patch.astep (Patch.astep p ⟨i1, .revision d1 b1 o1, au1, ts1, k1⟩)
        ⟨i2, .revision d2 b2 o2, au2, ts2, k2⟩ =
      Patch.astep (Patch.astep p ⟨i2, .revision d2 b2 o2, au2, ts2, k2⟩)
        ⟨i1, .revision d1 b1 o1, au1, ts1, k1⟩ := by
  by_cases hc1 : p.revisions.contains i1 = true <;>
    by_cases hc2 : p.revisions.contains i2 = true
  · rw [Patch.astep_revision_skip p i1 au1 ts1 k1 b1 o1 d1 hc1,
      Patch.astep_revision_skip p i2 au2 ts2 k2 b2 o2 d2 hc2,
      Patch.astep_revision_skip p i1 au1 ts1 k1 b1 o1 d1 hc1]
  · rw [Patch.astep_revision_skip p i1 au1 ts1 k1 b1 o1 d1 hc1,
      Patch.astep_revision_new p i2 au2 ts2 k2 b2 o2 d2 hc2]
    rw [Patch.astep_revision_skip _ i1 au1 ts1 k1 b1 o1 d1
      (by rw [Patch.contains_mapRev_insKey_ne p i1 i2 _ hne]; exact hc1)]
  · rw [Patch.astep_revision_skip p i2 au2 ts2 k2 b2 o2 d2 hc2,
      Patch.astep_revision_new p i1 au1 ts1 k1 b1 o1 d1 hc1]
    rw [Patch.astep_revision_skip _ i2 au2 ts2 k2 b2 o2 d2
      (by rw [Patch.contains_mapRev_insKey_ne p i2 i1 _ (fun h => hne h.symm)]; exact hc2)]
  · rw [Patch.astep_revision_new p i1 au1 ts1 k1 b1 o1 d1 hc1,
      Patch.astep_revision_new p i2 au2 ts2 k2 b2 o2 d2 hc2]
    rw [Patch.astep_revision_new _ i2 au2 ts2 k2 b2 o2 d2
      (by rw [Patch.contains_mapRev_insKey_ne p i2 i1 _ (fun h => hne h.symm)]; exact hc2)]
    rw [Patch.astep_revision_new _ i1 au1 ts1 k1 b1 o1 d1
      (by rw [Patch.contains_mapRev_insKey_ne p i1 i2 _ hne]; exact hc1)]
    rw [Patch.mapRev_mapRev, Patch.mapRev_mapRev]
    refine congrArg (fun f => Patch.mapRev f p) (funext (fun e => ?_))
    exact insKey_comm _ i2 i1 _ _ e (fun h => absurd h.symm hne)

/-- Lift a step commutation to the timeline-recording step. -/
theorem Patch.gstep_comm_of_astep (p : Patch) (a b : Op Action)
    (h : ∀ q, Patch.astep (Patch.astep q a) b = Patch.astep (Patch.astep q b) a) :
    Patch.gstep (Patch.gstep p a) b = Patch.gstep (Patch.gstep p b) a := by
  unfold Patch.gstep
  rw [Patch.astep_tlIns, Patch.astep_tlIns, h p, tlIns_tlIns]

/-! Membership lemmas for the ordered containers. -/

theorem containsKey_of_mem {κ ν : Type} [LinOrd κ] (k : κ) (v : ν) (l : List (κ × ν))
    (h : (k, v) ∈ l) : containsKey k l = true := by
  induction l with
  | nil => cases h
  | cons e t ih =>
    rcases e with ⟨kh, vh⟩
    rcases List.mem_cons.mp h with h1 | h2
    · have hk : k = kh := congrArg Prod.fst h1
      subst hk
      simp [containsKey, lookupKey, LinOrd.ble_refl]
    · by_cases hg : (ble k kh && ble kh k) = true
      · simp [containsKey, lookupKey, hg]
      · simp only [containsKey, lookupKey, hg, if_false, ite_false]
        exact ih h2

theorem lookupKey_mem {κ ν : Type} [LinOrd κ] (k : κ) (l : List (κ × ν)) (v : ν)
    (h : lookupKey k l = some v) : (k, v) ∈ l := by
  induction l with
  | nil => simp [lookupKey] at h
  | cons e t ih =>
    rcases e with ⟨kh, vh⟩
    by_cases hg : (ble k kh && ble kh k) = true
    · have hk : k = kh :=
        LinOrd.ble_antisymm _ _ (Bool.and_eq_true_iff.mp hg).1 (Bool.and_eq_true_iff.mp hg).2
      subst hk
      simp only [lookupKey, LinOrd.ble_refl, Bool.and_self, if_true, ite_true,
        Option.some.injEq] at h
      subst h
      exact List.mem_cons_self _ _
    · simp only [lookupKey, hg, if_false, ite_false] at h
      exact List.mem_cons_of_mem _ (ih h)

theorem mem_insKey {κ ν : Type} [LinOrd κ] (m : ν → ν → ν) (k : κ) (v : ν)
    (l : List (κ × ν)) (e : κ × ν) (he : e ∈ insKey m k v l) :
    e ∈ l ∨ e = (k, v) ∨ ∃ w, (k, w) ∈ l ∧ e = (k, m w v) := by
  induction l with
  | nil =>
    simp only [insKey] at he
    rcases List.mem_singleton.mp he with h
    exact Or.inr (Or.inl h)
  | cons hd t ih =>
    rcases hd with ⟨k2, v2⟩
    by_cases h12 : ble k k2 = true
    · by_cases h21 : ble k2 k = true
      · have hk : k = k2 := LinOrd.ble_antisymm _ _ h12 h21
        subst hk
        simp only [insKey, h12, if_true, ite_true] at he
        rcases List.mem_cons.mp he with h1 | h2
        · exact Or.inr (Or.inr ⟨v2, List.mem_cons_self _ _, h1⟩)
        · exact Or.inl (List.mem_cons_of_mem _ h2)
      · simp only [insKey, h12, h21, if_true, if_false, ite_true, ite_false] at he
        rcases List.mem_cons.mp he with h1 | h2
        · exact Or.inr (Or.inl h1)
        · exact Or.inl h2
    · simp only [insKey, h12, if_false, ite_false] at he
      rcases List.mem_cons.mp he with h1 | h2
      · exact Or.inl (h1 ▸ List.mem_cons_self _ _)
      · rcases ih h2 with h3 | h3 | ⟨w, hw, hew⟩
        · exact Or.inl (List.mem_cons_of_mem _ h3)
        · exact Or.inr (Or.inl h3)
        · exact Or.inr (Or.inr ⟨w, List.mem_cons_of_mem _ hw, hew⟩)

theorem mem_modifyKey {κ ν : Type} [LinOrd κ] (k : κ) (f : ν → ν) (l : List (κ × ν))
    (e : κ × ν) (he : e ∈ modifyKey k f l) :
    e ∈ l ∨ ∃ w, (k, w) ∈ l ∧ e = (k, f w) := by
  induction l with
  | nil => cases he
  | cons hd t ih =>
    rcases hd with ⟨k2, v2⟩
    by_cases hg : (ble k k2 && ble k2 k) = true
    · have hk : k = k2 :=
        LinOrd.ble_antisymm _ _ (Bool.and_eq_true_iff.mp hg).1 (Bool.and_eq_true_iff.mp hg).2
      subst hk
      simp only [modifyKey, LinOrd.ble_refl, Bool.and_self, if_true, ite_true] at he
      rcases List.mem_cons.mp he with h1 | h2
      · exact Or.inr ⟨v2, List.mem_cons_self _ _, h1⟩
      · exact Or.inl (List.mem_cons_of_mem _ h2)
    · simp only [modifyKey, hg, if_false, ite_false] at he
      rcases List.mem_cons.mp he with h1 | h2
      · exact Or.inl (h1 ▸ List.mem_cons_self _ _)
      · rcases ih h2 with h3 | ⟨w, hw, hew⟩
        · exact Or.inl (List.mem_cons_of_mem _ h3)
        · exact Or.inr ⟨w, List.mem_cons_of_mem _ hw, hew⟩

theorem modifyKey_congr_lookup {κ ν : Type} [LinOrd κ] (k : κ) (f g : ν → ν)
    (l : List (κ × ν)) (v : ν) (h : lookupKey k l = some v) (hfg : f v = g v) :
    modifyKey k f l = modifyKey k g l := by
  induction l with
  | nil => rfl
  | cons e t ih =>
    rcases e with ⟨kh, vh⟩
    by_cases hg : (ble k kh && ble kh k) = true
    · simp only [lookupKey, hg, if_true, ite_true, Option.some.injEq] at h
      subst h
      simp [modifyKey, hg, hfg]
    · simp only [lookupKey, hg, if_false, ite_false] at h
      simp [modifyKey, hg, ih h]

/-! Class inversion and canonical-order bookkeeping. -/

theorem Patch.classOf_zero (act : Action) (h : Patch.classOf act = 0) :
    ∃ d b o, act = .revision d b o := by
  cases act with
  | revision d b o => exact ⟨d, b, o, rfl⟩
  | edit t d tg => simp [Patch.classOf] at h
  | tag a r => simp [Patch.classOf] at h
  | redact r => simp [Patch.classOf] at h
  | review r c v i => simp [Patch.classOf] at h
  | merge r c => simp [Patch.classOf] at h
  | thread r ta => cases ta <;> simp [Patch.classOf] at h

theorem Patch.classOf_one (act : Action) (h : Patch.classOf act = 1) :
    ∃ r bd rt, act = .thread r (.comment bd rt) := by
  cases act with
  | revision d b o => simp [Patch.classOf] at h
  | edit t d tg => simp [Patch.classOf] at h
  | tag a r => simp [Patch.classOf] at h
  | redact r => simp [Patch.classOf] at h
  | review r c v i => simp [Patch.classOf] at h
  | merge r c => simp [Patch.classOf] at h
  | thread r ta =>
    cases ta with
    | comment bd rt => exact ⟨r, bd, rt, rfl⟩
    | redact c => simp [Patch.classOf] at h
    | edit c b => simp [Patch.classOf] at h

theorem Patch.canon_append_c2 (l : List (Op Action)) (a : Op Action)
    (ha : Patch.classOf a.action = 2) :
    Patch.canon (l ++ [a]) = Patch.canon l ++ [a] := by
  unfold Patch.canon
  rw [List.filter_append, List.filter_append, List.filter_append,
    List.filter_singleton, List.filter_singleton, List.filter_singleton]
  simp [ha]

theorem Patch.canon_append_c1 (l : List (Op Action)) (a : Op Action)
    (ha : Patch.classOf a.action = 1) :
    Patch.canon (l ++ [a]) =
      (l.filter (fun o => Patch.classOf o.action = 0) ++
        (l.filter (fun o => Patch.classOf o.action = 1) ++ [a])) ++
          l.filter (fun o => Patch.classOf o.action = 2) := by
  unfold Patch.canon
  rw [List.filter_append, List.filter_append, List.filter_append,
    List.filter_singleton, List.filter_singleton, List.filter_singleton]
  simp [ha]

theorem Patch.canon_append_c0 (l : List (Op Action)) (a : Op Action)
    (ha : Patch.classOf a.action = 0) :
    Patch.canon (l ++ [a]) =
      ((l.filter (fun o => Patch.classOf o.action = 0) ++ [a]) ++
        l.filter (fun o => Patch.classOf o.action = 1)) ++
          l.filter (fun o => Patch.classOf o.action = 2) := by
  unfold Patch.canon
  rw [List.filter_append, List.filter_append, List.filter_append,
    List.filter_singleton, List.filter_singleton, List.filter_singleton]
  simp [ha]

theorem Patch.foldl_gstep_pull (t : List (Op Action)) (a : Op Action) (m : Patch)
    (h : ∀ b ∈ t, ∀ q, Patch.gstep (Patch.gstep q a) b = Patch.gstep (Patch.gstep q b) a) :
    t.foldl Patch.gstep (Patch.gstep m a) = Patch.gstep (t.foldl Patch.gstep m) a := by
  induction t generalizing m with
  | nil => rfl
  | cons x xs ih =>
    rw [List.foldl_cons, List.foldl_cons, h x (List.mem_cons_self x xs) m]
    exact ih (Patch.gstep m x) (fun b hb q => h b (List.mem_cons_of_mem x hb) q)

/-! Splitting a successful batch application. -/

theorem Patch.apply_cons_success (p : Patch) (op : Op Action) (t : List (Op Action))
    (q : Patch) (h : Patch.apply p (op :: t) = (q, none)) :
    ∃ m, Patch.applyOp p op = (m, none) ∧ Patch.apply m t = (q, none) := by
  rcases hop : Patch.applyOp p op with ⟨m0, oe⟩
  cases oe with
  | none =>
    have hs : Patch.apply p (op :: t) = Patch.apply m0 t := by
      simp [Patch.apply, hop]
    rw [hs] at h
    exact ⟨m0, hop ▸ rfl, h⟩
  | some e =>
    exfalso
    have hs : Patch.apply p (op :: t) = (m0, some e) := by
      simp [Patch.apply, hop]
    rw [hs] at h
    simp at h

theorem Patch.apply_split (p : Patch) (l1 l2 : List (Op Action)) (q : Patch)
    (h : Patch.apply p (l1 ++ l2) = (q, none)) :
    ∃ m, Patch.apply p l1 = (m, none) ∧ Patch.apply m l2 = (q, none) := by
  induction l1 generalizing p with
  | nil => exact ⟨p, rfl, h⟩
  | cons op t ih =>
    rcases Patch.apply_cons_success p op (t ++ l2) q h with ⟨m0, hop, hrest⟩
    rcases ih m0 hrest with ⟨m, hm1, hm2⟩
    refine ⟨m, ?_, hm2⟩
    simp [Patch.apply, hop, hm1]

/-! Where keys can come from: a revision key is only created by a
class-0 operation carrying that id, and a comment key only by a class-1
operation carrying that id. -/

theorem Thread.gstep_ckey_src (th : Thread) (op : Op ThreadAction) (c : Nat)
    (h : (Thread.gstep th op).comments.contains c = true) :
    th.comments.contains c = true ∨ (thModTargetT op.action = none ∧ op.id = c) := by
  rcases op with ⟨i, act, au, ts, k⟩
  have h2 : (Thread.astep th ⟨i, act, au, ts, k⟩).comments.contains c = true := h
  cases act with
  | comment bd rt =>
    rw [Thread.astep_comment_eq] at h2
    by_cases hc : th.comments.contains i = true
    · rw [if_pos hc] at h2
      exact Or.inl h2
    · rw [if_neg hc] at h2
      by_cases hci : c = i
      · exact Or.inr ⟨rfl, hci.symm⟩
      · rw [Thread.contains_mapCom_insKey_ne th c i _ hci] at h2
        exact Or.inl h2
  | redact c2 =>
    rw [Thread.astep_redact_eq] at h2
    have h3 : (Thread.mapCom (modifyKey c2 (fun _ => Redactable.redacted)) th).comments.contains
        c = th.comments.contains c := containsKey_modifyKey c c2 _ th.comments.entries
    rw [h3] at h2
    exact Or.inl h2
  | edit c2 bd =>
    rw [Thread.astep_edit_eq] at h2
    have h3 : (Thread.mapCom (modifyKey c2
        (presMod (fun cm => { cm with body := cm.body.set (Max.mk bd) k }))) th).comments.contains
        c = th.comments.contains c := containsKey_modifyKey c c2 _ th.comments.entries
    rw [h3] at h2
    exact Or.inl h2

theorem Patch.gstep_contains_src (p : Patch) (op : Op Action) (r : Nat)
    (h : (Patch.gstep p op).revisions.contains r = true) :
    p.revisions.contains r = true ∨ (Patch.classOf op.action = 0 ∧ op.id = r) := by
  rcases op with ⟨i, act, au, ts, k⟩
  have h2 : (Patch.astep p ⟨i, act, au, ts, k⟩).revisions.contains r = true := h
  cases act with
  | edit t d tg => exact Or.inl h2
  | tag a rm => exact Or.inl h2
  | revision d bs o =>
    rw [Patch.astep_revision_eq] at h2
    by_cases hc : p.revisions.contains i = true
    · rw [if_pos hc] at h2
      exact Or.inl h2
    · rw [if_neg hc] at h2
      by_cases hri : r = i
      · exact Or.inr ⟨rfl, hri.symm⟩
      · rw [Patch.contains_mapRev_insKey_ne p r i _ hri] at h2
        exact Or.inl h2
  | redact r2 =>
    rw [Patch.astep_redact_nf] at h2
    have h3 : containsKey r (modifyKey r2 _ p.revisions.entries) = true := h2
    rw [containsKey_modifyKey] at h3
    exact Or.inl h3
  | review r2 c2 v2 in2 =>
    rw [Patch.astep_review_eq] at h2
    have h3 : containsKey r (modifyKey r2 _ p.revisions.entries) = true := h2
    rw [containsKey_modifyKey] at h3
    exact Or.inl h3
  | merge r2 cm2 =>
    rw [Patch.astep_merge_eq] at h2
    have h3 : containsKey r (modifyKey r2 _ p.revisions.entries) = true := h2
    rw [containsKey_modifyKey] at h3
    exact Or.inl h3
  | thread r2 ta =>
    rw [Patch.astep_thread_eq] at h2
    have h3 : containsKey r (modifyKey r2 _ p.revisions.entries) = true := h2
    rw [containsKey_modifyKey] at h3
    exact Or.inl h3

theorem Patch.gstep_comment_src (p : Patch) (op : Op Action) (c : Nat)
    (h : Patch.hasCKey (Patch.gstep p op) c) :
    Patch.hasCKey p c ∨ (Patch.classOf op.action = 1 ∧ op.id = c) := by
  rcases op with ⟨i, act, au, ts, k⟩
  rcases h with ⟨e, he, rv, hrv, hcc⟩
  have he2 : e ∈ (Patch.astep p ⟨i, act, au, ts, k⟩).revisions.entries := he
  clear he
  cases act with
  | edit t d tg => exact Or.inl ⟨e, he2, rv, hrv, hcc⟩
  | tag a rm => exact Or.inl ⟨e, he2, rv, hrv, hcc⟩
  | revision d bs o =>
    rw [Patch.astep_revision_eq] at he2
    by_cases hc : p.revisions.contains i = true
    · rw [if_pos hc] at he2
      exact Or.inl ⟨e, he2, rv, hrv, hcc⟩
    · rw [if_neg hc] at he2
      have he3 : e ∈ insKey Semilattice.merge i
          (Redactable.present (Revision.new au d bs o ts)) p.revisions.entries := he2
      rcases mem_insKey _ _ _ _ _ he3 with h1 | h1 | ⟨w, hw, h1⟩
      · exact Or.inl ⟨e, h1, rv, hrv, hcc⟩
      · exfalso
        have hv : e.2 = Redactable.present (Revision.new au d bs o ts) :=
          congrArg Prod.snd h1
        rw [hv] at hrv
        have hrv2 : Revision.new au d bs o ts = rv := Redactable.present.inj hrv
        rw [← hrv2] at hcc
        simp [Revision.new, Thread.default, GMap.contains, GMap.empty, containsKey,
          lookupKey] at hcc
      · exact absurd (containsKey_of_mem i w p.revisions.entries hw) hc
  | redact r2 =>
    rw [Patch.astep_redact_nf] at he2
    have he3 : e ∈ modifyKey r2 (fun _ => Redactable.redacted) p.revisions.entries := he2
    rcases mem_modifyKey _ _ _ _ he3 with h1 | ⟨w, hw, h1⟩
    · exact Or.inl ⟨e, h1, rv, hrv, hcc⟩
    · exfalso
      have hv : e.2 = Redactable.redacted := congrArg Prod.snd h1
      rw [hv] at hrv
      exact Redactable.noConfusion hrv
  | review r2 c2 v2 in2 =>
    rw [Patch.astep_review_eq] at he2
    have he3 : e ∈ modifyKey r2 (presMod (fun rev =>
        { rev with reviews := rev.reviews.insert au (Review.new v2 c2 in2 ts) }))
        p.revisions.entries := he2
    rcases mem_modifyKey _ _ _ _ he3 with h1 | ⟨w, hw, h1⟩
    · exact Or.inl ⟨e, h1, rv, hrv, hcc⟩
    · have hv : e.2 = presMod _ w := congrArg Prod.snd h1
      rw [hv] at hrv
      cases w with
      | redacted => exact absurd hrv (fun hx => Redactable.noConfusion hx)
      | present rv0 =>
        have hrv2 : _ = rv := Redactable.present.inj hrv
        refine Or.inl ⟨(r2, Redactable.present rv0), hw, rv0, rfl, ?_⟩
        rw [← hrv2] at hcc
        exact hcc
  | merge r2 cm2 =>
    rw [Patch.astep_merge_eq] at he2
    have he3 : e ∈ modifyKey r2 (presMod (fun rev =>
        { rev with merges := rev.merges.insert (Max.mk ⟨au, cm2, ts⟩) k }))
        p.revisions.entries := he2
    rcases mem_modifyKey _ _ _ _ he3 with h1 | ⟨w, hw, h1⟩
    · exact Or.inl ⟨e, h1, rv, hrv, hcc⟩
    · have hv : e.2 = presMod _ w := congrArg Prod.snd h1
      rw [hv] at hrv
      cases w with
      | redacted => exact absurd hrv (fun hx => Redactable.noConfusion hx)
      | present rv0 =>
        have hrv2 : _ = rv := Redactable.present.inj hrv
        refine Or.inl ⟨(r2, Redactable.present rv0), hw, rv0, rfl, ?_⟩
        rw [← hrv2] at hcc
        exact hcc
  | thread r2 ta =>
    rw [Patch.astep_thread_eq] at he2
    have he3 : e ∈ modifyKey r2 (presMod (fun rv =>
        { rv with discussion := Thread.gstep rv.discussion ⟨i, ta, au, ts, k⟩ }))
        p.revisions.entries := he2
    rcases mem_modifyKey _ _ _ _ he3 with h1 | ⟨w, hw, h1⟩
    · exact Or.inl ⟨e, h1, rv, hrv, hcc⟩
    · have hv : e.2 = presMod _ w := congrArg Prod.snd h1
      rw [hv] at hrv
      cases w with
      | redacted => exact absurd hrv (fun hx => Redactable.noConfusion hx)
      | present rv0 =>
        have hrv2 : _ = rv := Redactable.present.inj hrv
        rw [← hrv2] at hcc
        have hcc2 : (Thread.gstep rv0.discussion ⟨i, ta, au, ts, k⟩).comments.contains c =
            true := hcc
        rcases Thread.gstep_ckey_src rv0.discussion ⟨i, ta, au, ts, k⟩ c hcc2 with h3 | ⟨h3, h4⟩
        · exact Or.inl ⟨(r2, Redactable.present rv0), hw, rv0, rfl, h3⟩
        · refine Or.inr ⟨?_, h4⟩
          cases ta with
          | comment bd rt => rfl
          | redact cc => simp [thModTargetT] at h3
          | edit cc bd => simp [thModTargetT] at h3

/-! Agreement of the fallible interpreter with the total step on
success. -/

theorem Thread.applyOp_agree (th th' : Thread) (op : Op ThreadAction)
    (h : Thread.applyOp th op = (th', none)) : th' = Thread.gstep th op := by
  rcases op with ⟨i, act, au, ts, k⟩
  cases act with
  | comment bd rt =>
    by_cases hc : th.comments.contains i = true
    · have hc' : containsKey i th.comments.entries = true := hc
      have hs : Thread.applyOp th ⟨i, .comment bd rt, au, ts, k⟩ =
          (thTlIns (k, i) th, none) := by
        simp [Thread.applyOp, thTlIns, GMap.contains, hc']
      have h1 : thTlIns (k, i) th = th' := congrArg Prod.fst (hs.symm.trans h)
      rw [← h1]
      unfold Thread.gstep
      rw [Thread.astep_comment_eq, if_pos hc]
    · have hc' : containsKey i th.comments.entries = false := by
        cases hx : th.comments.contains i with
        | false => exact hx
        | true => exact absurd hx hc
      cases rt with
      | none =>
        have hs : Thread.applyOp th ⟨i, .comment bd none, au, ts, k⟩ =
            (thTlIns (k, i) (Thread.astep th ⟨i, .comment bd none, au, ts, k⟩), none) := by
          rw [Thread.astep_comment_eq, if_neg hc]
          simp [Thread.applyOp, thTlIns, Thread.mapCom, GMap.contains, GMap.insert, hc']
        have h1 : thTlIns (k, i) (Thread.astep th ⟨i, .comment bd none, au, ts, k⟩) = th' :=
          congrArg Prod.fst (hs.symm.trans h)
        rw [← h1]
        rfl
      | some c =>
        rcases hl : th.comments.lookup c with _ | s
        · exfalso
          have hl' : lookupKey c th.comments.entries = none := hl
          have hs : (Thread.applyOp th ⟨i, .comment bd (some c), au, ts, k⟩).2 =
              some (.missing c) := by
            simp [Thread.applyOp, GMap.contains, GMap.lookup, hc', hl']
          rw [h] at hs
          simp at hs
        · cases s with
          | present cm =>
            have hl' : lookupKey c th.comments.entries = some (.present cm) := hl
            have hs : Thread.applyOp th ⟨i, .comment bd (some c), au, ts, k⟩ =
                (thTlIns (k, i)
                  (Thread.astep th ⟨i, .comment bd (some c), au, ts, k⟩), none) := by
              rw [Thread.astep_comment_eq, if_neg hc]
              simp [Thread.applyOp, thTlIns, Thread.mapCom, GMap.contains, GMap.insert,
                GMap.lookup, hc', hl']
            have h1 : thTlIns (k, i)
                (Thread.astep th ⟨i, .comment bd (some c), au, ts, k⟩) = th' :=
              congrArg Prod.fst (hs.symm.trans h)
            rw [← h1]
            rfl
          | redacted =>
            exfalso
            have hl' : lookupKey c th.comments.entries = some .redacted := hl
            have hs : (Thread.applyOp th ⟨i, .comment bd (some c), au, ts, k⟩).2 =
                some (.missing c) := by
              simp [Thread.applyOp, GMap.contains, GMap.lookup, hc', hl']
            rw [h] at hs
            simp at hs
  | redact cid =>
    rcases hl : th.comments.lookup cid with _ | s
    · exfalso
      have hl' : lookupKey cid th.comments.entries = none := hl
      have hs : (Thread.applyOp th ⟨i, .redact cid, au, ts, k⟩).2 =
          some (.missing cid) := by
        simp [Thread.applyOp, GMap.lookup, hl']
      rw [h] at hs
      simp at hs
    · have hl' : lookupKey cid th.comments.entries = some s := hl
      have hs : Thread.applyOp th ⟨i, .redact cid, au, ts, k⟩ =
          (thTlIns (k, i) (Thread.astep th ⟨i, .redact cid, au, ts, k⟩), none) := by
        simp only [Thread.applyOp, Thread.astep, thTlIns, GMap.lookup, GMap.modify, hl']
      have h1 : thTlIns (k, i) (Thread.astep th ⟨i, .redact cid, au, ts, k⟩) = th' :=
        congrArg Prod.fst (hs.symm.trans h)
      rw [← h1]
      rfl
  | edit cid bd =>
    rcases hl : th.comments.lookup cid with _ | s
    · exfalso
      have hl' : lookupKey cid th.comments.entries = none := hl
      have hs : (Thread.applyOp th ⟨i, .edit cid bd, au, ts, k⟩).2 =
          some (.missing cid) := by
        simp [Thread.applyOp, GMap.lookup, hl']
      rw [h] at hs
      simp at hs
    · cases s with
      | present cm =>
        have hl' : lookupKey cid th.comments.entries = some (.present cm) := hl
        have hs : Thread.applyOp th ⟨i, .edit cid bd, au, ts, k⟩ =
            (thTlIns (k, i) (Thread.astep th ⟨i, .edit cid bd, au, ts, k⟩), none) := by
          simp only [Thread.applyOp, Thread.astep, thTlIns, GMap.lookup, GMap.modify, hl']
        have h1 : thTlIns (k, i) (Thread.astep th ⟨i, .edit cid bd, au, ts, k⟩) = th' :=
          congrArg Prod.fst (hs.symm.trans h)
        rw [← h1]
        rfl
      | redacted =>
        have hl' : lookupKey cid th.comments.entries = some .redacted := hl
        have hs : Thread.applyOp th ⟨i, .edit cid bd, au, ts, k⟩ =
            (thTlIns (k, i) (Thread.astep th ⟨i, .edit cid bd, au, ts, k⟩), none) := by
          simp only [Thread.applyOp, Thread.astep, thTlIns, GMap.lookup, hl']
        have h1 : thTlIns (k, i) (Thread.astep th ⟨i, .edit cid bd, au, ts, k⟩) = th' :=
          congrArg Prod.fst (hs.symm.trans h)
        rw [← h1]
        rfl

theorem Patch.applyOp_gstep_agree (p q : Patch) (op : Op Action)
    (h : Patch.applyOp p op = (q, none)) : q = Patch.gstep p op := by
  rcases op with ⟨i, act, au, ts, k⟩
  cases act with
  | edit t d tg =>
    have h1 : tlIns (k, i) (Patch.astep p ⟨i, .edit t d tg, au, ts, k⟩) = q :=
      congrArg Prod.fst h
    rw [← h1]
    rfl
  | tag ad rm =>
    have h1 : tlIns (k, i) (Patch.astep p ⟨i, .tag ad rm, au, ts, k⟩) = q :=
      congrArg Prod.fst h
    rw [← h1]
    rfl
  | revision d bs o =>
    by_cases hc : p.revisions.contains i = true
    · have hc' : containsKey i p.revisions.entries = true := hc
      have hs : Patch.applyOp p ⟨i, .revision d bs o, au, ts, k⟩ =
          (tlIns (k, i) (Patch.astep p ⟨i, .revision d bs o, au, ts, k⟩), none) := by
        rw [Patch.astep_revision_eq, if_pos hc]
        simp [Patch.applyOp, tlIns, GMap.contains, hc']
      have h1 : tlIns (k, i) (Patch.astep p ⟨i, .revision d bs o, au, ts, k⟩) = q :=
        congrArg Prod.fst (hs.symm.trans h)
      rw [← h1]
      rfl
    · have hc' : containsKey i p.revisions.entries = false := by
        cases hx : p.revisions.contains i with
        | false => exact hx
        | true => exact absurd hx hc
      have hs : Patch.applyOp p ⟨i, .revision d bs o, au, ts, k⟩ =
          (tlIns (k, i) (Patch.astep p ⟨i, .revision d bs o, au, ts, k⟩), none) := by
        rw [Patch.astep_revision_eq, if_neg hc]
        simp [Patch.applyOp, tlIns, Patch.mapRev, GMap.contains, GMap.insert, hc']
      have h1 : tlIns (k, i) (Patch.astep p ⟨i, .revision d bs o, au, ts, k⟩) = q :=
        congrArg Prod.fst (hs.symm.trans h)
      rw [← h1]
      rfl
  | redact r =>
    rcases hl : p.revisions.lookup r with _ | s
    · exfalso
      have hl' : lookupKey r p.revisions.entries = none := hl
      have hs : (Patch.applyOp p ⟨i, .redact r, au, ts, k⟩).2 = some (.missing r) := by
        simp [Patch.applyOp, GMap.lookup, hl']
      rw [h] at hs
      simp at hs
    · have hl' : lookupKey r p.revisions.entries = some s := hl
      have hs : Patch.applyOp p ⟨i, .redact r, au, ts, k⟩ =
          (tlIns (k, i) (Patch.astep p ⟨i, .redact r, au, ts, k⟩), none) := by
        simp only [Patch.applyOp, Patch.astep, tlIns, GMap.lookup, GMap.modify, hl']
      have h1 : tlIns (k, i) (Patch.astep p ⟨i, .redact r, au, ts, k⟩) = q :=
        congrArg Prod.fst (hs.symm.trans h)
      rw [← h1]
      rfl
  | review r c v inl =>
    rcases hl : p.revisions.lookup r with _ | s
    · exfalso
      have hl' : lookupKey r p.revisions.entries = none := hl
      have hs : (Patch.applyOp p ⟨i, .review r c v inl, au, ts, k⟩).2 =
          some (.missing r) := by
        simp [Patch.applyOp, GMap.lookup, hl']
      rw [h] at hs
      simp at hs
    · cases s with
      | present rev =>
        have hl' : lookupKey r p.revisions.entries = some (.present rev) := hl
        have hs : Patch.applyOp p ⟨i, .review r c v inl, au, ts, k⟩ =
            (tlIns (k, i) (Patch.astep p ⟨i, .review r c v inl, au, ts, k⟩), none) := by
          simp only [Patch.applyOp, Patch.astep, tlIns, GMap.lookup, GMap.modify, hl']
        have h1 : tlIns (k, i) (Patch.astep p ⟨i, .review r c v inl, au, ts, k⟩) = q :=
          congrArg Prod.fst (hs.symm.trans h)
        rw [← h1]
        rfl
      | redacted =>
        exfalso
        have hl' : lookupKey r p.revisions.entries = some .redacted := hl
        have hs : (Patch.applyOp p ⟨i, .review r c v inl, au, ts, k⟩).2 =
            some (.missing r) := by
          simp [Patch.applyOp, GMap.lookup, hl']
        rw [h] at hs
        simp at hs
  | merge r cm =>
    rcases hl : p.revisions.lookup r with _ | s
    · exfalso
      have hl' : lookupKey r p.revisions.entries = none := hl
      have hs : (Patch.applyOp p ⟨i, .merge r cm, au, ts, k⟩).2 = some (.missing r) := by
        simp [Patch.applyOp, GMap.lookup, hl']
      rw [h] at hs
      simp at hs
    · cases s with
      | present rev =>
        have hl' : lookupKey r p.revisions.entries = some (.present rev) := hl
        have hs : Patch.applyOp p ⟨i, .merge r cm, au, ts, k⟩ =
            (tlIns (k, i) (Patch.astep p ⟨i, .merge r cm, au, ts, k⟩), none) := by
          simp only [Patch.applyOp, Patch.astep, tlIns, GMap.lookup, GMap.modify, hl']
        have h1 : tlIns (k, i) (Patch.astep p ⟨i, .merge r cm, au, ts, k⟩) = q :=
          congrArg Prod.fst (hs.symm.trans h)
        rw [← h1]
        rfl
      | redacted =>
        exfalso
        have hl' : lookupKey r p.revisions.entries = some .redacted := hl
        have hs : (Patch.applyOp p ⟨i, .merge r cm, au, ts, k⟩).2 = some (.missing r) := by
          simp [Patch.applyOp, GMap.lookup, hl']
        rw [h] at hs
        simp at hs
  | thread r ta =>
    rcases hl : p.revisions.lookup r with _ | s
    · exfalso
      have hl' : lookupKey r p.revisions.entries = none := hl
      have hs : (Patch.applyOp p ⟨i, .thread r ta, au, ts, k⟩).2 = some (.missing r) := by
        simp [Patch.applyOp, GMap.lookup, hl']
      rw [h] at hs
      simp at hs
    · cases s with
      | redacted =>
        exfalso
        have hl' : lookupKey r p.revisions.entries = some .redacted := hl
        have hs : (Patch.applyOp p ⟨i, .thread r ta, au, ts, k⟩).2 = some (.missing r) := by
          simp [Patch.applyOp, GMap.lookup, hl']
        rw [h] at hs
        simp at hs
      | present rev =>
        have hl' : lookupKey r p.revisions.entries = some (.present rev) := hl
        rcases hi : Thread.applyOp rev.discussion ⟨i, ta, au, ts, k⟩ with ⟨d2, e2⟩
        have hs : Patch.applyOp p ⟨i, .thread r ta, au, ts, k⟩ =
            ({ tlIns (k, i) p with
                revisions := ⟨modifyKey r (fun s =>
                  match s with
                  | .present rv =>
                    .present
                      { rv with
                        discussion :=
                          (Thread.applyOp rv.discussion ⟨i, ta, au, ts, k⟩).1 }
                  | x => x) p.revisions.entries⟩ },
              e2.map ApplyError.thread) := by
          simp only [Patch.applyOp, tlIns, GMap.lookup, GMap.modify, hl', hi]
        have he2 : e2 = none := by
          have h2 := congrArg Prod.snd (hs.symm.trans h)
          cases e2 with
          | none => rfl
          | some x => simp at h2
        subst he2
        have hd2 : d2 = Thread.gstep rev.discussion ⟨i, ta, au, ts, k⟩ :=
          Thread.applyOp_agree rev.discussion d2 ⟨i, ta, au, ts, k⟩ hi
        have h1 : ({ tlIns (k, i) p with
            revisions := ⟨modifyKey r (fun s =>
              match s with
              | Redactable.present rv =>
                Redactable.present
                  { rv with
                    discussion :=
                      (Thread.applyOp rv.discussion ⟨i, ta, au, ts, k⟩).1 }
              | x => x) p.revisions.entries⟩ } : Patch) = q :=
          congrArg Prod.fst (hs.symm.trans h)
        have hmk : modifyKey r (fun s =>
            match s with
            | Redactable.present rv =>
              Redactable.present
                { rv with
                  discussion := (Thread.applyOp rv.discussion ⟨i, ta, au, ts, k⟩).1 }
            | x => x) p.revisions.entries =
          modifyKey r (fun s =>
            match s with
            | Redactable.present rv =>
              Redactable.present
                { rv with
                  discussion := Thread.gstep rv.discussion ⟨i, ta, au, ts, k⟩ }
            | x => x) p.revisions.entries := by
          refine modifyKey_congr_lookup r _ _ p.revisions.entries (.present rev) hl' ?_
          show Redactable.present _ = Redactable.present _
          rw [hi]
          exact congrArg (fun d => Redactable.present { rev with discussion := d }) hd2
        have hmk2 : modifyKey r (fun s =>
            match s with
            | Redactable.present rv =>
              Redactable.present
                { rv with
                  discussion := Thread.gstep rv.discussion ⟨i, ta, au, ts, k⟩ }
            | x => x) p.revisions.entries =
          modifyKey r (presMod (fun rv =>
            { rv with
              discussion := Thread.gstep rv.discussion ⟨i, ta, au, ts, k⟩ }))
            p.revisions.entries :=
          modifyKey_congr _ _ _ _ (fun v => by cases v <;> rfl)
        rw [← h1, hmk, hmk2]
        unfold Patch.gstep
        rw [Patch.astep_thread_eq]
        rfl

theorem Patch.apply_rkey_src (u : List (Op Action)) (m : Patch)
    (h : Patch.apply Patch.default u = (m, none)) (r : Nat)
    (hc : m.revisions.contains r = true) :
    ∃ d ∈ u, Patch.classOf d.action = 0 ∧ d.id = r := by
  induction u using List.reverseRecOn generalizing m with
  | nil =>
    have h1 : Patch.default = m := congrArg Prod.fst h
    rw [← h1] at hc
    exact absurd hc (by
      simp [Patch.default, GMap.contains, GMap.empty, containsKey, lookupKey])
  | append_singleton u2 b ih =>
    rcases Patch.apply_split Patch.default u2 [b] m h with ⟨m1, h1, h2⟩
    rcases Patch.apply_cons_success m1 b [] m h2 with ⟨m2, hb, hnil⟩
    have hm : m2 = m := congrArg Prod.fst hnil
    rw [hm] at hb
    have hg : m = Patch.gstep m1 b := Patch.applyOp_gstep_agree m1 m b hb
    rw [hg] at hc
    rcases Patch.gstep_contains_src m1 b r hc with h3 | ⟨h3, h4⟩
    · rcases ih m1 h1 h3 with ⟨d, hd, hd2⟩
      exact ⟨d, List.mem_append_left _ hd, hd2⟩
    · exact ⟨b, List.mem_append_right _ (List.mem_singleton_self b), h3, h4⟩

theorem Patch.apply_ckey_src (u : List (Op Action)) (m : Patch)
    (h : Patch.apply Patch.default u = (m, none)) (c : Nat)
    (hc : Patch.hasCKey m c) :
    ∃ d ∈ u, Patch.classOf d.action = 1 ∧ d.id = c := by
  induction u using List.reverseRecOn generalizing m with
  | nil =>
    have h1 : Patch.default = m := congrArg Prod.fst h
    rw [← h1] at hc
    rcases hc with ⟨e, he, _⟩
    cases he
  | append_singleton u2 b ih =>
    rcases Patch.apply_split Patch.default u2 [b] m h with ⟨m1, h1, h2⟩
    rcases Patch.apply_cons_success m1 b [] m h2 with ⟨m2, hb, hnil⟩
    have hm : m2 = m := congrArg Prod.fst hnil
    rw [hm] at hb
    have hg : m = Patch.gstep m1 b := Patch.applyOp_gstep_agree m1 m b hb
    rw [hg] at hc
    rcases Patch.gstep_comment_src m1 b c hc with h3 | ⟨h3, h4⟩
    · rcases ih m1 h1 h3 with ⟨d, hd, hd2⟩
      exact ⟨d, List.mem_append_left _ hd, hd2⟩
    · exact ⟨b, List.mem_append_right _ (List.mem_singleton_self b), h3, h4⟩

/-- A successful operation that references a revision finds it in the
revisions map. -/
theorem Patch.applyOp_success_touches (m m' : Patch) (b : Op Action) (r : Nat)
    (h : Patch.applyOp m b = (m', none)) (htr : touchesRev b.action = some r) :
    m.revisions.contains r = true := by
  rcases b with ⟨i, act, au, ts, k⟩
  have fromLookup : ∀ (r2 : Nat) (s : Redactable Revision),
      m.revisions.lookup r2 = some s → r2 = r → m.revisions.contains r = true := by
    intro r2 s hl hr
    subst hr
    have hl' : lookupKey r2 m.revisions.entries = some s := hl
    simp [GMap.contains, containsKey, hl']
  cases act with
  | edit t d tg => simp [touchesRev] at htr
  | tag a rm => simp [touchesRev] at htr
  | revision d bs o => simp [touchesRev] at htr
  | redact r2 =>
    rcases hl : m.revisions.lookup r2 with _ | s
    · exfalso
      have hl' : lookupKey r2 m.revisions.entries = none := hl
      have hs : (Patch.applyOp m ⟨i, .redact r2, au, ts, k⟩).2 = some (.missing r2) := by
        simp [Patch.applyOp, GMap.lookup, hl']
      rw [h] at hs
      simp at hs
    · exact fromLookup r2 s hl (by simpa [touchesRev] using htr)
  | review r2 c2 v2 in2 =>
    rcases hl : m.revisions.lookup r2 with _ | s
    · exfalso
      have hl' : lookupKey r2 m.revisions.entries = none := hl
      have hs : (Patch.applyOp m ⟨i, .review r2 c2 v2 in2, au, ts, k⟩).2 =
          some (.missing r2) := by
        simp [Patch.applyOp, GMap.lookup, hl']
      rw [h] at hs
      simp at hs
    · exact fromLookup r2 s hl (by simpa [touchesRev] using htr)
  | merge r2 cm2 =>
    rcases hl : m.revisions.lookup r2 with _ | s
    · exfalso
      have hl' : lookupKey r2 m.revisions.entries = none := hl
      have hs : (Patch.applyOp m ⟨i, .merge r2 cm2, au, ts, k⟩).2 = some (.missing r2) := by
        simp [Patch.applyOp, GMap.lookup, hl']
      rw [h] at hs
      simp at hs
    · exact fromLookup r2 s hl (by simpa [touchesRev] using htr)
  | thread r2 ta =>
    rcases hl : m.revisions.lookup r2 with _ | s
    · exfalso
      have hl' : lookupKey r2 m.revisions.entries = none := hl
      have hs : (Patch.applyOp m ⟨i, .thread r2 ta, au, ts, k⟩).2 = some (.missing r2) := by
        simp [Patch.applyOp, GMap.lookup, hl']
      rw [h] at hs
      simp at hs
    · exact fromLookup r2 s hl (by simpa [touchesRev] using htr)

/-- A successful thread modification finds its target comment in the
thread. -/
theorem Thread.applyOp_success_target (th th' : Thread) (op : Op ThreadAction) (c : Nat)
    (h : Thread.applyOp th op = (th', none)) (hc : thModTargetT op.action = some c) :
    th.comments.contains c = true := by
  rcases op with ⟨i, act, au, ts, k⟩
  cases act with
  | comment bd rt => simp [thModTargetT] at hc
  | redact cid =>
    have hcid : cid = c := by simpa [thModTargetT] using hc
    subst hcid
    rcases hl : th.comments.lookup cid with _ | s
    · exfalso
      have hl' : lookupKey cid th.comments.entries = none := hl
      have hs : (Thread.applyOp th ⟨i, .redact cid, au, ts, k⟩).2 =
          some (.missing cid) := by
        simp [Thread.applyOp, GMap.lookup, hl']
      rw [h] at hs
      simp at hs
    · have hl' : lookupKey cid th.comments.entries = some s := hl
      simp [GMap.contains, containsKey, hl']
  | edit cid bd =>
    have hcid : cid = c := by simpa [thModTargetT] using hc
    subst hcid
    rcases hl : th.comments.lookup cid with _ | s
    · exfalso
      have hl' : lookupKey cid th.comments.entries = none := hl
      have hs : (Thread.applyOp th ⟨i, .edit cid bd, au, ts, k⟩).2 =
          some (.missing cid) := by
        simp [Thread.applyOp, GMap.lookup, hl']
      rw [h] at hs
      simp at hs
    · have hl' : lookupKey cid th.comments.entries = some s := hl
      simp [GMap.contains, containsKey, hl']

/-- A successful patch thread modification witnesses its target comment
key in a present revision slot. -/
theorem Patch.applyOp_success_thmod (m m' : Patch) (b : Op Action) (c : Nat)
    (h : Patch.applyOp m b = (m', none)) (hc : thModTarget b.action = some c) :
    Patch.hasCKey m c := by
  rcases b with ⟨i, act, au, ts, k⟩
  cases act with
  | edit t d tg => simp [thModTarget] at hc
  | tag a rm => simp [thModTarget] at hc
  | revision d bs o => simp [thModTarget] at hc
  | redact r2 => simp [thModTarget] at hc
  | review r2 c2 v2 in2 => simp [thModTarget] at hc
  | merge r2 cm2 => simp [thModTarget] at hc
  | thread r2 ta =>
    have hta : thModTargetT ta = some c := by
      cases ta with
      | comment bd rt => simp [thModTarget] at hc
      | redact cc => simpa [thModTarget, thModTargetT] using hc
      | edit cc bd => simpa [thModTarget, thModTargetT] using hc
    rcases hl : m.revisions.lookup r2 with _ | s
    · exfalso
      have hl' : lookupKey r2 m.revisions.entries = none := hl
      have hs : (Patch.applyOp m ⟨i, .thread r2 ta, au, ts, k⟩).2 = some (.missing r2) := by
        simp [Patch.applyOp, GMap.lookup, hl']
      rw [h] at hs
      simp at hs
    · cases s with
      | redacted =>
        exfalso
        have hl' : lookupKey r2 m.revisions.entries = some .redacted := hl
        have hs : (Patch.applyOp m ⟨i, .thread r2 ta, au, ts, k⟩).2 =
            some (.missing r2) := by
          simp [Patch.applyOp, GMap.lookup, hl']
        rw [h] at hs
        simp at hs
      | present rev =>
        have hl' : lookupKey r2 m.revisions.entries = some (.present rev) := hl
        rcases hi : Thread.applyOp rev.discussion ⟨i, ta, au, ts, k⟩ with ⟨d2, e2⟩
        have hs : (Patch.applyOp m ⟨i, .thread r2 ta, au, ts, k⟩).2 =
            e2.map ApplyError.thread := by
          simp only [Patch.applyOp, GMap.lookup, GMap.modify, hl', hi]
        rw [h] at hs
        have he2 : e2 = none := by
          cases e2 with
          | none => rfl
          | some x => simp at hs
        subst he2
        have hcc : rev.discussion.comments.contains c = true :=
          Thread.applyOp_success_target rev.discussion d2 ⟨i, ta, au, ts, k⟩ c hi hta
        exact ⟨(r2, .present rev), lookupKey_mem r2 m.revisions.entries _ hl', rev, rfl, hcc⟩

theorem Patch.classOf_cases (act : Action) :
    Patch.classOf act = 0 ∨ Patch.classOf act = 1 ∨ Patch.classOf act = 2 := by
  cases act with
  | revision d b o => exact Or.inl rfl
  | edit t d tg => exact Or.inr (Or.inr rfl)
  | tag a r => exact Or.inr (Or.inr rfl)
  | redact r => exact Or.inr (Or.inr rfl)
  | review r c v i => exact Or.inr (Or.inr rfl)
  | merge r c => exact Or.inr (Or.inr rfl)
  | thread r ta =>
    cases ta with
    | comment bd rt => exact Or.inr (Or.inl rfl)
    | redact c => exact Or.inr (Or.inr rfl)
    | edit c b => exact Or.inr (Or.inr rfl)

/-- Main replay lemma: a successful application of a batch with pairwise
distinct operation ids from the default state computes the canonical
(class-ordered) evaluation of the batch. -/
theorem Patch.apply_eq_canonEval (l : List (Op Action)) (q : Patch)
    (hinj : (l.map Op.id).Nodup)
    (h : Patch.apply Patch.default l = (q, none)) : q = Patch.canonEval l := by
  induction l using List.reverseRecOn generalizing q with
  | nil =>
    have h1 : Patch.default = q := congrArg Prod.fst h
    rw [← h1]
    rfl
  | append_singleton l2 a ih =>
    rcases Patch.apply_split Patch.default l2 [a] q h with ⟨m, h1, h2⟩
    rcases Patch.apply_cons_success m a [] q h2 with ⟨m2, ha, hnil⟩
    have hm : m2 = q := congrArg Prod.fst hnil
    rw [hm] at ha
    have hg : q = Patch.gstep m a := Patch.applyOp_gstep_agree m q a ha
    have hinj2 : (l2.map Op.id).Nodup := by
      rw [List.map_append] at hinj
      exact hinj.of_append_left
    have hnotin : a.id ∉ l2.map Op.id := by
      rw [List.map_append] at hinj
      have hd := List.disjoint_of_nodup_append hinj
      intro hx
      exact hd hx (by simp)
    have hM : m = Patch.canonEval l2 := ih m hinj2 h1
    have hRefs : ∀ b ∈ l2, touchesRev b.action ≠ some a.id := by
      intro b hb htr
      rcases List.append_of_mem hb with ⟨u, v, huv⟩
      rw [huv] at h1
      rcases Patch.apply_split Patch.default u (b :: v) m h1 with ⟨mu, hu, huv2⟩
      rcases Patch.apply_cons_success mu b v m huv2 with ⟨mb, hbstep, _⟩
      have hcont : mu.revisions.contains a.id = true :=
        Patch.applyOp_success_touches mu mb b a.id hbstep htr
      rcases Patch.apply_rkey_src u mu hu a.id hcont with ⟨d, hd, hd0, hdid⟩
      apply hnotin
      rw [← hdid]
      refine List.mem_map_of_mem Op.id ?_
      rw [huv]
      exact List.mem_append_left _ hd
    have hThMods : ∀ b ∈ l2, thModTarget b.action ≠ some a.id := by
      intro b hb htr
      rcases List.append_of_mem hb with ⟨u, v, huv⟩
      rw [huv] at h1
      rcases Patch.apply_split Patch.default u (b :: v) m h1 with ⟨mu, hu, huv2⟩
      rcases Patch.apply_cons_success mu b v m huv2 with ⟨mb, hbstep, _⟩
      have hck : Patch.hasCKey mu a.id :=
        Patch.applyOp_success_thmod mu mb b a.id hbstep htr
      rcases Patch.apply_ckey_src u mu hu a.id hck with ⟨d, hd, hd1, hdid⟩
      apply hnotin
      rw [← hdid]
      refine List.mem_map_of_mem Op.id ?_
      rw [huv]
      exact List.mem_append_left _ hd
    rcases Patch.classOf_cases a.action with hc0 | hc1 | hc2
    · -- class 0: revision creation, commutes back over classes 1 and 2
      rcases a with ⟨ai, aact, aau, ats, ak⟩
      rcases Patch.classOf_zero aact hc0 with ⟨d0, b0, o0, haact⟩
      subst haact
      have hcomm : ∀ c ∈ (l2.filter (fun o => Patch.classOf o.action = 1) ++
          l2.filter (fun o => Patch.classOf o.action = 2)), ∀ p0 : Patch,
          Patch.gstep (Patch.gstep p0 ⟨ai, .revision d0 b0 o0, aau, ats, ak⟩) c =
            Patch.gstep (Patch.gstep p0 c) ⟨ai, .revision d0 b0 o0, aau, ats, ak⟩ := by
        intro c hc p0
        have hcl : c ∈ l2 ∧ Patch.classOf c.action ≠ 0 := by
          rcases List.mem_append.mp hc with hx | hx
          · rcases List.mem_filter.mp hx with ⟨h3, h4⟩
            exact ⟨h3, by rw [of_decide_eq_true h4]; exact one_ne_zero⟩
          · rcases List.mem_filter.mp hx with ⟨h3, h4⟩
            exact ⟨h3, by rw [of_decide_eq_true h4]; exact two_ne_zero⟩
        refine Patch.gstep_comm_of_astep p0 _ c (fun q0 => ?_)
        exact Patch.astep_comm_c0_other q0 ai aau ats ak b0 o0 d0 c hcl.2 (hRefs c hcl.1)
      rw [hg, hM]
      show Patch.gstep ((Patch.canon l2).foldl Patch.gstep Patch.default) _ =
        (Patch.canon (l2 ++ [⟨ai, .revision d0 b0 o0, aau, ats, ak⟩])).foldl
          Patch.gstep Patch.default
      rw [Patch.canon_append_c0 l2 _ hc0]
      unfold Patch.canon
      rw [List.foldl_append, List.foldl_append, List.foldl_append, List.foldl_append,
        List.foldl_append]
      have hp1 := Patch.foldl_gstep_pull
        (l2.filter (fun o => Patch.classOf o.action = 1))
        ⟨ai, .revision d0 b0 o0, aau, ats, ak⟩
        ((l2.filter (fun o => Patch.classOf o.action = 0)).foldl Patch.gstep Patch.default)
        (fun b hb q0 => hcomm b (List.mem_append_left _ hb) q0)
      have hp2 := Patch.foldl_gstep_pull
        (l2.filter (fun o => Patch.classOf o.action = 2))
        ⟨ai, .revision d0 b0 o0, aau, ats, ak⟩
        ((l2.filter (fun o => Patch.classOf o.action = 1)).foldl Patch.gstep
          ((l2.filter (fun o => Patch.classOf o.action = 0)).foldl Patch.gstep
            Patch.default))
        (fun b hb q0 => hcomm b (List.mem_append_right _ hb) q0)
      rw [List.foldl_cons, List.foldl_nil, hp1, hp2]
    · -- class 1: thread comment, commutes back over class 2
      rcases a with ⟨ai, aact, aau, ats, ak⟩
      rcases Patch.classOf_one aact hc1 with ⟨r0, bd0, rt0, haact⟩
      subst haact
      have hcomm : ∀ c ∈ l2.filter (fun o => Patch.classOf o.action = 2), ∀ p0 : Patch,
          Patch.gstep (Patch.gstep p0 ⟨ai, .thread r0 (.comment bd0 rt0), aau, ats, ak⟩) c =
            Patch.gstep (Patch.gstep p0 c)
              ⟨ai, .thread r0 (.comment bd0 rt0), aau, ats, ak⟩ := by
        intro c hc p0
        rcases List.mem_filter.mp hc with ⟨h3, h4⟩
        refine Patch.gstep_comm_of_astep p0 _ c (fun q0 => ?_)
        exact Patch.astep_comm_c1_c2 q0 ai r0 aau ats ak bd0 rt0 c
          (of_decide_eq_true h4) (hThMods c h3)
      rw [hg, hM]
      show Patch.gstep ((Patch.canon l2).foldl Patch.gstep Patch.default) _ =
        (Patch.canon (l2 ++ [⟨ai, .thread r0 (.comment bd0 rt0), aau, ats, ak⟩])).foldl
          Patch.gstep Patch.default
      rw [Patch.canon_append_c1 l2 _ hc1]
      unfold Patch.canon
      rw [List.foldl_append, List.foldl_append, List.foldl_append, List.foldl_append,
        List.foldl_append]
      have hp2 := Patch.foldl_gstep_pull
        (l2.filter (fun o => Patch.classOf o.action = 2))
        ⟨ai, .thread r0 (.comment bd0 rt0), aau, ats, ak⟩
        ((l2.filter (fun o => Patch.classOf o.action = 1)).foldl Patch.gstep
          ((l2.filter (fun o => Patch.classOf o.action = 0)).foldl Patch.gstep
            Patch.default))
        (fun b hb q0 => hcomm b hb q0)
      rw [List.foldl_cons, List.foldl_nil, hp2]
    · -- class 2: appended at the very end of the canonical order
      rw [hg, hM]
      show Patch.gstep ((Patch.canon l2).foldl Patch.gstep Patch.default) a =
        (Patch.canon (l2 ++ [a])).foldl Patch.gstep Patch.default
      rw [Patch.canon_append_c2 l2 a hc2, List.foldl_append]
      rfl

/-- The canonical evaluation is invariant under permutation of a batch
with pairwise distinct operation ids. -/
theorem Patch.canonEval_perm (l1 l2 : List (Op Action)) (hp : l1.Perm l2)
    (hinj : (l1.map Op.id).Nodup) : Patch.canonEval l1 = Patch.canonEval l2 := by
  have hinjfun : ∀ x ∈ l1, ∀ y ∈ l1, x.id = y.id → x = y :=
    fun x hx y hy hxy => List.inj_on_of_nodup_map hinj hx hy hxy
  have comm0 : ∀ x ∈ l1.filter (fun o => Patch.classOf o.action = 0),
      ∀ y ∈ l1.filter (fun o => Patch.classOf o.action = 0), ∀ z : Patch,
      Patch.gstep (Patch.gstep z x) y = Patch.gstep (Patch.gstep z y) x := by
    intro x hx y hy z
    rcases List.mem_filter.mp hx with ⟨hx1, hx2⟩
    rcases List.mem_filter.mp hy with ⟨hy1, hy2⟩
    by_cases hxy : x = y
    · rw [hxy]
    · have hne : x.id ≠ y.id := fun hid => hxy (hinjfun x hx1 y hy1 hid)
      rcases x with ⟨xi, xact, xau, xts, xk⟩
      rcases y with ⟨yi, yact, yau, yts, yk⟩
      rcases Patch.classOf_zero xact (of_decide_eq_true hx2) with ⟨dx, bx, ox, hxa⟩
      rcases Patch.classOf_zero yact (of_decide_eq_true hy2) with ⟨dy, bby, oy, hya⟩
      subst hxa
      subst hya
      refine Patch.gstep_comm_of_astep z _ _ (fun q0 => ?_)
      exact Patch.astep_comm_c0_c0 q0 xi yi xau yau xts yts xk yk bx ox bby oy dx dy hne
  have comm1 : ∀ x ∈ l1.filter (fun o => Patch.classOf o.action = 1),
      ∀ y ∈ l1.filter (fun o => Patch.classOf o.action = 1), ∀ z : Patch,
      Patch.gstep (Patch.gstep z x) y = Patch.gstep (Patch.gstep z y) x := by
    intro x hx y hy z
    rcases List.mem_filter.mp hx with ⟨hx1, hx2⟩
    rcases List.mem_filter.mp hy with ⟨hy1, hy2⟩
    by_cases hxy : x = y
    · rw [hxy]
    · have hne : x.id ≠ y.id := fun hid => hxy (hinjfun x hx1 y hy1 hid)
      rcases x with ⟨xi, xact, xau, xts, xk⟩
      rcases y with ⟨yi, yact, yau, yts, yk⟩
      rcases Patch.classOf_one xact (of_decide_eq_true hx2) with ⟨rx, bdx, rtx, hxa⟩
      rcases Patch.classOf_one yact (of_decide_eq_true hy2) with ⟨ry, bdy, rty, hya⟩
      subst hxa
      subst hya
      refine Patch.gstep_comm_of_astep z _ _ (fun q0 => ?_)
      exact Patch.astep_comm_c1_c1 q0 xi yi rx ry xau yau xts yts xk yk bdx bdy rtx rty hne
  have comm2 : ∀ x ∈ l1.filter (fun o => Patch.classOf o.action = 2),
      ∀ y ∈ l1.filter (fun o => Patch.classOf o.action = 2), ∀ z : Patch,
      Patch.gstep (Patch.gstep z x) y = Patch.gstep (Patch.gstep z y) x := by
    intro x hx y hy z
    rcases List.mem_filter.mp hx with ⟨hx1, hx2⟩
    rcases List.mem_filter.mp hy with ⟨hy1, hy2⟩
    refine Patch.gstep_comm_of_astep z _ _ (fun q0 => ?_)
    exact Patch.astep_comm_c2 q0 x y (of_decide_eq_true hx2) (of_decide_eq_true hy2)
  have hp0 := hp.filter (fun o => Patch.classOf o.action = 0)
  have hp1 := hp.filter (fun o => Patch.classOf o.action = 1)
  have hp2 := hp.filter (fun o => Patch.classOf o.action = 2)
  unfold Patch.canonEval Patch.canon
  rw [List.foldl_append, List.foldl_append, List.foldl_append, List.foldl_append]
  rw [hp0.foldl_eq' comm0 Patch.default]
  rw [hp1.foldl_eq' comm1 _]
  rw [hp2.foldl_eq' comm2 _]

end Radicle

namespace Radicle

/-! Claim theorems. -/

/-- C3: for all verdicts, merging accept with reject yields reject, and a
reject verdict is never changed by a merge — reject dominates accept. -/
theorem verdict_reject_dominates :
    Semilattice.merge Verdict.accept Verdict.reject = Verdict.reject ∧
      ∀ b : Verdict, Semilattice.merge Verdict.reject b = Verdict.reject :=
  ⟨rfl, fun b => by cases b <;> rfl⟩

/-- C10: the semilattice merge of two patch states combines the title,
description, state, target, tags and revisions fields but leaves the
receiver's timeline unchanged. -/
theorem patch_merge_timeline_frame (a b : Patch) :
    Semilattice.merge a b =
      { title := Semilattice.merge a.title b.title
        description := Semilattice.merge a.description b.description
        state := Semilattice.merge a.state b.state
        target := Semilattice.merge a.target b.target
        tags := Semilattice.merge a.tags b.tags
        revisions := Semilattice.merge a.revisions b.revisions
        timeline := a.timeline } := rfl

/-- C2: for a revision operation `a1` and a redact operation `a2`
targeting it, applying `[a1, a2, a1]` to the default patch yields exactly
the state of `[a1, a1, a2]`, both applications succeed, and the revision
slot ends redacted — re-applying a revision whose id is already a key of
the revisions map is a no-op. -/
theorem revision_reinsertion (id1 id2 author1 author2 ts1 ts2 c1 c2 base oid : Nat)
    (descr : String) :
    Patch.apply Patch.default
        [⟨id1, .revision descr base oid, author1, ts1, c1⟩,
          ⟨id2, .redact id1, author2, ts2, c2⟩,
          ⟨id1, .revision descr base oid, author1, ts1, c1⟩] =
      Patch.apply Patch.default
        [⟨id1, .revision descr base oid, author1, ts1, c1⟩,
          ⟨id1, .revision descr base oid, author1, ts1, c1⟩,
          ⟨id2, .redact id1, author2, ts2, c2⟩] ∧
    (Patch.apply Patch.default
        [⟨id1, .revision descr base oid, author1, ts1, c1⟩,
          ⟨id2, .redact id1, author2, ts2, c2⟩,
          ⟨id1, .revision descr base oid, author1, ts1, c1⟩]).2 = none ∧
    (Patch.apply Patch.default
        [⟨id1, .revision descr base oid, author1, ts1, c1⟩,
          ⟨id2, .redact id1, author2, ts2, c2⟩,
          ⟨id1, .revision descr base oid, author1, ts1, c1⟩]).1.revisions.lookup id1 =
      some .redacted := by
  refine ⟨?_, ?_, ?_⟩ <;>
    simp [Patch.apply, Patch.applyOp, Patch.default, GSet.insert, GSet.empty, GMap.insert,
      GMap.lookup, GMap.contains, GMap.modify, GMap.empty, containsKey, lookupKey, insKey,
      modifyKey, LinOrd.ble_refl, Semilattice.merge]
  rw [sinsert_comm (c1, id1) (c2, id2), sinsert_self]

/-- C4: applying a revision and then a redact of that revision leaves the
revisions iterator empty, and a following review or merge that references
the redacted revision fails to apply with a missing-dependency error. -/
theorem revision_redaction_blocks
    (id1 id2 id3 id4 au1 au2 au3 au4 ts1 ts2 ts3 ts4 k1 k2 k3 k4 base oid commit : Nat)
    (descr : String) (cm : Option String) (vd : Option Verdict) (inl : List CodeComment) :
    (Patch.apply Patch.default
        [⟨id1, .revision descr base oid, au1, ts1, k1⟩,
          ⟨id2, .redact id1, au2, ts2, k2⟩]).2 = none ∧
    (Patch.apply Patch.default
        [⟨id1, .revision descr base oid, au1, ts1, k1⟩,
          ⟨id2, .redact id1, au2, ts2, k2⟩]).1.revisionsList = [] ∧
    Patch.applyE
        (Patch.apply Patch.default
          [⟨id1, .revision descr base oid, au1, ts1, k1⟩,
            ⟨id2, .redact id1, au2, ts2, k2⟩]).1
        [⟨id3, .review id1 cm vd inl, au3, ts3, k3⟩] = .error (.missing id1) ∧
    Patch.applyE
        (Patch.apply Patch.default
          [⟨id1, .revision descr base oid, au1, ts1, k1⟩,
            ⟨id2, .redact id1, au2, ts2, k2⟩]).1
        [⟨id4, .merge id1 commit, au4, ts4, k4⟩] = .error (.missing id1) := by
  have hσ : Patch.apply Patch.default
      [⟨id1, .revision descr base oid, au1, ts1, k1⟩, ⟨id2, .redact id1, au2, ts2, k2⟩] =
      ({ title := LWWReg.from_ (Max.mk ""), description := LWWReg.from_ (Max.mk ""),
          state := LWWReg.from_ (Max.mk .proposed), target := LWWReg.from_ (Max.mk .delegates),
          tags := LWWSet.empty, revisions := ⟨[(id1, .redacted)]⟩,
          timeline := ⟨sinsert (k2, id2) (sinsert (k1, id1) [])⟩ }, none) := by
    simp [Patch.apply, Patch.applyOp, Patch.default, GSet.insert, GSet.empty, GMap.insert,
      GMap.lookup, GMap.contains, GMap.modify, GMap.empty, containsKey, lookupKey, insKey,
      modifyKey, LinOrd.ble_refl, Semilattice.merge]
  refine ⟨by rw [hσ], ?_, ?_, ?_⟩
  · rw [hσ]
    simp only [Patch.revisionsList]
    rw [List.filterMap_eq_nil_iff]
    intro t ht
    rcases mem_sinsert _ _ _ ht with h | h
    · subst h
      show (lookupKey id2 [(id1, Redactable.redacted)]).bind _ = none
      by_cases hk : (ble id2 id1 && ble id1 id2) = true
      · simp [lookupKey, hk, Redactable.get]
      · simp [lookupKey, hk]
    · have h2 : t = (k1, id1) := by
        rcases mem_sinsert _ _ _ h with h2 | h2
        · exact h2
        · simp at h2
      subst h2
      show (lookupKey id1 [(id1, Redactable.redacted)]).bind _ = none
      simp [lookupKey, LinOrd.ble_refl, Redactable.get]
  · rw [hσ]
    simp [Patch.applyE, Patch.apply, Patch.applyOp, GMap.lookup, lookupKey, LinOrd.ble_refl]
  · rw [hσ]
    simp [Patch.applyE, Patch.apply, Patch.applyOp, GMap.lookup, lookupKey, LinOrd.ble_refl]

/-- C5 counterexample: a patch with two revision slots, one redacted, has
one non-redacted revision but `version()` returns 1, not 0 — `version`
counts redacted slots. -/
theorem version_counts_redacted_slots :
    (Patch.apply Patch.default
        [⟨1, .revision "" 9 10, 7, 50, 1⟩, ⟨2, .revision "x" 9 11, 7, 51, 2⟩,
          ⟨3, .redact 2, 7, 52, 3⟩]).1.revisionsList.length = 1 ∧
    (Patch.apply Patch.default
        [⟨1, .revision "" 9 10, 7, 50, 1⟩, ⟨2, .revision "x" 9 11, 7, 51, 2⟩,
          ⟨3, .redact 2, 7, 52, 3⟩]).1.version = some 1 ∧
    (Patch.apply Patch.default
        [⟨1, .revision "" 9 10, 7, 50, 1⟩, ⟨2, .revision "x" 9 11, 7, 51, 2⟩,
          ⟨3, .redact 2, 7, 52, 3⟩]).1.version ≠
      some ((Patch.apply Patch.default
        [⟨1, .revision "" 9 10, 7, 50, 1⟩, ⟨2, .revision "x" 9 11, 7, 51, 2⟩,
          ⟨3, .redact 2, 7, 52, 3⟩]).1.revisionsList.length - 1) := by
  refine ⟨by decide, by decide, by decide⟩

/-- C5 amended: for every patch state with at least one revision slot,
`version()` returns the total number of revision slots minus one, counting
present and redacted slots alike. -/
theorem version_slots (p : Patch) (h : p.revisions.entries ≠ []) :
    p.version = some (p.presentCount + p.redactedCount - 1) := by
  have hlen : ∀ l : List (Nat × Redactable Revision),
      (l.filter (fun e =>
        match e.2 with
        | .present _ => true
        | .redacted => false)).length +
      (l.filter (fun e =>
        match e.2 with
        | .present _ => false
        | .redacted => true)).length = l.length := by
    intro l
    induction l with
    | nil => rfl
    | cons e t ih =>
      rcases e with ⟨k, s⟩
      cases s <;> simp [List.filter] <;> omega
  have hsum : p.presentCount + p.redactedCount = p.revisions.len := hlen p.revisions.entries
  unfold Patch.version
  rcases hl : p.revisions.len with _ | n
  · exact absurd (List.length_eq_zero.mp hl) h
  · rw [hsum, hl]
    simp

/-- Witness for the amended C5 on a concrete patch with a redacted slot. -/
theorem version_slots_witness :
    (Patch.apply Patch.default
        [⟨1, .revision "" 9 10, 7, 50, 1⟩, ⟨2, .revision "x" 9 11, 7, 51, 2⟩,
          ⟨3, .redact 2, 7, 52, 3⟩]).1.revisions.entries ≠ [] ∧
    (Patch.apply Patch.default
        [⟨1, .revision "" 9 10, 7, 50, 1⟩, ⟨2, .revision "x" 9 11, 7, 51, 2⟩,
          ⟨3, .redact 2, 7, 52, 3⟩]).1.version =
      some ((Patch.apply Patch.default
        [⟨1, .revision "" 9 10, 7, 50, 1⟩, ⟨2, .revision "x" 9 11, 7, 51, 2⟩,
          ⟨3, .redact 2, 7, 52, 3⟩]).1.presentCount +
        (Patch.apply Patch.default
        [⟨1, .revision "" 9 10, 7, 50, 1⟩, ⟨2, .revision "x" 9 11, 7, 51, 2⟩,
          ⟨3, .redact 2, 7, 52, 3⟩]).1.redactedCount - 1) :=
  ⟨by decide, version_slots _ (by decide)⟩

/-- C6: one author reviews a revision three times — accept with comment
LGTM, then reject without comment, then no verdict with comment Whoops! —
and the revision ends with exactly one review for that author, with
verdict reject and comment Whoops!. -/
theorem review_edit_scenario :
    (Patch.apply Patch.default
        [⟨1, .revision "" 100 200, 5, 50, 1⟩,
          ⟨2, .review 1 (some "LGTM") (some .accept) [], 5, 51, 2⟩,
          ⟨3, .review 1 none (some .reject) [], 5, 52, 3⟩,
          ⟨4, .review 1 (some "Whoops!") none [], 5, 53, 4⟩]).2 = none ∧
    (((Patch.apply Patch.default
        [⟨1, .revision "" 100 200, 5, 50, 1⟩,
          ⟨2, .review 1 (some "LGTM") (some .accept) [], 5, 51, 2⟩,
          ⟨3, .review 1 none (some .reject) [], 5, 52, 3⟩,
          ⟨4, .review 1 (some "Whoops!") none [], 5, 53, 4⟩]).1.revisions.lookup 1).bind
        Redactable.get).map (fun rev =>
          (rev.reviews.len, (rev.reviews.lookup 5).map (fun r => (r.verdictVal, r.commentVal)))) =
      some (1, some (some Verdict.reject, some "Whoops!")) := by
  refine ⟨by decide, by decide⟩

/-- C9 helper: when a single step fails with a missing dependency, the
only state change is the timeline entry recorded before the precondition
was evaluated. -/
theorem applyOp_missing_state (p : Patch) (op : Op Action) (e : Nat)
    (h : (Patch.applyOp p op).2 = some (.missing e)) :
    (Patch.applyOp p op).1 = tlIns (op.clock, op.id) p := by
  rcases op with ⟨id, act, au, ts, k⟩
  cases act with
  | edit t d tg => simp [Patch.applyOp] at h
  | tag a r => simp [Patch.applyOp] at h
  | revision d b o =>
    by_cases hc : (({ p with
        timeline := p.timeline.insert (k, id) } : Patch).revisions.contains id) = true <;>
      simp [Patch.applyOp, hc] at h
  | redact r =>
    rcases hl : ({ p with timeline := p.timeline.insert (k, r) } : Patch).revisions.lookup r with
      _ | s
    · simp only [Patch.applyOp] at h ⊢
      rw [hl] at h ⊢
      rfl
    · simp only [Patch.applyOp] at h
      rw [hl] at h
      simp at h
  | review r cm vd inl =>
    rcases hl : ({ p with timeline := p.timeline.insert (k, r) } : Patch).revisions.lookup r with
      _ | s
    · simp only [Patch.applyOp] at h ⊢
      rw [hl] at h ⊢
      rfl
    · rcases s with rev | _
      · simp only [Patch.applyOp] at h
        rw [hl] at h
        simp at h
      · simp only [Patch.applyOp] at h ⊢
        rw [hl] at h ⊢
        rfl
  | merge r c =>
    rcases hl : ({ p with timeline := p.timeline.insert (k, r) } : Patch).revisions.lookup r with
      _ | s
    · simp only [Patch.applyOp] at h ⊢
      rw [hl] at h ⊢
      rfl
    · rcases s with rev | _
      · simp only [Patch.applyOp] at h
        rw [hl] at h
        simp at h
      · simp only [Patch.applyOp] at h ⊢
        rw [hl] at h ⊢
        rfl
  | thread r act =>
    rcases hl : ({ p with timeline := p.timeline.insert (k, r) } : Patch).revisions.lookup r with
      _ | s
    · simp only [Patch.applyOp] at h ⊢
      rw [hl] at h ⊢
      rfl
    · rcases s with rev | _
      · simp only [Patch.applyOp] at h
        rw [hl] at h
        simp at h
      · simp only [Patch.applyOp] at h ⊢
        rw [hl] at h ⊢
        rfl

/-- Prefix decomposition of `apply`. -/
theorem apply_append (p : Patch) (l1 l2 : List (Op Action))
    (h : (Patch.apply p l1).2 = none) :
    Patch.apply p (l1 ++ l2) = Patch.apply (Patch.apply p l1).1 l2 := by
  induction l1 generalizing p with
  | nil => rfl
  | cons op t ih =>
    rcases h2 : Patch.applyOp p op with ⟨q, oe⟩
    cases oe with
    | none =>
      have hs : Patch.apply p (op :: t) = Patch.apply q t := by
        simp [Patch.apply, h2]
      rw [hs] at h
      show Patch.apply p (op :: (t ++ l2)) = _
      simp only [Patch.apply, h2, hs]
      exact ih q h
    | some e =>
      exfalso
      have : Patch.apply p (op :: t) = (q, some e) := by
        simp [Patch.apply, h2]
      rw [this] at h
      simp at h

/-- C9: `Patch::apply` records the timeline entry before checking the
action's precondition and does not roll back on error: when an operation
in a batch fails with a missing dependency, the result keeps the effects
of every earlier operation plus the failing operation's timeline entry,
and the rest of the batch is not applied. -/
theorem apply_not_atomic (p0 : Patch) (pre rest : List (Op Action)) (op : Op Action) (e : Nat)
    (hpre : (Patch.apply p0 pre).2 = none)
    (hop : (Patch.applyOp (Patch.apply p0 pre).1 op).2 = some (.missing e)) :
    Patch.apply p0 (pre ++ op :: rest) =
      (tlIns (op.clock, op.id) (Patch.apply p0 pre).1, some (.missing e)) := by
  rw [apply_append p0 pre (op :: rest) hpre]
  rcases h2 : Patch.applyOp (Patch.apply p0 pre).1 op with ⟨q, oe⟩
  have hq : q = tlIns (op.clock, op.id) (Patch.apply p0 pre).1 := by
    have := applyOp_missing_state (Patch.apply p0 pre).1 op e hop
    rw [h2] at this
    exact this
  have hoe : oe = some (.missing e) := by
    rw [h2] at hop
    exact hop
  subst hoe
  simp [Patch.apply, h2, hq]

/-- Witness for C9: a batch whose second operation redacts an unknown
revision keeps the first operation's effect and the failing operation's
timeline entry. -/
theorem apply_not_atomic_witness :
    (Patch.apply Patch.default [⟨1, .revision "" 5 6, 7, 8, 1⟩]).2 = none ∧
    (Patch.applyOp (Patch.apply Patch.default [⟨1, .revision "" 5 6, 7, 8, 1⟩]).1
        ⟨2, .redact 99, 7, 8, 2⟩).2 = some (.missing 99) ∧
    Patch.apply Patch.default
        ([⟨1, .revision "" 5 6, 7, 8, 1⟩] ++ ⟨2, .redact 99, 7, 8, 2⟩ :: [⟨3, .redact 1, 7, 9, 3⟩]) =
      (tlIns (2, 2) (Patch.apply Patch.default [⟨1, .revision "" 5 6, 7, 8, 1⟩]).1,
        some (.missing 99)) :=
  ⟨by decide, by decide,
    apply_not_atomic Patch.default [⟨1, .revision "" 5 6, 7, 8, 1⟩] [⟨3, .redact 1, 7, 9, 3⟩]
      ⟨2, .redact 99, 7, 8, 2⟩ 99 (by decide) (by decide)⟩

/-- C7 counterexample: `announce_refs` over a connection that emits no
line before EOF returns success, not an empty-response error. -/
theorem announce_refs_empty_ok :
    Node.announceRefs [] = .ok () ∧
    Node.announceRefs [] ≠ .error (.emptyResponse .announceRefs) := by
  refine ⟨rfl, fun h => Except.noConfusion h⟩

/-- C7 amended: the single-response commands (connect, seeds, fetch,
track and untrack of repos and nodes, sync-inventory) return the
empty-response error naming the command when the connection emits no line
before EOF; the streaming announce commands succeed on an empty stream
and the status probe reports not running. -/
theorem empty_response_per_command :
    Node.connect [] = .error (.emptyResponse .connect) ∧
    Node.seedsCmd [] = .error (.emptyResponse .seeds) ∧
    Node.fetchCmd [] = .error (.emptyResponse .fetch) ∧
    Node.trackRepo [] = .error (.emptyResponse .trackRepo) ∧
    Node.trackNode [] = .error (.emptyResponse .trackNode) ∧
    Node.untrackRepo [] = .error (.emptyResponse .untrackRepo) ∧
    Node.untrackNode [] = .error (.emptyResponse .untrackNode) ∧
    Node.syncInventory [] = .error (.emptyResponse .syncInventory) ∧
    Node.announceRefs [] = .ok () ∧
    Node.announceInventory [] = .ok () ∧
    Node.isRunning [] = false :=
  ⟨rfl, rfl, rfl, rfl, rfl, rfl, rfl, rfl, rfl, rfl, rfl⟩

namespace TestFormula

theorem parseGo_append (lex : String → Option (List String)) (path : String)
    (xs ys : List String) (acc : List Assertion) :
    parseGo lex path acc (xs ++ ys) =
      match parseGo lex path acc xs with
      | .ok acc2 => parseGo lex path acc2 ys
      | .error e => .error e := by
  induction xs generalizing acc with
  | nil => rfl
  | cons l t ih =>
    show parseGo lex path acc (l :: (t ++ ys)) = _
    by_cases hd : l.startsWith "$" = true
    · rcases hlex : lex ((l.drop 1).trim) with _ | ws
      · simp [parseGo, hd, hlex]
      · rcases ws with _ | ⟨cmd, args⟩
        · simp [parseGo, hd, hlex]
        · simp only [parseGo, hd, hlex, if_true]
          exact ih _
    · by_cases he : acc.isEmpty = true
      · simp [parseGo, hd, he]
      · simp only [parseGo, hd, he, if_false, if_true, ite_false, ite_true]
        exact ih _

theorem specIn_error (lex : String → Option (List String)) (path : String)
    (lines : List String) (ctx body : List String) (e : ParseError)
    (h : parseBlock lex path body = .error e) :
    specIn lex path ctx body lines = .error e := by
  induction lines generalizing body with
  | nil => simp [specIn, h, Except.map]
  | cons l t ih =>
    by_cases hf : l.startsWith "```" = true
    · simp [specIn, hf, h]
    · simp only [specIn, hf, if_false, ite_false]
      apply ih
      unfold parseBlock at h ⊢
      rw [parseGo_append]
      rw [h]

/-- Joint stepping lemma: outside a fence the source loop computes the
spec's block splitter, inside a fence it computes the spec's block parser
applied to the block body read so far. -/
theorem readGo_spec (lex : String → Option (List String)) (path : String)
    (lines : List String) :
    (∀ tests ctx, readGo lex path tests ⟨ctx, []⟩ false lines =
      (specGo lex path ctx lines).map (tests ++ ·)) ∧
    (∀ tests ctx acc body, parseGo lex path [] body = .ok acc →
      readGo lex path tests ⟨ctx, acc⟩ true lines =
        (specIn lex path ctx body lines).map (tests ++ ·)) := by
  induction lines with
  | nil =>
    constructor
    · intro tests ctx
      simp [readGo, specGo, Except.map]
    · intro tests ctx acc body hacc
      simp [readGo, specIn, parseBlock, hacc, Except.map]
  | cons l t ih =>
    constructor
    · intro tests ctx
      by_cases hf : l.startsWith "```" = true
      · have h1 : readGo lex path tests ⟨ctx, []⟩ false (l :: t) =
            readGo lex path tests ⟨ctx, []⟩ true t := by
          simp [readGo, hf]
        rw [h1, ih.2 tests ctx [] [] rfl]
        simp [specGo, hf]
      · have h1 : readGo lex path tests ⟨ctx, []⟩ false (l :: t) =
            readGo lex path tests ⟨ctx ++ [l], []⟩ false t := by
          simp [readGo, hf]
        rw [h1, ih.1 tests (ctx ++ [l])]
        simp [specGo, hf]
    · intro tests ctx acc body hacc
      by_cases hf : l.startsWith "```" = true
      · have h1 : readGo lex path tests ⟨ctx, acc⟩ true (l :: t) =
            readGo lex path (tests ++ [⟨ctx, acc⟩]) ⟨[], []⟩ false t := by
          simp [readGo, hf]
        rw [h1]
        rw [ih.1 (tests ++ [Test.mk ctx acc]) []]
        show _ = (specIn lex path ctx body (l :: t)).map (tests ++ ·)
        simp only [specIn, hf, if_true, ite_true, parseBlock, hacc]
        rcases hg : specGo lex path [] t with e | ts
        · simp [Except.map]
        · simp [Except.map]
      · by_cases hd : l.startsWith "$" = true
        · rcases hlex : lex ((l.drop 1).trim) with _ | ws
          · have h1 : readGo lex path tests ⟨ctx, acc⟩ true (l :: t) = .error .parse := by
              simp [readGo, hf, hd, hlex]
            rw [h1]
            have h2 : specIn lex path ctx body (l :: t) = .error .parse := by
              simp only [specIn, hf, if_false, ite_false]
              apply specIn_error
              show parseGo lex path [] (body ++ [l]) = .error .parse
              rw [parseGo_append, hacc]
              simp [parseGo, hd, hlex]
            rw [h2]
            rfl
          · rcases ws with _ | ⟨cmd, args⟩
            · have h1 : readGo lex path tests ⟨ctx, acc⟩ true (l :: t) = .error .parse := by
                simp [readGo, hf, hd, hlex]
              rw [h1]
              have h2 : specIn lex path ctx body (l :: t) = .error .parse := by
                simp only [specIn, hf, if_false, ite_false]
                apply specIn_error
                show parseGo lex path [] (body ++ [l]) = .error .parse
                rw [parseGo_append, hacc]
                simp [parseGo, hd, hlex]
              rw [h2]
              rfl
            · have h1 : readGo lex path tests ⟨ctx, acc⟩ true (l :: t) =
                  readGo lex path tests
                    ⟨ctx, acc ++ [⟨path, cmd, args, "", .success⟩]⟩ true t := by
                simp [readGo, hf, hd, hlex]
              rw [h1]
              have hacc2 : parseGo lex path [] (body ++ [l]) =
                  .ok (acc ++ [⟨path, cmd, args, "", .success⟩]) := by
                rw [parseGo_append, hacc]
                simp [parseGo, hd, hlex]
              rw [ih.2 tests ctx _ (body ++ [l]) hacc2]
              simp [specIn, hf]
        · by_cases he : acc.isEmpty = true
          · have h1 : readGo lex path tests ⟨ctx, acc⟩ true (l :: t) = .error .parse := by
              simp [readGo, hf, hd, he]
            rw [h1]
            have h2 : specIn lex path ctx body (l :: t) = .error .parse := by
              simp only [specIn, hf, if_false, ite_false]
              apply specIn_error
              show parseGo lex path [] (body ++ [l]) = .error .parse
              rw [parseGo_append, hacc]
              simp [parseGo, hd, he]
            rw [h2]
            rfl
          · have h1 : readGo lex path tests ⟨ctx, acc⟩ true (l :: t) =
                readGo lex path tests ⟨ctx, modifyLast (pushOutput l) acc⟩ true t := by
              simp [readGo, hf, hd, he]
            rw [h1]
            have hacc2 : parseGo lex path [] (body ++ [l]) =
                .ok (modifyLast (pushOutput l) acc) := by
              rw [parseGo_append, hacc]
              simp [parseGo, hd, he]
            rw [ih.2 tests ctx _ (body ++ [l]) hacc2]
            simp [specIn, hf]

end TestFormula

/-- C8: the scenario-file parser computes the specification parser: the
file splits at fence lines into blocks, each block parses on its own —
a `$` line begins a new assertion from the lexed command words with empty
expected output and expected success, any other line appends to the
current assertion's expected output, and a line beginning with the error
glyph marks the expected exit as failure — and the resulting (context,
assertions) pairs are listed in file order. -/
theorem scenario_parser_spec (lex : String → Option (List String)) (path : String)
    (lines : List String) :
    TestFormula.read lex path lines = TestFormula.readSpec lex path lines := by
  rw [TestFormula.read, TestFormula.readSpec, (TestFormula.readGo_spec lex path lines).1 [] []]
  rcases h : TestFormula.specGo lex path [] lines with e | ts <;> simp [Except.map]


/-- C1 counterexample: as stated, the convergence claim fails for
arbitrary finite lists of operations.  Two distinct revision operations
that share one operation id apply successfully in either order — the
second creation is skipped as a re-insertion — yet the two orders give
different final states. -/
theorem apply_perm_counterexample :
    ([⟨5, .revision "a" 0 0, 1, 1, 1⟩, ⟨5, .revision "b" 0 0, 2, 2, 2⟩] :
        List (Op Action)).Perm
      [⟨5, .revision "b" 0 0, 2, 2, 2⟩, ⟨5, .revision "a" 0 0, 1, 1, 1⟩] ∧
    (Patch.apply Patch.default
      [⟨5, .revision "a" 0 0, 1, 1, 1⟩, ⟨5, .revision "b" 0 0, 2, 2, 2⟩]).2 = none ∧
    (Patch.apply Patch.default
      [⟨5, .revision "b" 0 0, 2, 2, 2⟩, ⟨5, .revision "a" 0 0, 1, 1, 1⟩]).2 = none ∧
    (Patch.apply Patch.default
      [⟨5, .revision "a" 0 0, 1, 1, 1⟩, ⟨5, .revision "b" 0 0, 2, 2, 2⟩]).1 ≠
      (Patch.apply Patch.default
        [⟨5, .revision "b" 0 0, 2, 2, 2⟩, ⟨5, .revision "a" 0 0, 1, 1, 1⟩]).1 := by
  refine ⟨by decide, by decide, by decide, by decide⟩

/-- C1 (amended: the operations carry pairwise distinct ids, as the
content-addressed ids of distinct operations in a real history do): for
every batch of patch operations with pairwise distinct operation ids and
every permutation of it, if applying both orders to the default patch
succeeds without error, the two resulting patch states are equal — the
folded state is a pure function of the set of operations. -/
theorem patch_apply_convergence (l1 l2 : List (Op Action)) (q1 q2 : Patch)
    (hp : l1.Perm l2) (hinj : (l1.map Op.id).Nodup)
    (h1 : Patch.apply Patch.default l1 = (q1, none))
    (h2 : Patch.apply Patch.default l2 = (q2, none)) : q1 = q2 := by
  have hinj2 : (l2.map Op.id).Nodup := ((hp.map Op.id).nodup_iff).mp hinj
  rw [Patch.apply_eq_canonEval l1 q1 hinj h1, Patch.apply_eq_canonEval l2 q2 hinj2 h2]
  exact Patch.canonEval_perm l1 l2 hp hinj

theorem patch_apply_convergence_witness :
    (Patch.apply Patch.default
        [⟨1, .revision "x" 0 0, 7, 10, 1⟩, ⟨2, .revision "y" 0 0, 8, 11, 2⟩]).1 =
      (Patch.apply Patch.default
        [⟨2, .revision "y" 0 0, 8, 11, 2⟩, ⟨1, .revision "x" 0 0, 7, 10, 1⟩]).1 :=
  patch_apply_convergence
    [⟨1, .revision "x" 0 0, 7, 10, 1⟩, ⟨2, .revision "y" 0 0, 8, 11, 2⟩]
    [⟨2, .revision "y" 0 0, 8, 11, 2⟩, ⟨1, .revision "x" 0 0, 7, 10, 1⟩]
    _ _ (by decide) (by decide) rfl rfl

end Radicle
